import Mathlib

/-!
# quick-dive-into-mp4: box walker and typed box decoders

A shallow embedding of `src/mp4_example_02.go`, and, under `Example1`, of the
functions of `src/example_1.go`, the earlier version of the same reader without
the `moov` and `mvhd` decoders.

Modelling conventions
* A byte is a `Fin 256`; a Go `[]byte` and a Go `string` (a raw byte string) are
  both a `List Byte`.  A `nil` slice is the empty list: the program only ever
  takes its length, indexes it or re-slices it, and a `nil` slice behaves there
  like an empty slice of capacity 0.  Every slice the program re-slices comes from
  `make([]byte, n)` (capacity `n`) or is `nil`, so capacity and length coincide.
* `int64` values are `Int`; every `int64` addition or subtraction of the source is
  wrapped by `wrapInt64`.  `uint32` / `uint16` values are `Nat`.
* The `io.ReaderAt` behind an `Mp4Reader` is a finite byte list: `ReadAt(buf, off)`
  fills `buf` and returns no error exactly when `0 ≤ off` and `off + len(buf)` does
  not exceed the length of the source, and returns an error otherwise.
  A read of 0 bytes never happens: `ReadBytesAt` is only called with `n = 8` or,
  from `ReadBoxData`, with `n = Size - 8 > 0`.  The buffer `make([]byte, n)` is
  taken to be allocated for every `n ≥ 0`; a failing allocation is not modelled.
* The functions `Open` and `main` (opening a file, printing) are not modelled;
  `Parse` consults `Stat` only when `Size` is 0, which `FileStat` records.
* A run-time panic (slice bounds or index out of range) is the outcome `panic`.
  The walking loop of `readBoxes` has no loop bound in the source; it is modelled
  with a fuel counter that counts executions of the loop body, and `outOfFuel`
  means that the body would have to run more often than the fuel allows.
-/

namespace Mp4

/-- One byte. -/
abbrev Byte := Fin 256

/-- A Go string: the program builds strings from raw bytes with `string(b)`. -/
abbrev GoString := List Byte

/-- Outcome of running a piece of the program. -/
inductive Run (α : Type) where
  | done (a : α) : Run α
  | panic : Run α
  | outOfFuel : Run α
  deriving DecidableEq, Repr

/-- Sequencing: a panic (or running out of fuel) ends the run. -/
def Run.bind {α β : Type} (x : Run α) (f : α → Run β) : Run β :=
  match x with
  | .done a => f a
  | .panic => .panic
  | .outOfFuel => .outOfFuel

instance : Monad Run where
  pure := Run.done
  bind := Run.bind

/-- The constant `BoxHeaderSize = int64(8)`. -/
def BoxHeaderSize : Int := 8

/-- Two's complement wrap-around of an `int64` result. -/
def wrapInt64 (x : Int) : Int :=
  (x + 9223372036854775808) % 18446744073709551616 - 9223372036854775808

/-- The slice expression `s[lo:hi]` on a slice whose capacity equals its length. -/
def sliceOf (s : List Byte) (lo hi : Nat) : Run (List Byte) :=
  if lo ≤ hi ∧ hi ≤ s.length then .done ((s.drop lo).take (hi - lo)) else .panic

/-- The call `binary.BigEndian.Uint32(b)`: panics unless `b` has at least 4 bytes. -/
def beUint32 : List Byte → Run Nat
  | b0 :: b1 :: b2 :: b3 :: _ =>
      .done (b0.val * 16777216 + b1.val * 65536 + b2.val * 256 + b3.val)
  | _ => .panic

/-- The call `binary.BigEndian.Uint16(b)`: panics unless `b` has at least 2 bytes. -/
def beUint16 : List Byte → Run Nat
  | b0 :: b1 :: _ => .done (b0.val * 256 + b1.val)
  | _ => .panic

/-- The function `fixed16`, giving the raw 16 bits of an 8.8 value. -/
def fixed16 (bytes : List Byte) : Run Nat := beUint16 bytes

/-- The function `fixed32`, giving the raw 32 bits of a 16.16 value. -/
def fixed32 (bytes : List Byte) : Run Nat := beUint32 bytes

/-- The method `Fixed16.String`: the decimal text of `uint16(f) >> 8`. -/
def Fixed16.String (f : Nat) : String := Nat.repr (f % 65536 / 256)

/-- What the type assertion `m.Reader.(*os.File)` and the call `ofile.Stat()` of
`Parse` give for a reader: it is not an `*os.File`, or `Stat` fails, or `Stat`
reports a size. -/
inductive FileStat where
  | notFile : FileStat
  | statError : FileStat
  | size (n : Int) : FileStat
  deriving DecidableEq, Repr

/-- The `io.ReaderAt` of an `Mp4Reader`: the bytes of the source, and what `Parse`
learns from it when it is asked for the size of the source. -/
structure ReaderAt where
  data : List Byte
  file : FileStat
  deriving DecidableEq, Repr

/-- The call `m.Reader.ReadAt(buf, off)` with `len(buf) = n`: the bytes read, or
`none` when it returns an error. -/
def ReaderAt.ReadAt (r : ReaderAt) (n : Nat) (off : Int) : Option (List Byte) :=
  if 0 ≤ off ∧ off + (n : Int) ≤ (r.data.length : Int) then
    some ((r.data.drop off.toNat).take n)
  else none

/-- The method `Mp4Reader.ReadBytesAt`: `make([]byte, n)` panics for a negative `n`;
a failed read gives the `nil` slice.  That `make` also fails for an `n` beyond what
the Go runtime can allocate is not modelled: the theorems rely on a read only for
`n = 8`, for `n` at most the length of the source, or for `n` at most 25. -/
def ReadBytesAt (m : ReaderAt) (n : Int) (offset : Int) : Run (List Byte) :=
  if n < 0 then .panic
  else
    match m.ReadAt n.toNat offset with
    | none => .done []
    | some buf => .done buf

/-- The method `Mp4Reader.ReadBoxAt`. -/
def ReadBoxAt (m : ReaderAt) (offset : Int) : Run (Nat × GoString) := do
  let buf ← ReadBytesAt m BoxHeaderSize offset
  let boxSize ← (sliceOf buf 0 4).bind beUint32
  let boxType ← sliceOf buf 4 8
  return (boxSize, boxType)

/-- The struct `Box`.  Its `Reader` field points to the `Mp4Reader`; the only thing
read through that pointer is the `io.ReaderAt`, which is what is kept here. -/
structure Box where
  Name : GoString
  Size : Int
  Start : Int
  Reader : ReaderAt
  deriving DecidableEq, Repr

/-- The method `Box.ReadBoxData`. -/
def Box.ReadBoxData (b : Box) : Run (List Byte) :=
  if b.Size ≤ BoxHeaderSize then .done []
  else ReadBytesAt b.Reader (wrapInt64 (b.Size - BoxHeaderSize)) (wrapInt64 (b.Start + BoxHeaderSize))

/-- The loop of `readBoxes`: `limit` is `start+n`, `offset` and `l` are the loop
variables, the fuel bounds the number of executions of the body. -/
def readBoxesLoop (m : ReaderAt) (limit : Int) : Nat → Int → List Box → Run (List Box)
  | fuel, offset, l =>
    if offset < limit then
      match fuel with
      | 0 => .outOfFuel
      | fuel + 1 =>
          (ReadBoxAt m offset).bind fun (size, name) =>
            readBoxesLoop m limit fuel (wrapInt64 (offset + (size : Int)))
              (l ++ [{ Name := name, Size := (size : Int), Reader := m, Start := offset }])
    else .done l

/-- The function `readBoxes`. -/
def readBoxes (fuel : Nat) (m : ReaderAt) (start n : Int) : Run (List Box) :=
  readBoxesLoop m (wrapInt64 (start + n)) fuel start []

/-- The tag `"ftyp"`. -/
def tagFtyp : GoString := [0x66, 0x74, 0x79, 0x70]

/-- The tag `"moov"`. -/
def tagMoov : GoString := [0x6D, 0x6F, 0x6F, 0x76]

/-- The tag `"mvhd"`. -/
def tagMvhd : GoString := [0x6D, 0x76, 0x68, 0x64]

/-- The struct `FtypBox`, with the embedded `*Box` as parent structure. -/
structure FtypBox extends Box where
  MajorBrand : GoString := []
  MinorVersion : Nat := 0
  CompatibleBrands : List GoString := []
  deriving DecidableEq, Repr

/-- The loop `for i := 8; i < len(data); i += 4` of `FtypBox.parse`, from the
index `i` on, with the brands appended so far. -/
def FtypBox.parseLoop (data : List Byte) (i : Nat) (brands : List GoString) :
    Run (List GoString) :=
  if i < data.length then
    (sliceOf data i (i + 4)).bind fun s => FtypBox.parseLoop data (i + 4) (brands ++ [s])
  else .done brands
termination_by data.length - i
decreasing_by omega

/-- The method `FtypBox.parse`; the result is the receiver after the call (the
returned `error` is always `nil`). -/
def FtypBox.parse (b : FtypBox) : Run FtypBox := do
  let data ← b.toBox.ReadBoxData
  let major ← sliceOf data 0 4
  let minor ← (sliceOf data 4 8).bind beUint32
  let brands ←
    if data.length > 8 then FtypBox.parseLoop data 8 b.CompatibleBrands
    else pure b.CompatibleBrands
  return { b with MajorBrand := major, MinorVersion := minor, CompatibleBrands := brands }

/-- The struct `MvhdBox`. -/
structure MvhdBox extends Box where
  Flags : Nat := 0
  Version : Nat := 0
  CreationTime : Nat := 0
  ModificationTime : Nat := 0
  Timescale : Nat := 0
  Duration : Nat := 0
  Rate : Nat := 0
  Volume : Nat := 0
  deriving DecidableEq, Repr

/-- The index expression `s[i]`. -/
def indexOf (s : List Byte) (i : Nat) : Run Byte :=
  match s.get? i with
  | some v => .done v
  | none => .panic

/-- The method `MvhdBox.parse`; the result is the receiver after the call. -/
def MvhdBox.parse (b : MvhdBox) : Run MvhdBox := do
  let data ← b.toBox.ReadBoxData
  let version ← indexOf data 0
  let timescale ← (sliceOf data 12 16).bind beUint32
  let duration ← (sliceOf data 16 20).bind beUint32
  let rate ← (sliceOf data 20 24).bind fixed32
  let volume ← (sliceOf data 24 26).bind fixed16
  return { b with Version := version.val, Timescale := timescale, Duration := duration,
                  Rate := rate, Volume := volume }

/-- The struct `MoovBox`. -/
structure MoovBox extends Box where
  Mvhd : Option MvhdBox := none
  deriving DecidableEq, Repr

/-- The loop `for _, box := range boxes` of `MoovBox.parse`. -/
def MoovBox.parseLoop : List Box → MoovBox → Run MoovBox
  | [], b => .done b
  | box :: rest, b =>
    if box.Name = tagMvhd then
      (MvhdBox.parse { toBox := box }).bind fun mvhd =>
        MoovBox.parseLoop rest { b with Mvhd := some mvhd }
    else MoovBox.parseLoop rest b

/-- The method `MoovBox.parse`; the result is the receiver after the call. -/
def MoovBox.parse (fuel : Nat) (b : MoovBox) : Run MoovBox := do
  let boxes ← readBoxes fuel b.Reader (wrapInt64 (b.Start + BoxHeaderSize))
    (wrapInt64 (b.Size - BoxHeaderSize))
  MoovBox.parseLoop boxes b

/-- The struct `Mp4Reader`. -/
structure Mp4Reader where
  Reader : ReaderAt
  Ftyp : Option FtypBox := none
  Moov : Option MoovBox := none
  Size : Int := 0
  deriving DecidableEq, Repr

/-- A non-nil `error` value returned by `Parse`. -/
inductive GoError where
  | stat : GoError
  deriving DecidableEq, Repr

/-- The loop `for _, box := range boxes` of `Mp4Reader.Parse`. -/
def ParseLoop (fuel : Nat) : List Box → Mp4Reader → Run Mp4Reader
  | [], m => .done m
  | box :: rest, m =>
    if box.Name = tagFtyp then
      (FtypBox.parse { toBox := box }).bind fun ftyp =>
        ParseLoop fuel rest { m with Ftyp := some ftyp }
    else if box.Name = tagMoov then
      (MoovBox.parse fuel { toBox := box }).bind fun moov =>
        ParseLoop fuel rest { m with Moov := some moov }
    else ParseLoop fuel rest m

/-- The walk and dispatch of `Mp4Reader.Parse`, once `m.Size` is settled. -/
def ParseBody (fuel : Nat) (m : Mp4Reader) : Run (Mp4Reader × Option GoError) := do
  let boxes ← readBoxes fuel m.Reader 0 m.Size
  let m ← ParseLoop fuel boxes m
  return (m, none)

/-- The method `Mp4Reader.Parse`: the reader after the call and the returned
`error`. -/
def Parse (fuel : Nat) (m : Mp4Reader) : Run (Mp4Reader × Option GoError) :=
  if m.Size = 0 then
    match m.Reader.file with
    | .notFile => ParseBody fuel m
    | .statError => .done (m, some .stat)
    | .size n => ParseBody fuel { m with Size := n }
  else ParseBody fuel m

/-! ## Re-encoding, as the round-trip properties of the spec describe it

The program has no encoder; these follow the wording of the spec (big-endian
unsigned encodings) and are only used to state round-trip properties. -/

/-- The byte `v mod 256`. -/
def byteOfNat (v : Nat) : Byte := ⟨v % 256, Nat.mod_lt v (by decide)⟩

/-- Big-endian encoding of an unsigned 32-bit value in 4 bytes. -/
def putUint32 (v : Nat) : List Byte :=
  [byteOfNat (v / 16777216), byteOfNat (v / 65536), byteOfNat (v / 256), byteOfNat v]

/-- Big-endian encoding of an unsigned 16-bit value in 2 bytes. -/
def putUint16 (v : Nat) : List Byte := [byteOfNat (v / 256), byteOfNat v]

/-- Re-encoding of a box header: 4 big-endian size bytes, then the tag bytes. -/
def encodeHeader (size : Nat) (tag : GoString) : List Byte := putUint32 size ++ tag

/-- The 8 bytes of the source at `off`. -/
def headerAt (m : ReaderAt) (off : Int) : List Byte := (m.data.drop off.toNat).take 8

/-- A byte block that is one whole box: at least a header long, and its first 4
bytes declare, big-endian, exactly its own length. -/
def IsBoxBlock (blk : List Byte) : Prop := 8 ≤ blk.length ∧ beUint32 blk = .done blk.length

instance (blk : List Byte) : Decidable (IsBoxBlock blk) := by
  unfold IsBoxBlock
  exact inferInstance

/-- Concatenation of byte blocks. -/
def concatBlocks : List (List Byte) → List Byte
  | [] => []
  | blk :: rest => blk ++ concatBlocks rest

/-- The boxes that a sequence of box blocks laid out from offset `off` describes:
the tag is bytes 4..7 of a block, the size is the length of the block. -/
def boxesOf (m : ReaderAt) : Int → List (List Byte) → List Box
  | _, [] => []
  | off, blk :: rest =>
    { Name := (blk.drop 4).take 4, Size := (blk.length : Int), Start := off, Reader := m } ::
      boxesOf m (off + (blk.length : Int)) rest

/-- Sibling boxes laid out from `off` on: each starts where the previous one ends,
has a positive size, and carries the size and tag that `ReadBoxAt` decodes at its
start. -/
def Contiguous (m : ReaderAt) : Int → List Box → Prop
  | _, [] => True
  | off, b :: rest =>
    b.Start = off ∧ b.Reader = m ∧ 0 < b.Size ∧
      ReadBoxAt m off = .done (b.Size.toNat, b.Name) ∧ Contiguous m (off + b.Size) rest

/-- The payload bytes of a box: the `Size - 8` bytes of the source that follow the
8 header bytes at `Start`. -/
def payloadOf (b : Box) : List Byte :=
  (b.Reader.data.drop (b.Start + 8).toNat).take (b.Size - 8).toNat

/-- The big-endian unsigned 32-bit value of bytes `i .. i+3` of `s`. -/
def be32At (s : List Byte) (i : Nat) : Nat :=
  (s.getD i 0).val * 16777216 + (s.getD (i + 1) 0).val * 65536 +
    (s.getD (i + 2) 0).val * 256 + (s.getD (i + 3) 0).val

/-- The big-endian unsigned 16-bit value of bytes `i .. i+1` of `s`. -/
def be16At (s : List Byte) (i : Nat) : Nat :=
  (s.getD i 0).val * 256 + (s.getD (i + 1) 0).val

/-- Cutting a byte list into successive 4-byte chunks, the way the brand loop of
`FtypBox.parse` consumes it: a non-empty rest shorter than 4 bytes is a slice out
of range. -/
def chunks4 : List Byte → Run (List GoString)
  | [] => .done []
  | b0 :: b1 :: b2 :: b3 :: rest => (chunks4 rest).bind fun cs => .done ([b0, b1, b2, b3] :: cs)
  | _ => .panic

/-- The scenario source of the spec: header `00 00 00 14 "ftyp"` (declared size
20) followed by `"isom" 00 00 02 00 "iso2" "mp41"`, 24 bytes in all. -/
def scenarioFtyp : ReaderAt :=
  ⟨[0, 0, 0, 0x14, 0x66, 0x74, 0x79, 0x70, 0x69, 0x73, 0x6F, 0x6D, 0, 0, 2, 0,
    0x69, 0x73, 0x6F, 0x32, 0x6D, 0x70, 0x34, 0x31], .notFile⟩

/-- The scenario source with the size field set to the length of the source:
header `00 00 00 18 "ftyp"` (declared size 24) and the same 16 payload bytes. -/
def scenarioFtyp24 : ReaderAt :=
  ⟨[0, 0, 0, 0x18, 0x66, 0x74, 0x79, 0x70, 0x69, 0x73, 0x6F, 0x6D, 0, 0, 2, 0,
    0x69, 0x73, 0x6F, 0x32, 0x6D, 0x70, 0x34, 0x31], .notFile⟩

/-- An `ftyp` box with a 9-byte payload: header `00 00 00 11 "ftyp"`, then
`"isom" 00 00 02 00` and one trailing byte. -/
def ftypNineBytes : ReaderAt :=
  ⟨[0, 0, 0, 0x11, 0x66, 0x74, 0x79, 0x70, 0x69, 0x73, 0x6F, 0x6D, 0, 0, 2, 0, 0xAA],
    .notFile⟩

/-- The scenario payload of the spec for the movie header, behind a header
`00 00 00 22 "mvhd"` (declared size 34). -/
def scenarioMvhd : ReaderAt :=
  ⟨[0, 0, 0, 0x22, 0x6D, 0x76, 0x68, 0x64,
    0, 0, 0, 0, 0, 0, 0, 0, 0, 0, 0, 0, 0, 0, 0x03, 0xE8, 0, 0, 0, 0x64, 0, 1, 0, 0, 1, 0],
    .notFile⟩

/-- A source that is one top-level `moov` box: the header declares 8 plus the
length of the nested blocks, which follow it. -/
def moovSource (nested : List (List Byte)) (file : FileStat) : ReaderAt :=
  ⟨encodeHeader (8 + (concatBlocks nested).length) tagMoov ++ concatBlocks nested, file⟩

/-- The tag of a box block: its bytes 4..7. -/
def blockTag (blk : List Byte) : GoString := (blk.drop 4).take 4

/-- An 8-byte `free` box. -/
def freeBlock : List Byte := [0, 0, 0, 8, 0x66, 0x72, 0x65, 0x65]

/-- A 9-byte `skip` box: header `00 00 00 09 "skip"` and one payload byte. -/
def skipBlock : List Byte := [0, 0, 0, 9, 0x73, 0x6B, 0x69, 0x70, 0xAA]

/-- The 17-byte source made of `freeBlock` followed by `skipBlock`. -/
def twoBoxSource : ReaderAt :=
  ⟨[0, 0, 0, 8, 0x66, 0x72, 0x65, 0x65, 0, 0, 0, 9, 0x73, 0x6B, 0x69, 0x70, 0xAA], .notFile⟩

/-- A 34-byte `mvhd` box holding the scenario payload of the spec. -/
def mvhdBlock : List Byte :=
  [0, 0, 0, 0x22, 0x6D, 0x76, 0x68, 0x64,
   0, 0, 0, 0, 0, 0, 0, 0, 0, 0, 0, 0, 0, 0, 0x03, 0xE8, 0, 0, 0, 0x64, 0, 1, 0, 0, 1, 0]

/-- An 8-byte source whose only header declares size 0: `00 00 00 00 "free"`. -/
def sizeZeroSource : ReaderAt := ⟨[0, 0, 0, 0, 0x66, 0x72, 0x65, 0x65], .notFile⟩

/-- The size that `ReadBoxAt` decodes at `off`, if the header there is readable. -/
def sizeAt (m : ReaderAt) (off : Int) : Option Nat :=
  match ReadBoxAt m off with
  | .done (size, _) => some size
  | _ => none

/-- A `moov` box of declared size 12 (a 4-byte payload) directly followed by 30
more bytes: the 4 payload bytes `00 00 00 22` and the bytes after the box together
spell the 34-byte `mvhd` box of the scenario. -/
def moovTwelveSource : ReaderAt :=
  ⟨[0, 0, 0, 0x0C, 0x6D, 0x6F, 0x6F, 0x76,
    0, 0, 0, 0x22, 0x6D, 0x76, 0x68, 0x64,
    0, 0, 0, 0, 0, 0, 0, 0, 0, 0, 0, 0, 0, 0, 0x03, 0xE8, 0, 0, 0, 0x64, 0, 1, 0, 0, 1, 0],
    .notFile⟩

/-- A source that ends with a `moov` box of declared size 12: header and 4 payload
bytes, 12 bytes in all. -/
def moovTwelveAtEnd : ReaderAt :=
  ⟨[0, 0, 0, 0x0C, 0x6D, 0x6F, 0x6F, 0x76, 1, 2, 3, 4], .notFile⟩

/-- A header-only `ftyp` box: `00 00 00 08 "ftyp"`. -/
def ftypHeaderOnly : ReaderAt := ⟨[0, 0, 0, 8, 0x66, 0x74, 0x79, 0x70], .notFile⟩

/-- An `mvhd` box with a 25-byte payload (declared size 33). -/
def mvhdShort : ReaderAt :=
  ⟨[0, 0, 0, 0x21, 0x6D, 0x76, 0x68, 0x64,
    0, 0, 0, 0, 0, 0, 0, 0, 0, 0, 0, 0, 0, 0, 0x03, 0xE8, 0, 0, 0, 0x64, 0, 1, 0, 0, 1],
    .notFile⟩

/-- A header-only `moov` box: `00 00 00 08 "moov"`. -/
def moovHeaderOnly : ReaderAt := ⟨[0, 0, 0, 8, 0x6D, 0x6F, 0x6F, 0x76], .notFile⟩

/-- The offsets that the walk of `readBoxes` with loop bound `limit` comes to when
it is started at an offset: the offset itself, and, after a header read inside the
bound that succeeds, whatever the walk comes to from the next offset. -/
inductive Reaches (m : ReaderAt) (limit : Int) : Int → Int → Prop where
  | here (off : Int) : Reaches m limit off off
  | step (off : Int) (size : Nat) (name : GoString) (off' : Int) :
      off < limit → ReadBoxAt m off = .done (size, name) →
      Reaches m limit (wrapInt64 (off + (size : Int))) off' → Reaches m limit off off'

/-- A 12-byte source: an 8-byte `free` box followed by 4 bytes, too few for a
header. -/
def freeThenFour : ReaderAt :=
  ⟨[0, 0, 0, 8, 0x66, 0x72, 0x65, 0x65, 0, 0, 0, 8], .notFile⟩

/-- An 8-byte source whose only header declares size 100: `00 00 00 64 "free"`. -/
def overrunSource : ReaderAt := ⟨[0, 0, 0, 0x64, 0x66, 0x72, 0x65, 0x65], .notFile⟩

/-- Every header that the walk with loop bound `limit`, started at `start`, comes
to inside its bound is readable in full and declares a size of at least `k`. -/
def WalkDecodes (m : ReaderAt) (limit start : Int) (k : Nat) : Prop :=
  ∀ x : Int, Reaches m limit start x → x < limit →
    ∃ size name, ReadBoxAt m x = .done (size, name) ∧ k ≤ size

/-! ### The reader of `src/example_1.go`

The declarations of `Box` and `FtypBox` and the constant `BoxHeaderSize` are the
same in the two files and are shared; the functions are translated again, from
`src/example_1.go`. -/

/-- The struct `Mp4Reader` of `src/example_1.go`: it has no `Moov` field. -/
structure Example1.Mp4Reader where
  Reader : ReaderAt
  Ftyp : Option FtypBox := none
  Size : Int := 0
  deriving DecidableEq, Repr

/-- The method `Mp4Reader.ReadBytesAt` of `src/example_1.go`, modelled like
`Mp4.ReadBytesAt`. -/
def Example1.ReadBytesAt (m : ReaderAt) (n : Int) (offset : Int) : Run (List Byte) :=
  if n < 0 then .panic
  else
    match m.ReadAt n.toNat offset with
    | none => .done []
    | some buf => .done buf

/-- The method `Mp4Reader.ReadBoxAt` of `src/example_1.go`. -/
def Example1.ReadBoxAt (m : ReaderAt) (offset : Int) : Run (Nat × GoString) := do
  let buf ← Example1.ReadBytesAt m BoxHeaderSize offset
  let boxSize ← (sliceOf buf 0 4).bind beUint32
  let boxType ← sliceOf buf 4 8
  return (boxSize, boxType)

/-- The method `Box.ReadBoxData` of `src/example_1.go`. -/
def Example1.ReadBoxData (b : Box) : Run (List Byte) :=
  if b.Size ≤ BoxHeaderSize then .done []
  else Example1.ReadBytesAt b.Reader (wrapInt64 (b.Size - BoxHeaderSize))
    (wrapInt64 (b.Start + BoxHeaderSize))

/-- The loop of `readBoxes` of `src/example_1.go`. -/
def Example1.readBoxesLoop (m : ReaderAt) (limit : Int) : Nat → Int → List Box → Run (List Box)
  | fuel, offset, l =>
    if offset < limit then
      match fuel with
      | 0 => .outOfFuel
      | fuel + 1 =>
          (Example1.ReadBoxAt m offset).bind fun (size, name) =>
            Example1.readBoxesLoop m limit fuel (wrapInt64 (offset + (size : Int)))
              (l ++ [{ Name := name, Size := (size : Int), Reader := m, Start := offset }])
    else .done l

/-- The function `readBoxes` of `src/example_1.go`. -/
def Example1.readBoxes (fuel : Nat) (m : ReaderAt) (start n : Int) : Run (List Box) :=
  Example1.readBoxesLoop m (wrapInt64 (start + n)) fuel start []

/-- The brand loop of `FtypBox.parse` of `src/example_1.go`. -/
def Example1.ftypParseLoop (data : List Byte) (i : Nat) (brands : List GoString) :
    Run (List GoString) :=
  if i < data.length then
    (sliceOf data i (i + 4)).bind fun s => Example1.ftypParseLoop data (i + 4) (brands ++ [s])
  else .done brands
termination_by data.length - i
decreasing_by omega

/-- The method `FtypBox.parse` of `src/example_1.go`. -/
def Example1.ftypParse (b : FtypBox) : Run FtypBox := do
  let data ← Example1.ReadBoxData b.toBox
  let major ← sliceOf data 0 4
  let minor ← (sliceOf data 4 8).bind beUint32
  let brands ←
    if data.length > 8 then Example1.ftypParseLoop data 8 b.CompatibleBrands
    else pure b.CompatibleBrands
  return { b with MajorBrand := major, MinorVersion := minor, CompatibleBrands := brands }

/-- The loop `for _, box := range boxes` of `Mp4Reader.Parse` of
`src/example_1.go`: only `"ftyp"` is a case of its switch. -/
def Example1.ParseLoop : List Box → Example1.Mp4Reader → Run Example1.Mp4Reader
  | [], m => .done m
  | box :: rest, m =>
    if box.Name = tagFtyp then
      (Example1.ftypParse { toBox := box }).bind fun ftyp =>
        Example1.ParseLoop rest { m with Ftyp := some ftyp }
    else Example1.ParseLoop rest m

/-- The walk and dispatch of `Mp4Reader.Parse` of `src/example_1.go`, once
`m.Size` is settled. -/
def Example1.ParseBody (fuel : Nat) (m : Example1.Mp4Reader) :
    Run (Example1.Mp4Reader × Option GoError) := do
  let boxes ← Example1.readBoxes fuel m.Reader 0 m.Size
  let m ← Example1.ParseLoop boxes m
  return (m, none)

/-- The method `Mp4Reader.Parse` of `src/example_1.go`. -/
def Example1.Parse (fuel : Nat) (m : Example1.Mp4Reader) :
    Run (Example1.Mp4Reader × Option GoError) :=
  if m.Size = 0 then
    match m.Reader.file with
    | .notFile => Example1.ParseBody fuel m
    | .statError => .done (m, some .stat)
    | .size n => Example1.ParseBody fuel { m with Size := n }
  else Example1.ParseBody fuel m

/-- The reader of `src/example_1.go` that corresponds to a reader of
`src/mp4_example_02.go`: the same source, `Ftyp` and `Size`. -/
def toExample1 (m : Mp4Reader) : Example1.Mp4Reader :=
  { Reader := m.Reader, Ftyp := m.Ftyp, Size := m.Size }

/-- A 42-byte source: the `free` box followed by the `mvhd` box, with nothing
tagged `ftyp` or `moov`. -/
def freeThenMvhd : ReaderAt := ⟨freeBlock ++ mvhdBlock, .notFile⟩

/-! ### Sibling boxes given with their structure

Used to state that the decoded values do not depend on the order of the
top-level boxes: a `moov` box is given by the blocks nested in it, any other box
by its bytes. -/

/-- Cutting a byte list into its successive whole 4-byte chunks. -/
def chunksOf : List Byte → List GoString
  | b0 :: b1 :: b2 :: b3 :: rest => [b0, b1, b2, b3] :: chunksOf rest
  | _ => []

/-- The decoded values of an identification record: `MajorBrand`, `MinorVersion`,
`CompatibleBrands`. -/
def ftypValues (f : FtypBox) : GoString × Nat × List GoString :=
  (f.MajorBrand, f.MinorVersion, f.CompatibleBrands)

/-- The decoded values of a movie header record: `Version`, `Timescale`,
`Duration`, `Rate`, `Volume`. -/
def mvhdValues (h : MvhdBox) : Nat × Nat × Nat × Nat × Nat :=
  (h.Version, h.Timescale, h.Duration, h.Rate, h.Volume)

/-- The decoded values that `Parse` leaves in a reader: those of `Ftyp`, if
present, and, if `Moov` is present, those of its `Mvhd`, if present. -/
def decodedValues (m : Mp4Reader) :
    Option (GoString × Nat × List GoString) × Option (Option (Nat × Nat × Nat × Nat × Nat)) :=
  (m.Ftyp.map ftypValues, m.Moov.map fun moov => moov.Mvhd.map mvhdValues)

/-- The values that the bytes of an `ftyp` box hold: bytes 8..11, the big-endian
value of bytes 12..15, and the 4-byte chunks from byte 16 on. -/
def ftypValuesOfBlock (blk : List Byte) : GoString × Nat × List GoString :=
  ((blk.drop 8).take 4, be32At blk 12, chunksOf (blk.drop 16))

/-- The values that the bytes of an `mvhd` box hold, at the offsets of the box
(payload offsets plus 8). -/
def mvhdValuesOfBlock (blk : List Byte) : Nat × Nat × Nat × Nat × Nat :=
  ((blk.getD 8 0).val, be32At blk 20, be32At blk 24, be32At blk 28, be16At blk 32)

/-- The values of the last block tagged `mvhd` among nested blocks, or `acc` when
there is none. -/
def lastMvhdValues :
    List (List Byte) → Option (Nat × Nat × Nat × Nat × Nat) → Option (Nat × Nat × Nat × Nat × Nat)
  | [], acc => acc
  | n :: rest, acc =>
    lastMvhdValues rest (if blockTag n = tagMvhd then some (mvhdValuesOfBlock n) else acc)

/-- An `ftyp` block that `FtypBox.parse` can decode: a payload of at least 8
bytes whose brand list is made of whole 4-byte chunks. -/
def FtypDecodable (blk : List Byte) : Prop := 16 ≤ blk.length ∧ blk.length % 4 = 0

/-- A nested block that `MoovBox.parse` can handle: a whole box which, when it is
tagged `mvhd`, has a payload of at least 26 bytes. -/
def NestedDecodable (n : List Byte) : Prop :=
  IsBoxBlock n ∧ (blockTag n = tagMvhd → 34 ≤ n.length)

/-- A top-level box: a `moov` box, given by the blocks nested in it, or any other
box, given by its bytes.  The header of a whole box is determined by its length
and its tag, so every `moov` box whose payload is a sequence of blocks is of the
first form. -/
inductive Sibling where
  | moov (nested : List (List Byte)) : Sibling
  | plain (blk : List Byte) : Sibling
  deriving DecidableEq, Repr

/-- The bytes of a top-level box. -/
def Sibling.bytes : Sibling → List Byte
  | .moov nested => encodeHeader (8 + (concatBlocks nested).length) tagMoov ++ concatBlocks nested
  | .plain blk => blk

/-- A top-level box that is well formed and decodable. -/
def Sibling.WellFormed : Sibling → Prop
  | .moov nested =>
    (∀ n ∈ nested, NestedDecodable n) ∧ 8 + (concatBlocks nested).length ≤ 4294967295
  | .plain blk =>
    IsBoxBlock blk ∧ blockTag blk ≠ tagMoov ∧ (blockTag blk = tagFtyp → FtypDecodable blk)

/-- Whether a top-level box is tagged `ftyp`. -/
def Sibling.isFtyp : Sibling → Bool
  | .moov _ => false
  | .plain blk => decide (blockTag blk = tagFtyp)

/-- Whether a top-level box is tagged `moov`. -/
def Sibling.isMoov : Sibling → Bool
  | .moov _ => true
  | .plain _ => false

/-- Whether `Parse` has a case for the tag of a top-level box. -/
def Sibling.recognised (s : Sibling) : Bool := s.isFtyp || s.isMoov

/-- The effect of one top-level box on the decoded values. -/
def Sibling.stepValues (s : Sibling)
    (v : Option (GoString × Nat × List GoString) ×
      Option (Option (Nat × Nat × Nat × Nat × Nat))) :
    Option (GoString × Nat × List GoString) × Option (Option (Nat × Nat × Nat × Nat × Nat)) :=
  match s with
  | .moov nested => (v.1, some (lastMvhdValues nested none))
  | .plain blk => if blockTag blk = tagFtyp then (some (ftypValuesOfBlock blk), v.2) else v

/-- The source made of top-level boxes, one after the other. -/
def siblingsSource (sibs : List Sibling) (file : FileStat) : ReaderAt :=
  ⟨concatBlocks (sibs.map Sibling.bytes), file⟩

/-- An `ftyp` box of 24 bytes: `"isom"`, 512, `"iso2"`, `"mp41"`. -/
def ftypBlock : List Byte :=
  [0, 0, 0, 0x18, 0x66, 0x74, 0x79, 0x70, 0x69, 0x73, 0x6F, 0x6D, 0, 0, 2, 0,
   0x69, 0x73, 0x6F, 0x32, 0x6D, 0x70, 0x34, 0x31]

/-- The movie header values that a `moov` sibling carries. -/
def Sibling.moovValue : Sibling → Option (Nat × Nat × Nat × Nat × Nat)
  | .moov nested => lastMvhdValues nested none
  | .plain _ => none

instance (blk : List Byte) : Decidable (FtypDecodable blk) := by
  unfold FtypDecodable
  exact inferInstance

instance (n : List Byte) : Decidable (NestedDecodable n) := by
  unfold NestedDecodable
  exact inferInstance

instance (s : Sibling) : Decidable s.WellFormed := by
  cases s <;> unfold Sibling.WellFormed <;> exact inferInstance

/-- The size over which `Parse` walks: `m.Size`, or, when that is 0 and the reader
is a file, the size that `Stat` reports; `none` when `Stat` fails, in which case
`Parse` returns the error of `Stat` without walking. -/
def settledSize (m : Mp4Reader) : Option Int :=
  if m.Size = 0 then
    match m.Reader.file with
    | .notFile => some m.Size
    | .statError => none
    | .size n => some n
  else some m.Size

/-- The 12 bytes of `freeThenFour`, read from a file whose `Stat` reports 12. -/
def freeThenFourFile : ReaderAt :=
  ⟨[0, 0, 0, 8, 0x66, 0x72, 0x65, 0x65, 0, 0, 0, 8], .size 12⟩

/-! ## Basic facts -/

theorem wrapInt64_of_inRange (x : Int) (h0 : -9223372036854775808 ≤ x)
    (h1 : x < 9223372036854775808) : wrapInt64 x = x := by
  unfold wrapInt64
  omega

theorem wrapInt64_lower (x : Int) : -9223372036854775808 ≤ wrapInt64 x := by
  unfold wrapInt64
  omega

theorem wrapInt64_upper (x : Int) : wrapInt64 x < 9223372036854775808 := by
  unfold wrapInt64
  omega

@[simp]
theorem Run.bind_done {α β : Type} (a : α) (f : α → Run β) :
    (Run.done a).bind f = f a := rfl

@[simp]
theorem Run.bind_panic {α β : Type} (f : α → Run β) :
    (Run.panic : Run α).bind f = .panic := rfl

@[simp]
theorem Run.bind_outOfFuel {α β : Type} (f : α → Run β) :
    (Run.outOfFuel : Run α).bind f = .outOfFuel := rfl

@[simp]
theorem Run.bind_eq_bind {α β : Type} (x : Run α) (f : α → Run β) :
    (x >>= f) = x.bind f := rfl

@[simp]
theorem Run.pure_eq_done {α : Type} (a : α) : (pure a : Run α) = .done a := rfl

theorem byte_val_lt (b : Byte) : b.val < 256 := b.isLt

theorem byteOfNat_val (v : Nat) : (byteOfNat v).val = v % 256 := rfl

theorem byteOfNat_of_val (b : Byte) (k : Nat) (h : k % 256 = b.val) : byteOfNat k = b := by
  apply Fin.ext
  simp [byteOfNat_val, h]

/-- Encoding the value of four bytes gives the four bytes back. -/
theorem putUint32_value (b0 b1 b2 b3 : Byte) :
    putUint32 (b0.val * 16777216 + b1.val * 65536 + b2.val * 256 + b3.val) = [b0, b1, b2, b3] := by
  have h0 := b0.isLt
  have h1 := b1.isLt
  have h2 := b2.isLt
  have h3 := b3.isLt
  unfold putUint32
  rw [byteOfNat_of_val b0 _ (by omega), byteOfNat_of_val b1 _ (by omega),
    byteOfNat_of_val b2 _ (by omega), byteOfNat_of_val b3 _ (by omega)]

/-- Encoding the value of two bytes gives the two bytes back. -/
theorem putUint16_value (b0 b1 : Byte) : putUint16 (b0.val * 256 + b1.val) = [b0, b1] := by
  have h0 := b0.isLt
  have h1 := b1.isLt
  unfold putUint16
  rw [byteOfNat_of_val b0 _ (by omega), byteOfNat_of_val b1 _ (by omega)]

/-- Decoding the encoding of a 32-bit value gives the value back. -/
theorem beUint32_putUint32 (v : Nat) (h : v < 4294967296) (rest : List Byte) :
    beUint32 (putUint32 v ++ rest) = .done v := by
  simp only [putUint32, beUint32, List.cons_append, List.nil_append, byteOfNat_val]
  congr 1
  omega

/-- Decoding the encoding of a 16-bit value gives the value back. -/
theorem beUint16_putUint16 (v : Nat) (h : v < 65536) (rest : List Byte) :
    beUint16 (putUint16 v ++ rest) = .done v := by
  simp only [putUint16, beUint16, List.cons_append, List.nil_append, byteOfNat_val]
  congr 1
  omega

theorem beUint32_lt (s : List Byte) (v : Nat) (h : beUint32 s = .done v) : v < 4294967296 := by
  match s, h with
  | b0 :: b1 :: b2 :: b3 :: _, h =>
    simp only [beUint32, Run.done.injEq] at h
    have h0 := b0.isLt
    have h1 := b1.isLt
    have h2 := b2.isLt
    have h3 := b3.isLt
    omega

/-- A list of length 8 is its eight elements. -/
theorem list_eq_of_length_eight (s : List Byte) (h : s.length = 8) :
    ∃ b0 b1 b2 b3 b4 b5 b6 b7, s = [b0, b1, b2, b3, b4, b5, b6, b7] := by
  match s, h with
  | [b0, b1, b2, b3, b4, b5, b6, b7], _ => exact ⟨b0, b1, b2, b3, b4, b5, b6, b7, rfl⟩

theorem headerAt_length (m : ReaderAt) (off : Int) (h0 : 0 ≤ off)
    (h8 : off + 8 ≤ (m.data.length : Int)) : (headerAt m off).length = 8 := by
  simp only [headerAt, List.length_take, List.length_drop]
  omega

theorem ReadAt_of_inRange (r : ReaderAt) (n : Nat) (off : Int) (h0 : 0 ≤ off)
    (h : off + (n : Int) ≤ (r.data.length : Int)) :
    r.ReadAt n off = some ((r.data.drop off.toNat).take n) := by
  unfold ReaderAt.ReadAt
  rw [if_pos ⟨h0, h⟩]

theorem ReadAt_of_not_inRange (r : ReaderAt) (n : Nat) (off : Int)
    (h : ¬ (0 ≤ off ∧ off + (n : Int) ≤ (r.data.length : Int))) : r.ReadAt n off = none := by
  unfold ReaderAt.ReadAt
  rw [if_neg h]

theorem ReadBytesAt_of_inRange (m : ReaderAt) (n : Nat) (off : Int) (h0 : 0 ≤ off)
    (h : off + (n : Int) ≤ (m.data.length : Int)) :
    ReadBytesAt m (n : Int) off = .done ((m.data.drop off.toNat).take n) := by
  unfold ReadBytesAt
  rw [if_neg (by omega), Int.toNat_natCast, ReadAt_of_inRange m n off h0 h]

theorem ReadBytesAt_header (m : ReaderAt) (off : Int) (h0 : 0 ≤ off)
    (h8 : off + 8 ≤ (m.data.length : Int)) :
    ReadBytesAt m BoxHeaderSize off = .done (headerAt m off) :=
  ReadBytesAt_of_inRange m 8 off h0 h8

theorem ReadBytesAt_header_fail (m : ReaderAt) (off : Int)
    (h : ¬ (0 ≤ off ∧ off + 8 ≤ (m.data.length : Int))) :
    ReadBytesAt m BoxHeaderSize off = .done [] := by
  have h8 : BoxHeaderSize = ((8 : Nat) : Int) := rfl
  unfold ReadBytesAt
  rw [h8, if_neg (by omega), Int.toNat_natCast, ReadAt_of_not_inRange m 8 off h]

/-- A header read that fails makes `ReadBoxAt` panic on the `nil` buffer. -/
theorem ReadBoxAt_unreadable (m : ReaderAt) (off : Int)
    (h : ¬ (0 ≤ off ∧ off + 8 ≤ (m.data.length : Int))) : ReadBoxAt m off = .panic := by
  simp [ReadBoxAt, ReadBytesAt_header_fail m off h, sliceOf]

/-- What `ReadBoxAt` returns when the 8 bytes at `off` are known. -/
theorem ReadBoxAt_of_header (m : ReaderAt) (off : Int) (h0 : 0 ≤ off)
    (h8 : off + 8 ≤ (m.data.length : Int)) (b0 b1 b2 b3 b4 b5 b6 b7 : Byte)
    (hh : headerAt m off = [b0, b1, b2, b3, b4, b5, b6, b7]) :
    ReadBoxAt m off =
      .done (b0.val * 16777216 + b1.val * 65536 + b2.val * 256 + b3.val, [b4, b5, b6, b7]) := by
  simp [ReadBoxAt, ReadBytesAt_header m off h0 h8, hh, sliceOf, beUint32]

/-! ## C3: header decoding -/

/-- C3: at every offset at which 8 bytes are readable, `ReadBoxAt` returns the
big-endian unsigned 32-bit value of the first 4 header bytes (a value in
`[0, 2^32-1]`, so never negative as an `int64`) and the next 4 bytes verbatim, and
re-encoding that pair as 4 big-endian size bytes followed by the tag reproduces
the 8 header bytes; conversely every header encoded from a size below `2^32` and
a 4-byte tag is decoded to that size and tag. -/
theorem ReadBoxAt_header_roundtrip :
    (∀ (m : ReaderAt) (off : Int), 0 ≤ off → off + 8 ≤ (m.data.length : Int) →
      ∃ b0 b1 b2 b3 b4 b5 b6 b7 : Byte,
        headerAt m off = [b0, b1, b2, b3, b4, b5, b6, b7] ∧
        ∃ size : Nat,
          size = b0.val * 16777216 + b1.val * 65536 + b2.val * 256 + b3.val ∧
          ReadBoxAt m off = .done (size, [b4, b5, b6, b7]) ∧
          (0 : Int) ≤ (size : Int) ∧ size ≤ 4294967295 ∧
          encodeHeader size [b4, b5, b6, b7] = headerAt m off) ∧
    (∀ (size : Nat) (tag : GoString) (pre post : List Byte) (file : FileStat),
      size ≤ 4294967295 → tag.length = 4 →
      ReadBoxAt ⟨pre ++ encodeHeader size tag ++ post, file⟩ (pre.length : Int) =
        .done (size, tag)) := by
  constructor
  · intro m off h0 h8
    obtain ⟨b0, b1, b2, b3, b4, b5, b6, b7, hh⟩ :=
      list_eq_of_length_eight _ (headerAt_length m off h0 h8)
    refine ⟨b0, b1, b2, b3, b4, b5, b6, b7, hh, _, rfl,
      ReadBoxAt_of_header m off h0 h8 _ _ _ _ _ _ _ _ hh, Int.natCast_nonneg _, ?_, ?_⟩
    · have h0 := b0.isLt
      have h1 := b1.isLt
      have h2 := b2.isLt
      have h3 := b3.isLt
      omega
    · rw [hh, encodeHeader, putUint32_value]
      rfl
  · intro size tag pre post file hs ht
    match tag, ht with
    | [t0, t1, t2, t3], _ =>
      have hlen : (pre.length : Int) + 8 ≤
          ((⟨pre ++ encodeHeader size [t0, t1, t2, t3] ++ post, file⟩ : ReaderAt).data.length : Int) := by
        simp [encodeHeader, putUint32]
        omega
      have hh : headerAt ⟨pre ++ encodeHeader size [t0, t1, t2, t3] ++ post, file⟩ (pre.length : Int)
          = putUint32 size ++ [t0, t1, t2, t3] := by
        simp [headerAt, encodeHeader, putUint32]
      have := ReadBoxAt_of_header _ _ (Int.natCast_nonneg _) hlen
        (byteOfNat (size / 16777216)) (byteOfNat (size / 65536)) (byteOfNat (size / 256))
        (byteOfNat size) t0 t1 t2 t3 (by rw [hh]; rfl)
      rw [this]
      simp only [byteOfNat_val]
      congr 2
      omega

/-- C3 witness: a header `00 00 00 14 "ftyp"` at offset 2 of a 12-byte source. -/
theorem ReadBoxAt_header_roundtrip_witness :
    (∃ b0 b1 b2 b3 b4 b5 b6 b7 : Byte,
        headerAt ⟨[9, 9, 0, 0, 0, 0x14, 0x66, 0x74, 0x79, 0x70, 7, 7], .notFile⟩ 2 =
          [b0, b1, b2, b3, b4, b5, b6, b7] ∧
        ∃ size : Nat,
          size = b0.val * 16777216 + b1.val * 65536 + b2.val * 256 + b3.val ∧
          ReadBoxAt ⟨[9, 9, 0, 0, 0, 0x14, 0x66, 0x74, 0x79, 0x70, 7, 7], .notFile⟩ 2 =
            .done (size, [b4, b5, b6, b7]) ∧
          (0 : Int) ≤ (size : Int) ∧ size ≤ 4294967295 ∧
          encodeHeader size [b4, b5, b6, b7] =
            headerAt ⟨[9, 9, 0, 0, 0, 0x14, 0x66, 0x74, 0x79, 0x70, 7, 7], .notFile⟩ 2) ∧
    ReadBoxAt ⟨[9, 9] ++ encodeHeader 20 tagFtyp ++ [7, 7], .notFile⟩ (([9, 9] : List Byte).length : Int) =
      .done (20, tagFtyp) :=
  ⟨ReadBoxAt_header_roundtrip.1 ⟨[9, 9, 0, 0, 0, 0x14, 0x66, 0x74, 0x79, 0x70, 7, 7], .notFile⟩ 2
      (by decide) (by decide),
   ReadBoxAt_header_roundtrip.2 20 tagFtyp [9, 9] [7, 7] .notFile (by decide) (by decide)⟩

/-! ## C4: fixed-point decoding -/

/-- C4: `fixed32` of the 4-byte big-endian encoding of any 32-bit pattern `v` is
`v`, `fixed16` of the 2-byte big-endian encoding of any 16-bit pattern `w` is `w`;
conversely on every 4-byte (2-byte) input `fixed32` (`fixed16`) returns a value
whose big-endian encoding is the input, so decoding loses no bits and never
fails on such an input. -/
theorem fixed_point_roundtrip :
    (∀ v : Nat, v < 4294967296 → fixed32 (putUint32 v) = .done v) ∧
    (∀ w : Nat, w < 65536 → fixed16 (putUint16 w) = .done w) ∧
    (∀ b : List Byte, b.length = 4 →
      ∃ v : Nat, fixed32 b = .done v ∧ v < 4294967296 ∧ putUint32 v = b) ∧
    (∀ b : List Byte, b.length = 2 →
      ∃ w : Nat, fixed16 b = .done w ∧ w < 65536 ∧ putUint16 w = b) := by
  refine ⟨?_, ?_, ?_, ?_⟩
  · intro v hv
    have := beUint32_putUint32 v hv []
    simpa [fixed32] using this
  · intro w hw
    have := beUint16_putUint16 w hw []
    simpa [fixed16] using this
  · intro b hb
    match b, hb with
    | [b0, b1, b2, b3], _ =>
      refine ⟨_, rfl, ?_, putUint32_value b0 b1 b2 b3⟩
      have h0 := b0.isLt
      have h1 := b1.isLt
      have h2 := b2.isLt
      have h3 := b3.isLt
      omega
  · intro b hb
    match b, hb with
    | [b0, b1], _ =>
      refine ⟨_, rfl, ?_, putUint16_value b0 b1⟩
      have h0 := b0.isLt
      have h1 := b1.isLt
      omega

/-- C4 witness: the 16.16 value 1.5 (`0x00018000`) and the 8.8 value 1.0
(`0x0100`), in both directions. -/
theorem fixed_point_roundtrip_witness :
    fixed32 (putUint32 98304) = .done 98304 ∧
    fixed16 (putUint16 256) = .done 256 ∧
    (∃ v : Nat, fixed32 [0, 1, 0x80, 0] = .done v ∧ v < 4294967296 ∧
      putUint32 v = [0, 1, 0x80, 0]) ∧
    (∃ w : Nat, fixed16 [1, 0] = .done w ∧ w < 65536 ∧ putUint16 w = [1, 0]) :=
  ⟨fixed_point_roundtrip.1 98304 (by decide),
   fixed_point_roundtrip.2.1 256 (by decide),
   fixed_point_roundtrip.2.2.1 [0, 1, 0x80, 0] (by decide),
   fixed_point_roundtrip.2.2.2 [1, 0] (by decide)⟩

/-! ## The walking loop -/

theorem readBoxesLoop_exit (m : ReaderAt) (limit : Int) (fuel : Nat) (off : Int) (l : List Box)
    (h : ¬ off < limit) : readBoxesLoop m limit fuel off l = .done l := by
  cases fuel <;> simp [readBoxesLoop, h]

theorem readBoxesLoop_zero (m : ReaderAt) (limit : Int) (off : Int) (l : List Box)
    (h : off < limit) : readBoxesLoop m limit 0 off l = .outOfFuel := by
  simp [readBoxesLoop, h]

theorem readBoxesLoop_succ (m : ReaderAt) (limit : Int) (fuel : Nat) (off : Int) (l : List Box)
    (h : off < limit) :
    readBoxesLoop m limit (fuel + 1) off l =
      (ReadBoxAt m off).bind fun (size, name) =>
        readBoxesLoop m limit fuel (wrapInt64 (off + (size : Int)))
          (l ++ [{ Name := name, Size := (size : Int), Reader := m, Start := off }]) := by
  rw [readBoxesLoop, if_pos h]

/-- One iteration on a readable header. -/
theorem readBoxesLoop_step (m : ReaderAt) (limit : Int) (fuel : Nat) (off : Int) (l : List Box)
    (h : off < limit) (size : Nat) (name : GoString) (hr : ReadBoxAt m off = .done (size, name)) :
    readBoxesLoop m limit (fuel + 1) off l =
      readBoxesLoop m limit fuel (wrapInt64 (off + (size : Int)))
        (l ++ [{ Name := name, Size := (size : Int), Reader := m, Start := off }]) := by
  rw [readBoxesLoop_succ m limit fuel off l h, hr]
  rfl

/-- One iteration on an unreadable header. -/
theorem readBoxesLoop_panic (m : ReaderAt) (limit : Int) (fuel : Nat) (off : Int) (l : List Box)
    (h : off < limit) (hr : ReadBoxAt m off = .panic) :
    readBoxesLoop m limit (fuel + 1) off l = .panic := by
  rw [readBoxesLoop_succ m limit fuel off l h, hr]
  rfl

/-- The method `ReadBoxAt` panics or returns; it never runs out of fuel, having no
loop. -/
theorem ReadBoxAt_cases (m : ReaderAt) (off : Int) :
    ReadBoxAt m off = .panic ∨
    ∃ size name, ReadBoxAt m off = .done (size, name) ∧ size < 4294967296 ∧
      0 ≤ off ∧ off + 8 ≤ (m.data.length : Int) := by
  by_cases h : 0 ≤ off ∧ off + 8 ≤ (m.data.length : Int)
  · obtain ⟨b0, b1, b2, b3, b4, b5, b6, b7, hh⟩ :=
      list_eq_of_length_eight _ (headerAt_length m off h.1 h.2)
    refine Or.inr ⟨_, _, ReadBoxAt_of_header m off h.1 h.2 _ _ _ _ _ _ _ _ hh, ?_, h.1, h.2⟩
    have h0 := b0.isLt
    have h1 := b1.isLt
    have h2 := b2.isLt
    have h3 := b3.isLt
    omega
  · exact Or.inl (ReadBoxAt_unreadable m off h)

/-- The boxes already collected are a prefix of the result. -/
theorem readBoxesLoop_append (m : ReaderAt) (limit : Int) (fuel : Nat) :
    ∀ (off : Int) (l : List Box),
      readBoxesLoop m limit fuel off l =
        (readBoxesLoop m limit fuel off []).bind fun r => .done (l ++ r) := by
  induction fuel with
  | zero =>
    intro off l
    by_cases h : off < limit
    · rw [readBoxesLoop_zero m limit off l h, readBoxesLoop_zero m limit off [] h]
      rfl
    · rw [readBoxesLoop_exit m limit 0 off l h, readBoxesLoop_exit m limit 0 off [] h]
      simp
  | succ fuel ih =>
    intro off l
    by_cases h : off < limit
    · rcases ReadBoxAt_cases m off with hp | ⟨size, name, hr, -, -, -⟩
      · rw [readBoxesLoop_panic m limit fuel off l h hp,
          readBoxesLoop_panic m limit fuel off [] h hp]
        rfl
      · rw [readBoxesLoop_step m limit fuel off l h size name hr,
          readBoxesLoop_step m limit fuel off [] h size name hr, ih _ (l ++ _), ih _ ([] ++ _)]
        cases readBoxesLoop m limit fuel (wrapInt64 (off + (size : Int))) [] <;> simp
    · rw [readBoxesLoop_exit m limit _ off l h, readBoxesLoop_exit m limit _ off [] h]
      simp

/-- More fuel does not change a run that did not run out of fuel. -/
theorem readBoxesLoop_fuel_mono (m : ReaderAt) (limit : Int) (fuel : Nat) :
    ∀ (off : Int) (l : List Box) (k : Nat),
      readBoxesLoop m limit fuel off l ≠ .outOfFuel →
      readBoxesLoop m limit (fuel + k) off l = readBoxesLoop m limit fuel off l := by
  induction fuel with
  | zero =>
    intro off l k hne
    by_cases h : off < limit
    · exact absurd (readBoxesLoop_zero m limit off l h) hne
    · rw [readBoxesLoop_exit m limit _ off l h, readBoxesLoop_exit m limit _ off l h]
  | succ fuel ih =>
    intro off l k hne
    by_cases h : off < limit
    · rcases ReadBoxAt_cases m off with hp | ⟨size, name, hr, -, -, -⟩
      · rw [show fuel + 1 + k = (fuel + k) + 1 by omega,
          readBoxesLoop_panic m limit _ off l h hp, readBoxesLoop_panic m limit _ off l h hp]
      · rw [readBoxesLoop_step m limit fuel off l h size name hr] at hne
        rw [show fuel + 1 + k = (fuel + k) + 1 by omega,
          readBoxesLoop_step m limit _ off l h size name hr,
          readBoxesLoop_step m limit _ off l h size name hr]
        exact ih _ _ k hne
    · rw [readBoxesLoop_exit m limit _ off l h, readBoxesLoop_exit m limit _ off l h]

theorem readBoxes_fuel_mono (fuel k : Nat) (m : ReaderAt) (start n : Int)
    (h : readBoxes fuel m start n ≠ .outOfFuel) :
    readBoxes (fuel + k) m start n = readBoxes fuel m start n :=
  readBoxesLoop_fuel_mono m _ fuel start [] k h

/-- A header that declares size 0 is read again and again: no fuel is enough. -/
theorem readBoxesLoop_size_zero (m : ReaderAt) (limit : Int) (off : Int) (name : GoString)
    (h : off < limit) (hu : off < 9223372036854775808)
    (hr : ReadBoxAt m off = .done (0, name)) :
    ∀ (fuel : Nat) (l : List Box), readBoxesLoop m limit fuel off l = .outOfFuel := by
  have h0 : 0 ≤ off := by
    by_contra hc
    rw [ReadBoxAt_unreadable m off (fun hh => hc hh.1)] at hr
    exact Run.noConfusion hr
  have hw : wrapInt64 (off + ((0 : Nat) : Int)) = off := by
    rw [Int.natCast_zero, Int.add_zero]
    exact wrapInt64_of_inRange off (by omega) hu
  intro fuel
  induction fuel with
  | zero => intro l; exact readBoxesLoop_zero m limit off l h
  | succ fuel ih =>
    intro l
    rw [readBoxesLoop_step m limit fuel off l h 0 name hr, hw]
    exact ih _

theorem ReadBoxAt_done_inRange (m : ReaderAt) (off : Int) (r : Nat × GoString)
    (h : ReadBoxAt m off = .done r) :
    0 ≤ off ∧ off + 8 ≤ (m.data.length : Int) ∧ r.1 < 4294967296 := by
  rcases ReadBoxAt_cases m off with hp | ⟨size, name, hr, hs, h0, h8⟩
  · rw [hp] at h
    exact Run.noConfusion h
  · rw [hr] at h
    cases h
    exact ⟨h0, h8, hs⟩

/-- Every run of the loop that returns has collected contiguous boxes. -/
theorem readBoxesLoop_contiguous (m : ReaderAt) (limit : Int) (fuel : Nat) :
    ∀ (off : Int) (r : List Box), off < 9223372036854775808 →
      readBoxesLoop m limit fuel off [] = .done r → Contiguous m off r := by
  induction fuel with
  | zero =>
    intro off r _ h
    by_cases hl : off < limit
    · rw [readBoxesLoop_zero m limit off [] hl] at h
      exact Run.noConfusion h
    · rw [readBoxesLoop_exit m limit 0 off [] hl] at h
      cases h
      trivial
  | succ fuel ih =>
    intro off r hu h
    by_cases hl : off < limit
    · rcases ReadBoxAt_cases m off with hp | ⟨size, name, hr, hs, h0, h8⟩
      · rw [readBoxesLoop_panic m limit fuel off [] hl hp] at h
        exact Run.noConfusion h
      · have hpos : 0 < size := by
          rcases Nat.eq_zero_or_pos size with hz | hz
          · subst hz
            rw [readBoxesLoop_size_zero m limit off name hl hu hr] at h
            exact Run.noConfusion h
          · exact hz
        rw [readBoxesLoop_step m limit fuel off [] hl size name hr, readBoxesLoop_append] at h
        cases hrec : readBoxesLoop m limit fuel (wrapInt64 (off + (size : Int))) [] with
        | panic => rw [hrec] at h; exact Run.noConfusion h
        | outOfFuel => rw [hrec] at h; exact Run.noConfusion h
        | done r' =>
          rw [hrec] at h
          simp only [Run.bind_done, List.nil_append, List.singleton_append, Run.done.injEq] at h
          subst h
          have hc := ih _ r' (wrapInt64_upper _) hrec
          refine ⟨rfl, rfl, by simpa using hpos, by simpa using hr, ?_⟩
          cases r' with
          | nil => trivial
          | cons b' r'' =>
            have hb := ReadBoxAt_done_inRange m _ _ hc.2.2.2.1
            have hw : wrapInt64 (off + (size : Int)) = off + (size : Int) := by
              have h1 := hb.1
              unfold wrapInt64 at h1 ⊢
              omega
            rw [hw] at hc
            exact hc
    · rw [readBoxesLoop_exit m limit _ off [] hl] at h
      cases h
      trivial

theorem Contiguous.start_ge {m : ReaderAt} :
    ∀ (l : List Box) (off : Int), Contiguous m off l → ∀ b ∈ l, off ≤ b.Start
  | [], _, _, b, hb => by cases hb
  | a :: rest, off, h, b, hb => by
    rcases List.mem_cons.1 hb with rfl | hmem
    · exact le_of_eq h.1.symm
    · have := Contiguous.start_ge rest _ h.2.2.2.2 b hmem
      have hpos := h.2.2.1
      omega

theorem Contiguous.chain {m : ReaderAt} :
    ∀ (l : List Box) (off : Int), Contiguous m off l →
      List.Chain' (fun a b : Box => b.Start = a.Start + a.Size) l
  | [], _, _ => List.chain'_nil
  | [_], _, _ => List.chain'_singleton _
  | a :: b :: rest, off, h => by
    refine List.chain'_cons.2 ⟨?_, Contiguous.chain (b :: rest) _ h.2.2.2.2⟩
    rw [h.2.2.2.2.1, h.1]

theorem Contiguous.pairwise {m : ReaderAt} :
    ∀ (l : List Box) (off : Int), Contiguous m off l →
      List.Pairwise (fun a b : Box => a.Start + a.Size ≤ b.Start) l
  | [], _, _ => List.Pairwise.nil
  | a :: rest, off, h => by
    refine List.Pairwise.cons ?_ (Contiguous.pairwise rest _ h.2.2.2.2)
    intro b hb
    have := Contiguous.start_ge rest _ h.2.2.2.2 b hb
    rw [h.1]
    exact this

theorem Contiguous.decoded {m : ReaderAt} :
    ∀ (l : List Box) (off : Int), Contiguous m off l →
      ∀ b ∈ l, 0 < b.Size ∧ ReadBoxAt m b.Start = .done (b.Size.toNat, b.Name)
  | [], _, _, b, hb => by cases hb
  | a :: rest, off, h, b, hb => by
    rcases List.mem_cons.1 hb with rfl | hmem
    · exact ⟨h.2.2.1, by rw [h.1]; exact h.2.2.2.1⟩
    · exact Contiguous.decoded rest _ h.2.2.2.2 b hmem

/-! ## C2: siblings are contiguous and in source order -/

/-- C2: whenever `readBoxes(m, start, n)` returns (with `start` an `int64`, so
below `2^63`), the first returned box starts at `start`, each later box starts at
the previous box's `Start` plus the previous box's `Size`, sizes are positive, so
the boxes are in ascending offset order and do not overlap, and each box carries
the size and the tag that `ReadBoxAt` decodes from the header at its `Start`. -/
theorem readBoxes_contiguous (fuel : Nat) (m : ReaderAt) (start n : Int) (l : List Box)
    (hs : start < 9223372036854775808) (h : readBoxes fuel m start n = .done l) :
    (∀ b, l.head? = some b → b.Start = start) ∧
    List.Chain' (fun a b : Box => b.Start = a.Start + a.Size) l ∧
    List.Pairwise (fun a b : Box => a.Start + a.Size ≤ b.Start ∧ a.Start < b.Start) l ∧
    (∀ b ∈ l, 0 < b.Size ∧ ReadBoxAt m b.Start = .done (b.Size.toNat, b.Name)) := by
  have hc := readBoxesLoop_contiguous m _ fuel start l hs h
  refine ⟨?_, Contiguous.chain l start hc, ?_, Contiguous.decoded l start hc⟩
  · intro b hb
    cases l with
    | nil => cases hb
    | cons a rest =>
      cases hb
      exact hc.1
  · have hp := Contiguous.pairwise l start hc
    have hd := Contiguous.decoded l start hc
    refine (List.Pairwise.and_mem.1 hp).imp ?_
    intro a b hab
    have := (hd a hab.1).1
    exact ⟨hab.2.2, by omega⟩

/-- C2 witness: the 17-byte source holding an 8-byte `free` box and a 9-byte
`skip` box. -/
theorem readBoxes_contiguous_witness :
    (∀ b, ([⟨blockTag freeBlock, 8, 0, twoBoxSource⟩,
            ⟨blockTag skipBlock, 9, 8, twoBoxSource⟩] : List Box).head? = some b →
        b.Start = 0) ∧
    List.Chain' (fun a b : Box => b.Start = a.Start + a.Size)
      [⟨blockTag freeBlock, 8, 0, twoBoxSource⟩, ⟨blockTag skipBlock, 9, 8, twoBoxSource⟩] ∧
    List.Pairwise (fun a b : Box => a.Start + a.Size ≤ b.Start ∧ a.Start < b.Start)
      [⟨blockTag freeBlock, 8, 0, twoBoxSource⟩, ⟨blockTag skipBlock, 9, 8, twoBoxSource⟩] ∧
    (∀ b ∈ ([⟨blockTag freeBlock, 8, 0, twoBoxSource⟩,
             ⟨blockTag skipBlock, 9, 8, twoBoxSource⟩] : List Box),
      0 < b.Size ∧ ReadBoxAt twoBoxSource b.Start = .done (b.Size.toNat, b.Name)) :=
  readBoxes_contiguous 2 twoBoxSource 0 17
    [⟨blockTag freeBlock, 8, 0, twoBoxSource⟩, ⟨blockTag skipBlock, 9, 8, twoBoxSource⟩]
    (by decide) (by decide)

/-! ## Walking a range that is tiled by boxes -/

theorem list_of_length_ge_eight (s : List Byte) (h : 8 ≤ s.length) :
    ∃ b0 b1 b2 b3 b4 b5 b6 b7 tail, s = b0 :: b1 :: b2 :: b3 :: b4 :: b5 :: b6 :: b7 :: tail := by
  have hl : (s.take 8).length = 8 := by
    rw [List.length_take]
    omega
  obtain ⟨b0, b1, b2, b3, b4, b5, b6, b7, ht⟩ := list_eq_of_length_eight _ hl
  refine ⟨b0, b1, b2, b3, b4, b5, b6, b7, s.drop 8, ?_⟩
  have := List.take_append_drop 8 s
  rw [ht] at this
  exact this.symm

/-- The header of a box block that sits in the source right after `pre`. -/
theorem ReadBoxAt_block (m : ReaderAt) (pre blk rest : List Byte)
    (hd : m.data = pre ++ blk ++ rest) (hb : IsBoxBlock blk) :
    ReadBoxAt m (pre.length : Int) = .done (blk.length, (blk.drop 4).take 4) := by
  obtain ⟨b0, b1, b2, b3, b4, b5, b6, b7, tail, rfl⟩ := list_of_length_ge_eight blk hb.1
  have hv := hb.2
  simp only [beUint32, Run.done.injEq] at hv
  have hlen : (pre.length : Int) + 8 ≤ (m.data.length : Int) := by
    rw [hd]
    simp only [List.length_append, List.length_cons, Nat.cast_add]
    omega
  have hh : headerAt m (pre.length : Int) = [b0, b1, b2, b3, b4, b5, b6, b7] := by
    simp [headerAt, hd]
  rw [ReadBoxAt_of_header m _ (Int.natCast_nonneg _) hlen _ _ _ _ _ _ _ _ hh, hv]
  rfl

/-- Walking a range made of whole box blocks takes one iteration per block and
collects the boxes that the blocks describe. -/
theorem readBoxesLoop_tiling (m : ReaderAt) (post : List Byte) :
    ∀ (blks : List (List Byte)) (pre : List Byte) (l : List Box),
      m.data = pre ++ concatBlocks blks ++ post →
      (∀ blk ∈ blks, IsBoxBlock blk) →
      m.data.length < 9223372036854775808 →
      readBoxesLoop m ((pre.length : Int) + ((concatBlocks blks).length : Int)) blks.length
        (pre.length : Int) l = .done (l ++ boxesOf m (pre.length : Int) blks) := by
  intro blks
  induction blks with
  | nil =>
    intro pre l _ _ _
    rw [readBoxesLoop_exit _ _ _ _ _ (by simp [concatBlocks])]
    simp [boxesOf]
  | cons blk rest ih =>
    intro pre l hd hb hlen
    have hblk : IsBoxBlock blk := hb blk (List.mem_cons_self _ _)
    have hd1 : m.data = pre ++ blk ++ (concatBlocks rest ++ post) := by
      rw [hd]
      simp [concatBlocks, List.append_assoc]
    have hd2 : m.data = (pre ++ blk) ++ concatBlocks rest ++ post := by
      rw [hd1]
      simp [List.append_assoc]
    have hlt : (pre.length : Int) <
        (pre.length : Int) + ((concatBlocks (blk :: rest)).length : Int) := by
      have := hblk.1
      simp only [concatBlocks, List.length_append, Nat.cast_add]
      omega
    have hsz : (pre.length : Int) + (blk.length : Int) < 9223372036854775808 := by
      have h1 : m.data.length = pre.length + blk.length + (concatBlocks rest ++ post).length := by
        rw [hd1]
        simp only [List.length_append]
      omega
    have hw : wrapInt64 ((pre.length : Int) + (blk.length : Int)) = ((pre ++ blk).length : Int) := by
      rw [wrapInt64_of_inRange _ (by omega) hsz]
      simp
    have hlim : (pre.length : Int) + ((concatBlocks (blk :: rest)).length : Int) =
        ((pre ++ blk).length : Int) + ((concatBlocks rest).length : Int) := by
      simp only [concatBlocks, List.length_append, Nat.cast_add]
      omega
    rw [List.length_cons, readBoxesLoop_step m _ _ _ l hlt _ _
      (ReadBoxAt_block m pre blk _ hd1 hblk), hw, hlim,
      ih (pre ++ blk) _ hd2 (fun b hmem => hb b (List.mem_cons_of_mem _ hmem)) hlen]
    simp [boxesOf, List.append_assoc]

theorem readBoxes_tiling (m : ReaderAt) (pre post : List Byte) (blks : List (List Byte))
    (hd : m.data = pre ++ concatBlocks blks ++ post) (hb : ∀ blk ∈ blks, IsBoxBlock blk)
    (hlen : m.data.length < 9223372036854775808) :
    readBoxes blks.length m (pre.length : Int) ((concatBlocks blks).length : Int) =
      .done (boxesOf m (pre.length : Int) blks) := by
  have hin : (pre.length : Int) + ((concatBlocks blks).length : Int) < 9223372036854775808 := by
    have h1 : m.data.length = pre.length + (concatBlocks blks).length + post.length := by
      rw [hd]
      simp only [List.length_append]
    omega
  unfold readBoxes
  rw [wrapInt64_of_inRange _ (by omega) hin, readBoxesLoop_tiling m post blks pre [] hd hb hlen]
  rfl

theorem boxesOf_sizes_sum (m : ReaderAt) :
    ∀ (blks : List (List Byte)) (off : Int),
      ((boxesOf m off blks).map Box.Size).sum = ((concatBlocks blks).length : Int)
  | [], _ => rfl
  | blk :: rest, off => by
    simp only [boxesOf, List.map_cons, List.sum_cons, concatBlocks, List.length_append,
      Nat.cast_add, boxesOf_sizes_sum m rest]

/-! ## C1: siblings tile the requested range -/

/-- C1: when the bytes of the range `[start, start+n)` of a source (of length
below `2^63`) are a concatenation of whole boxes, each at least 8 bytes long and
declaring its own length as its size, `readBoxes(m, start, n)` returns, after one
iteration per box, boxes whose `Size` fields sum to exactly `n`. -/
theorem readBoxes_sizes_tile_range (pre post : List Byte) (blks : List (List Byte))
    (file : FileStat) (hb : ∀ blk ∈ blks, IsBoxBlock blk)
    (hlen : (pre ++ concatBlocks blks ++ post).length < 9223372036854775808) :
    ∃ l : List Box,
      readBoxes blks.length ⟨pre ++ concatBlocks blks ++ post, file⟩ (pre.length : Int)
        ((concatBlocks blks).length : Int) = .done l ∧
      (l.map Box.Size).sum = ((concatBlocks blks).length : Int) :=
  ⟨_, readBoxes_tiling ⟨pre ++ concatBlocks blks ++ post, file⟩ pre post blks rfl hb hlen,
    boxesOf_sizes_sum _ blks _⟩

/-- C1 witness: an 8-byte `free` box and a 9-byte `skip` box between two bytes
of padding on the left and one on the right. -/
theorem readBoxes_sizes_tile_range_witness :
    ∃ l : List Box,
      readBoxes 2
        ⟨[1, 2] ++ concatBlocks [freeBlock, skipBlock] ++ [3], .notFile⟩ 2 17 = .done l ∧
      (l.map Box.Size).sum = 17 :=
  readBoxes_sizes_tile_range [1, 2] [3] [freeBlock, skipBlock] .notFile (by decide) (by decide)

/-! ## Payload access and the typed decoders -/

theorem payloadOf_length (b : Box) (h0 : 0 ≤ b.Start) (h8 : 8 ≤ b.Size)
    (hr : b.Start + b.Size ≤ (b.Reader.data.length : Int)) :
    ((payloadOf b).length : Int) = b.Size - 8 := by
  simp only [payloadOf, List.length_take, List.length_drop]
  omega

/-- The method `ReadBoxData` on a box with a non-empty payload that lies inside the
source. -/
theorem ReadBoxData_of_readable (b : Box) (h0 : 0 ≤ b.Start) (h8 : 8 < b.Size)
    (hr : b.Start + b.Size ≤ (b.Reader.data.length : Int))
    (hlen : b.Reader.data.length < 9223372036854775808) :
    b.ReadBoxData = .done (payloadOf b) := by
  unfold Box.ReadBoxData BoxHeaderSize
  rw [if_neg (by omega), wrapInt64_of_inRange (b.Size - 8) (by omega) (by omega),
    wrapInt64_of_inRange (b.Start + 8) (by omega) (by omega)]
  have hn : b.Size - 8 = (((b.Size - 8).toNat : Nat) : Int) := by omega
  rw [hn, ReadBytesAt_of_inRange b.Reader _ (b.Start + 8) (by omega) (by omega)]
  simp [payloadOf]

theorem drop_four (s : List Byte) (i : Nat) (h : i + 4 ≤ s.length) :
    ∃ a b c d rest, s.drop i = a :: b :: c :: d :: rest := by
  have hl : (s.drop i).length = s.length - i := List.length_drop i s
  match hd : s.drop i, hl with
  | a :: b :: c :: d :: rest, _ => exact ⟨a, b, c, d, rest, rfl⟩
  | [], hl => simp at hl; omega
  | [_], hl => simp at hl; omega
  | [_, _], hl => simp at hl; omega
  | [_, _, _], hl => simp at hl; omega

theorem getD_of_drop (s : List Byte) (i j : Nat) : s.getD (i + j) 0 = (s.drop i).getD j 0 := by
  simp [List.getD_eq_getElem?_getD, List.getElem?_drop]

/-- Slicing 4 bytes at `i` and reading them as a big-endian `uint32`. -/
theorem slice_beUint32 (s : List Byte) (i : Nat) (h : i + 4 ≤ s.length) :
    (sliceOf s i (i + 4)).bind beUint32 = .done (be32At s i) := by
  obtain ⟨a, b, c, d, rest, hd⟩ := drop_four s i h
  have h0 := getD_of_drop s i 0
  have h1 := getD_of_drop s i 1
  have h2 := getD_of_drop s i 2
  have h3 := getD_of_drop s i 3
  rw [hd] at h0 h1 h2 h3
  simp only [Nat.add_zero] at h0
  simp only [sliceOf, be32At, h0, h1, h2, h3]
  rw [if_pos ⟨by omega, h⟩, hd]
  simp [beUint32]

/-- Slicing 2 bytes at `i` and reading them as a big-endian `uint16`. -/
theorem slice_beUint16 (s : List Byte) (i : Nat) (h : i + 2 ≤ s.length) :
    (sliceOf s i (i + 2)).bind beUint16 = .done (be16At s i) := by
  have hl : (s.drop i).length = s.length - i := List.length_drop i s
  have h0 := getD_of_drop s i 0
  have h1 := getD_of_drop s i 1
  simp only [Nat.add_zero] at h0
  simp only [sliceOf, be16At, h0, h1]
  rw [if_pos ⟨by omega, h⟩]
  match hd : s.drop i, hl with
  | a :: b :: rest, _ => simp [beUint16]
  | [], hl => simp at hl; omega
  | [_], hl => simp at hl; omega

theorem sliceOf_ok (s : List Byte) (lo hi : Nat) (h1 : lo ≤ hi) (h2 : hi ≤ s.length) :
    sliceOf s lo hi = .done ((s.drop lo).take (hi - lo)) := by
  unfold sliceOf
  rw [if_pos ⟨h1, h2⟩]

theorem sliceOf_out_of_range (s : List Byte) (lo hi : Nat) (h : s.length < hi) :
    sliceOf s lo hi = .panic := by
  unfold sliceOf
  rw [if_neg (by omega)]

theorem chunks4_short (t : List Byte) (h1 : 1 ≤ t.length) (h3 : t.length ≤ 3) :
    chunks4 t = .panic := by
  match t, h1, h3 with
  | [_], _, _ => rfl
  | [_, _], _, _ => rfl
  | [_, _, _], _, _ => rfl

/-- The brand loop of `FtypBox.parse` cuts the rest of the payload into 4-byte
chunks. -/
theorem FtypBox.parseLoop_eq (data : List Byte) :
    ∀ (n i : Nat) (brands : List GoString), data.length - i = n →
      FtypBox.parseLoop data i brands =
        (chunks4 (data.drop i)).bind fun cs => .done (brands ++ cs) := by
  intro n
  induction n using Nat.strong_induction_on with
  | _ n ih =>
    intro i brands hn
    rw [FtypBox.parseLoop]
    by_cases hi : i < data.length
    · rw [if_pos hi]
      by_cases h4 : i + 4 ≤ data.length
      · obtain ⟨a, b, c, d, rest, hd⟩ := drop_four data i h4
        have hrest : data.drop (i + 4) = rest := by
          rw [← List.drop_drop, hd]
          rfl
        rw [sliceOf_ok data i (i + 4) (by omega) h4, hd, Run.bind_done,
          ih (data.length - (i + 4)) (by omega) (i + 4) _ rfl, hrest]
        simp only [chunks4, Nat.add_sub_cancel_left, List.take]
        cases chunks4 rest <;> simp
      · rw [sliceOf_out_of_range data i (i + 4) (by omega), Run.bind_panic,
          chunks4_short _ (by rw [List.length_drop]; omega) (by rw [List.length_drop]; omega)]
        rfl
    · rw [if_neg hi, List.drop_eq_nil_of_le (by omega)]
      simp [chunks4]

/-- The method `FtypBox.parse` in terms of the payload that `ReadBoxData` returns, when it
has at least 8 bytes. -/
theorem FtypBox.ftyp_parse_of_data (b : FtypBox) (data : List Byte)
    (hread : b.toBox.ReadBoxData = .done data) (h8 : 8 ≤ data.length) :
    FtypBox.parse b =
      (chunks4 (data.drop 8)).bind fun cs =>
        .done { b with MajorBrand := data.take 4, MinorVersion := be32At data 4,
                       CompatibleBrands := b.CompatibleBrands ++ cs } := by
  have hmajor : sliceOf data 0 4 = .done (data.take 4) := by
    rw [sliceOf_ok data 0 4 (by omega) (by omega)]
    rfl
  have hminor := slice_beUint32 data 4 (by omega)
  unfold FtypBox.parse
  simp only [Run.bind_eq_bind, Run.pure_eq_done, hread, Run.bind_done, hmajor, hminor]
  by_cases hgt : data.length > 8
  · rw [if_pos hgt, FtypBox.parseLoop_eq data _ 8 _ rfl]
    cases chunks4 (data.drop 8) <;> simp
  · rw [if_neg hgt, List.drop_eq_nil_of_le (by omega)]
    simp [chunks4]

/-- A list of `4 * k` bytes is cut into exactly `k` chunks, chunk `j` being bytes
`4 * j .. 4 * j + 3`. -/
theorem chunks4_of_length (k : Nat) :
    ∀ t : List Byte, t.length = 4 * k →
      ∃ cs, chunks4 t = .done cs ∧ cs.length = k ∧
        ∀ j, j < k → cs.get? j = some ((t.drop (4 * j)).take 4) := by
  induction k with
  | zero =>
    intro t ht
    have : t = [] := List.length_eq_zero.1 (by omega)
    subst this
    exact ⟨[], rfl, rfl, fun j hj => absurd hj (Nat.not_lt_zero j)⟩
  | succ k ih =>
    intro t ht
    obtain ⟨a, b, c, d, rest, hd⟩ := drop_four t 0 (by omega)
    rw [List.drop_zero] at hd
    subst hd
    obtain ⟨cs, hcs, hlen, hget⟩ := ih rest (by simp at ht; omega)
    refine ⟨[a, b, c, d] :: cs, by simp [chunks4, hcs], by simp [hlen], ?_⟩
    intro j hj
    cases j with
    | zero => rfl
    | succ j =>
      have := hget j (by omega)
      rw [List.get?_cons_succ, this, show 4 * (j + 1) = 4 * j + 4 by omega]
      rfl

/-- A byte list whose length is not a multiple of 4 ends in a chunk that is out
of range. -/
theorem chunks4_of_remainder (k : Nat) :
    ∀ (t : List Byte) (r : Nat), 1 ≤ r → r ≤ 3 → t.length = 4 * k + r → chunks4 t = .panic := by
  induction k with
  | zero =>
    intro t r h1 h3 ht
    exact chunks4_short t (by omega) (by omega)
  | succ k ih =>
    intro t r h1 h3 ht
    obtain ⟨a, b, c, d, rest, hd⟩ := drop_four t 0 (by omega)
    rw [List.drop_zero] at hd
    subst hd
    have := ih rest r h1 h3 (by simp at ht; omega)
    simp [chunks4, this]

/-! ## C5: the fields of the file type box -/

/-- C5: for every `ftyp` box whose payload is `8 + 4k` bytes long and lies inside
the source (of length below `2^63`), `FtypBox.parse` on the receiver that `Parse`
builds completes, sets `MajorBrand` to payload bytes 0..3, `MinorVersion` to the
big-endian unsigned 32-bit value of payload bytes 4..7, and `CompatibleBrands` to
exactly `k` entries, entry `j` being payload bytes `8+4j .. 11+4j`. -/
theorem FtypBox_parse_fields (box : Box) (k : Nat) (hsz : box.Size = 16 + 4 * (k : Int))
    (h0 : 0 ≤ box.Start) (hr : box.Start + box.Size ≤ (box.Reader.data.length : Int))
    (hlen : box.Reader.data.length < 9223372036854775808) :
    ∃ r : FtypBox, FtypBox.parse { toBox := box } = .done r ∧ r.toBox = box ∧
      r.MajorBrand = (payloadOf box).take 4 ∧
      r.MinorVersion = be32At (payloadOf box) 4 ∧
      r.CompatibleBrands.length = k ∧
      ∀ j, j < k → r.CompatibleBrands.get? j = some (((payloadOf box).drop (8 + 4 * j)).take 4) := by
  have hpl := payloadOf_length box h0 (by omega) hr
  have hread := ReadBoxData_of_readable box h0 (by omega) hr hlen
  obtain ⟨cs, hcs, hk, hget⟩ := chunks4_of_length k ((payloadOf box).drop 8)
    (by rw [List.length_drop]; omega)
  refine ⟨{ toBox := box, MajorBrand := (payloadOf box).take 4,
            MinorVersion := be32At (payloadOf box) 4, CompatibleBrands := cs },
    ?_, rfl, rfl, rfl, hk, ?_⟩
  · rw [FtypBox.ftyp_parse_of_data { toBox := box } (payloadOf box) hread (by omega), hcs]
    rfl
  · intro j hj
    have := hget j hj
    rw [List.drop_drop] at this
    simpa using this

/-- C5 witness: the 24-byte `ftyp` box `"isom"`, 512, `"iso2"`, `"mp41"`. -/
theorem FtypBox_parse_fields_witness :
    ∃ r : FtypBox, FtypBox.parse { toBox := ⟨tagFtyp, 24, 0, scenarioFtyp24⟩ } = .done r ∧
      r.toBox = ⟨tagFtyp, 24, 0, scenarioFtyp24⟩ ∧
      r.MajorBrand = (payloadOf ⟨tagFtyp, 24, 0, scenarioFtyp24⟩).take 4 ∧
      r.MinorVersion = be32At (payloadOf ⟨tagFtyp, 24, 0, scenarioFtyp24⟩) 4 ∧
      r.CompatibleBrands.length = 2 ∧
      ∀ j, j < 2 → r.CompatibleBrands.get? j =
        some (((payloadOf ⟨tagFtyp, 24, 0, scenarioFtyp24⟩).drop (8 + 4 * j)).take 4) :=
  FtypBox_parse_fields ⟨tagFtyp, 24, 0, scenarioFtyp24⟩ 2 (by decide) (by decide) (by decide)
    (by decide)

/-! ## C6: the identification scenario -/

/-- What `FtypBox.parse` returns on a concrete box whose payload is known. -/
theorem FtypBox.parse_eval (box : Box) (data : List Byte) (cs : List GoString)
    (hread : box.ReadBoxData = .done data) (h8 : 8 ≤ data.length)
    (hcs : chunks4 (data.drop 8) = .done cs) :
    FtypBox.parse { toBox := box } =
      .done { toBox := box, MajorBrand := data.take 4, MinorVersion := be32At data 4,
              CompatibleBrands := cs } := by
  rw [FtypBox.ftyp_parse_of_data { toBox := box } data hread h8, hcs]
  rfl

/-- C6, as stated, fails: on the 24-byte scenario source, whose header declares
size 20, `Parse` over all 24 bytes never completes with a result (the walk reads a
second header at offset 20, where only 4 bytes are left, and panics), and the
`ftyp` box decoded at offset 0 has the single compatible brand `"iso2"`. -/
theorem scenarioFtyp_not_as_stated :
    (¬ ∃ fuel r, Parse fuel { Reader := scenarioFtyp, Size := 24 } = .done r) ∧
    Parse 2 { Reader := scenarioFtyp, Size := 24 } = .panic ∧
    readBoxes 1 scenarioFtyp 0 20 = .done [⟨tagFtyp, 20, 0, scenarioFtyp⟩] ∧
    FtypBox.parse { toBox := ⟨tagFtyp, 20, 0, scenarioFtyp⟩ } =
      .done { toBox := ⟨tagFtyp, 20, 0, scenarioFtyp⟩,
              MajorBrand := [0x69, 0x73, 0x6F, 0x6D], MinorVersion := 512,
              CompatibleBrands := [[0x69, 0x73, 0x6F, 0x32]] } := by
  refine ⟨?_, by decide, by decide, ?_⟩
  · rintro ⟨fuel, r, h⟩
    have hne : readBoxes fuel scenarioFtyp 0 24 = .outOfFuel ∨
        readBoxes fuel scenarioFtyp 0 24 = .panic := by
      match fuel with
      | 0 => exact Or.inl (by decide)
      | 1 => exact Or.inl (by decide)
      | f + 2 =>
        have h2 : readBoxes 2 scenarioFtyp 0 24 = .panic := by decide
        have := readBoxes_fuel_mono 2 f scenarioFtyp 0 24 (by rw [h2]; exact fun hh => Run.noConfusion hh)
        rw [show f + 2 = 2 + f by omega, this, h2]
        exact Or.inr rfl
    have hp : Parse fuel { Reader := scenarioFtyp, Size := 24 } =
        (readBoxes fuel scenarioFtyp 0 24).bind fun boxes =>
          (ParseLoop fuel boxes { Reader := scenarioFtyp, Size := 24 }).bind fun m =>
            .done (m, none) := rfl
    rw [hp] at h
    rcases hne with hne | hne <;> rw [hne] at h <;> exact Run.noConfusion h
  · exact FtypBox.parse_eval ⟨tagFtyp, 20, 0, scenarioFtyp⟩
      [0x69, 0x73, 0x6F, 0x6D, 0, 0, 2, 0, 0x69, 0x73, 0x6F, 0x32] _ (by decide) (by decide)
      (by decide)

/-- What `Parse` returns on the scenario source with the size field set to 24. -/
theorem Parse_scenarioFtyp24 :
    Parse 1 { Reader := scenarioFtyp24, Size := 24 } =
      .done ({ Reader := scenarioFtyp24, Size := 24, Moov := none,
               Ftyp := some { toBox := ⟨tagFtyp, 24, 0, scenarioFtyp24⟩,
                              MajorBrand := [0x69, 0x73, 0x6F, 0x6D], MinorVersion := 512,
                              CompatibleBrands :=
                                [[0x69, 0x73, 0x6F, 0x32], [0x6D, 0x70, 0x34, 0x31]] } },
             none) := by
  have hb24 : readBoxes 1 scenarioFtyp24 0 24 = .done [⟨tagFtyp, 24, 0, scenarioFtyp24⟩] := by
    decide
  have hf24 := FtypBox.parse_eval ⟨tagFtyp, 24, 0, scenarioFtyp24⟩
    [0x69, 0x73, 0x6F, 0x6D, 0, 0, 2, 0, 0x69, 0x73, 0x6F, 0x32, 0x6D, 0x70, 0x34, 0x31] _
    (by decide) (by decide) (by decide : chunks4 _ = .done
      [[0x69, 0x73, 0x6F, 0x32], [0x6D, 0x70, 0x34, 0x31]])
  have hp : Parse 1 { Reader := scenarioFtyp24, Size := 24 } =
      (readBoxes 1 scenarioFtyp24 0 24).bind fun boxes =>
        (ParseLoop 1 boxes { Reader := scenarioFtyp24, Size := 24 }).bind fun m =>
          .done (m, none) := rfl
  rw [hp, hb24, Run.bind_done, ParseLoop, if_pos rfl, hf24]
  rfl

/-- C6, amended: with the size field `00 00 00 18` (declared size 24, the length
of the source) and the same 16 payload bytes, `Parse` yields the identification
record with primary tag `"isom"`, minor version 512 and secondary tags
`["iso2", "mp41"]`; with the header as given (declared size 20), walking the
declared 20 bytes and decoding the box yields `"isom"`, 512 and `["iso2"]`. -/
theorem scenarioFtyp_amended :
    Parse 1 { Reader := scenarioFtyp24, Size := 24 } =
      .done ({ Reader := scenarioFtyp24, Size := 24, Moov := none,
               Ftyp := some { toBox := ⟨tagFtyp, 24, 0, scenarioFtyp24⟩,
                              MajorBrand := [0x69, 0x73, 0x6F, 0x6D], MinorVersion := 512,
                              CompatibleBrands :=
                                [[0x69, 0x73, 0x6F, 0x32], [0x6D, 0x70, 0x34, 0x31]] } },
             none) ∧
    Parse 1 { Reader := scenarioFtyp, Size := 20 } =
      .done ({ Reader := scenarioFtyp, Size := 20, Moov := none,
               Ftyp := some { toBox := ⟨tagFtyp, 20, 0, scenarioFtyp⟩,
                              MajorBrand := [0x69, 0x73, 0x6F, 0x6D], MinorVersion := 512,
                              CompatibleBrands := [[0x69, 0x73, 0x6F, 0x32]] } },
             none) := by
  have hb20 : readBoxes 1 scenarioFtyp 0 20 = .done [⟨tagFtyp, 20, 0, scenarioFtyp⟩] := by
    decide
  have hf20 := FtypBox.parse_eval ⟨tagFtyp, 20, 0, scenarioFtyp⟩
    [0x69, 0x73, 0x6F, 0x6D, 0, 0, 2, 0, 0x69, 0x73, 0x6F, 0x32] _
    (by decide) (by decide) (by decide : chunks4 _ = .done [[0x69, 0x73, 0x6F, 0x32]])
  refine ⟨Parse_scenarioFtyp24, ?_⟩
  have hp : Parse 1 { Reader := scenarioFtyp, Size := 20 } =
      (readBoxes 1 scenarioFtyp 0 20).bind fun boxes =>
        (ParseLoop 1 boxes { Reader := scenarioFtyp, Size := 20 }).bind fun m =>
          .done (m, none) := rfl
  rw [hp, hb20, Run.bind_done, ParseLoop, if_pos rfl, hf20]
  rfl

/-! ## C7: trailing bytes after the last whole brand -/

/-- A payload whose brand list ends in a chunk of 1 to 3 bytes makes
`FtypBox.parse` panic: the loop slices `data[i:i+4]` beyond the payload. -/
theorem FtypBox.parse_trailing_chunk (box : Box) (k r : Nat) (h1 : 1 ≤ r) (h3 : r ≤ 3)
    (hsz : box.Size = 16 + 4 * (k : Int) + (r : Int)) (h0 : 0 ≤ box.Start)
    (hr : box.Start + box.Size ≤ (box.Reader.data.length : Int))
    (hlen : box.Reader.data.length < 9223372036854775808) :
    FtypBox.parse { toBox := box } = .panic := by
  have hpl := payloadOf_length box h0 (by omega) hr
  have hread := ReadBoxData_of_readable box h0 (by omega) hr hlen
  rw [FtypBox.ftyp_parse_of_data { toBox := box } (payloadOf box) hread (by omega),
    chunks4_of_remainder k _ r h1 h3 (by rw [List.length_drop]; omega)]
  rfl

/-- C7, code defect: on an `ftyp` box with a 9-byte payload (declared size 17)
`FtypBox.parse` does not complete with zero compatible brands: the brand loop runs
for `i = 8 < 9` and slices `data[8:12]` out of range, so the decoder, and `Parse`
over the 17-byte source with it, panics.  On an 8-byte payload the loop is not
entered and the brand list stays empty. -/
theorem FtypBox_parse_trailing_bytes_panic :
    FtypBox.parse { toBox := ⟨tagFtyp, 17, 0, ftypNineBytes⟩ } = .panic ∧
    Parse 1 { Reader := ftypNineBytes, Size := 17 } = .panic := by
  have hf : FtypBox.parse { toBox := ⟨tagFtyp, 17, 0, ftypNineBytes⟩ } = .panic :=
    FtypBox.parse_trailing_chunk ⟨tagFtyp, 17, 0, ftypNineBytes⟩ 0 1 (by decide) (by decide)
      (by decide) (by decide) (by decide) (by decide)
  refine ⟨hf, ?_⟩
  have hb : readBoxes 1 ftypNineBytes 0 17 = .done [⟨tagFtyp, 17, 0, ftypNineBytes⟩] := by
    decide
  have hp : Parse 1 { Reader := ftypNineBytes, Size := 17 } =
      (readBoxes 1 ftypNineBytes 0 17).bind fun boxes =>
        (ParseLoop 1 boxes { Reader := ftypNineBytes, Size := 17 }).bind fun m =>
          .done (m, none) := rfl
  rw [hp, hb, Run.bind_done, ParseLoop, if_pos rfl, hf]
  rfl

/-! ## C8: the fields of the movie header box -/

theorem indexOf_ok (s : List Byte) (i : Nat) (h : i < s.length) :
    indexOf s i = .done (s.getD i 0) := by
  unfold indexOf
  rw [List.get?_eq_get h]
  simp [List.getD_eq_getElem?_getD, List.getElem?_eq_getElem h]

/-- The method `MvhdBox.parse` in terms of the payload that `ReadBoxData` returns, when it
has at least 26 bytes. -/
theorem MvhdBox.mvhd_parse_of_data (b : MvhdBox) (data : List Byte)
    (hread : b.toBox.ReadBoxData = .done data) (h26 : 26 ≤ data.length) :
    MvhdBox.parse b =
      .done { b with Version := (data.getD 0 0).val, Timescale := be32At data 12,
                     Duration := be32At data 16, Rate := be32At data 20,
                     Volume := be16At data 24 } := by
  have hv := indexOf_ok data 0 (by omega)
  have ht := slice_beUint32 data 12 (by omega)
  have hd := slice_beUint32 data 16 (by omega)
  have hrate := slice_beUint32 data 20 (by omega)
  have hvol := slice_beUint16 data 24 (by omega)
  unfold MvhdBox.parse
  simp only [Run.bind_eq_bind, Run.pure_eq_done, hread, Run.bind_done, hv, ht, hd]
  rw [show fixed32 = beUint32 from rfl, show fixed16 = beUint16 from rfl, hrate, hvol]
  rfl

/-- The method `MvhdBox.parse` on a box whose payload has at least 26 bytes and lies inside
the source. -/
theorem MvhdBox.parse_of_readable (box : Box) (hsz : 34 ≤ box.Size) (h0 : 0 ≤ box.Start)
    (hr : box.Start + box.Size ≤ (box.Reader.data.length : Int))
    (hlen : box.Reader.data.length < 9223372036854775808) :
    MvhdBox.parse { toBox := box } =
      .done { toBox := box, Version := ((payloadOf box).getD 0 0).val,
              Timescale := be32At (payloadOf box) 12, Duration := be32At (payloadOf box) 16,
              Rate := be32At (payloadOf box) 20, Volume := be16At (payloadOf box) 24 } := by
  have hpl := payloadOf_length box h0 (by omega) hr
  have hread := ReadBoxData_of_readable box h0 (by omega) hr hlen
  rw [MvhdBox.mvhd_parse_of_data { toBox := box } (payloadOf box) hread (by omega)]

/-- C8: for every `mvhd` box whose payload has at least 26 bytes and lies inside
the source (of length below `2^63`), `MvhdBox.parse` on the receiver that
`MoovBox.parse` builds completes and sets `Version` to payload byte 0, `Timescale`
and `Duration` to the big-endian unsigned 32-bit values of bytes 12..15 and
16..19, `Rate` to the 32 bits of bytes 20..23 and `Volume` to the 16 bits of bytes
24..25; on the scenario payload this gives time scale 1000, duration 100, rate
integer part (`Rate >> 16`) 1 and volume integer part 1, printed `"1"` by
`Fixed16.String`. -/
theorem MvhdBox_parse_fields :
    (∀ box : Box, 34 ≤ box.Size → 0 ≤ box.Start →
      box.Start + box.Size ≤ (box.Reader.data.length : Int) →
      box.Reader.data.length < 9223372036854775808 →
      MvhdBox.parse { toBox := box } =
        .done { toBox := box, Version := ((payloadOf box).getD 0 0).val,
                Timescale := be32At (payloadOf box) 12, Duration := be32At (payloadOf box) 16,
                Rate := be32At (payloadOf box) 20, Volume := be16At (payloadOf box) 24 }) ∧
    (∃ r : MvhdBox, MvhdBox.parse { toBox := ⟨tagMvhd, 34, 0, scenarioMvhd⟩ } = .done r ∧
      r.Version = 0 ∧ r.Timescale = 1000 ∧ r.Duration = 100 ∧ r.Rate / 65536 = 1 ∧
      r.Volume / 256 = 1 ∧ Fixed16.String r.Volume = "1") := by
  refine ⟨MvhdBox.parse_of_readable, _,
    MvhdBox.parse_of_readable ⟨tagMvhd, 34, 0, scenarioMvhd⟩ (by decide) (by decide) (by decide)
      (by decide), ?_⟩
  decide

/-- C8 witness: the scenario box, a 34-byte `mvhd` box at offset 0. -/
theorem MvhdBox_parse_fields_witness :
    MvhdBox.parse { toBox := ⟨tagMvhd, 34, 0, scenarioMvhd⟩ } =
      .done { toBox := ⟨tagMvhd, 34, 0, scenarioMvhd⟩,
              Version := ((payloadOf ⟨tagMvhd, 34, 0, scenarioMvhd⟩).getD 0 0).val,
              Timescale := be32At (payloadOf ⟨tagMvhd, 34, 0, scenarioMvhd⟩) 12,
              Duration := be32At (payloadOf ⟨tagMvhd, 34, 0, scenarioMvhd⟩) 16,
              Rate := be32At (payloadOf ⟨tagMvhd, 34, 0, scenarioMvhd⟩) 20,
              Volume := be16At (payloadOf ⟨tagMvhd, 34, 0, scenarioMvhd⟩) 24 } :=
  MvhdBox_parse_fields.1 ⟨tagMvhd, 34, 0, scenarioMvhd⟩ (by decide) (by decide) (by decide)
    (by decide)

/-! ## C9: the movie box and its nested movie header -/

theorem boxesOf_append (m : ReaderAt) :
    ∀ (xs ys : List (List Byte)) (off : Int),
      boxesOf m off (xs ++ ys) =
        boxesOf m off xs ++ boxesOf m (off + ((concatBlocks xs).length : Int)) ys
  | [], ys, off => by simp [boxesOf, concatBlocks]
  | x :: xs, ys, off => by
    have ih := boxesOf_append m xs ys (off + (x.length : Int))
    show boxesOf m off (x :: (xs ++ ys)) = _
    simp only [boxesOf, ih, concatBlocks, List.length_append, Nat.cast_add, Int.add_assoc,
      List.cons_append]

/-- Boxes laid out from `off` lie at or after `off` and end within the blocks. -/
theorem boxesOf_extent (m : ReaderAt) :
    ∀ (blks : List (List Byte)) (off : Int), ∀ b ∈ boxesOf m off blks,
      off ≤ b.Start ∧ b.Start + b.Size ≤ off + ((concatBlocks blks).length : Int)
  | [], _, b, hb => by cases hb
  | blk :: rest, off, b, hb => by
    simp only [boxesOf, List.mem_cons] at hb
    simp only [concatBlocks, List.length_append, Nat.cast_add]
    rcases hb with rfl | hmem
    · simp only
      omega
    · have := boxesOf_extent m rest _ b hmem
      omega

/-- The loop of `MoovBox.parse` passes over boxes that are not tagged `mvhd`. -/
theorem MoovBox.parseLoop_skip (m : ReaderAt) :
    ∀ (blks : List (List Byte)) (off : Int) (rest : List Box) (b : MoovBox),
      (∀ blk ∈ blks, blockTag blk ≠ tagMvhd) →
      MoovBox.parseLoop (boxesOf m off blks ++ rest) b = MoovBox.parseLoop rest b
  | [], _, _, _, _ => by simp [boxesOf]
  | blk :: blks, off, rest, b, h => by
    have h1 : (blk.drop 4).take 4 ≠ tagMvhd := h blk (List.mem_cons_self _ _)
    simp only [boxesOf, List.cons_append, MoovBox.parseLoop]
    rw [if_neg h1]
    exact MoovBox.parseLoop_skip m blks _ rest b (fun x hx => h x (List.mem_cons_of_mem _ hx))

/-- The payload of a box block that sits in the source right after `pre`. -/
theorem payloadOf_block (m : ReaderAt) (pre blk rest : List Byte) (name : GoString)
    (hd : m.data = pre ++ blk ++ rest) (h8 : 8 ≤ blk.length) :
    payloadOf ⟨name, (blk.length : Int), (pre.length : Int), m⟩ = blk.drop 8 := by
  have h1 : ((pre.length : Int) + 8).toNat = pre.length + 8 := by omega
  have h2 : ((blk.length : Int) - 8).toNat = blk.length - 8 := by omega
  simp only [payloadOf, hd, h1, h2]
  rw [List.append_assoc, ← List.drop_drop, List.drop_left,
    List.drop_append_of_le_length h8, List.take_append_of_le_length (by simp)]
  simp

theorem be32At_drop (s : List Byte) (i j : Nat) : be32At (s.drop i) j = be32At s (i + j) := by
  simp only [be32At, getD_of_drop s i, Nat.add_assoc]

theorem be16At_drop (s : List Byte) (i j : Nat) : be16At (s.drop i) j = be16At s (i + j) := by
  simp only [be16At, getD_of_drop s i, Nat.add_assoc]

theorem moovSource_header_length (n : Nat) : (encodeHeader n tagMoov).length = 8 := rfl

/-- The loop of `MoovBox.parse` over nested boxes of which exactly one is tagged
`mvhd`: the decoded record of that box is what the loop leaves in `Mvhd`. -/
theorem MoovBox.parseLoop_one_mvhd (m : ReaderAt) (before after : List (List Byte))
    (mv : List Byte) (off : Int) (b : MoovBox) (r : MvhdBox)
    (hbefore : ∀ blk ∈ before, blockTag blk ≠ tagMvhd)
    (hafter : ∀ blk ∈ after, blockTag blk ≠ tagMvhd) (htag : blockTag mv = tagMvhd)
    (hparse : MvhdBox.parse
      { toBox := ⟨tagMvhd, (mv.length : Int), off + ((concatBlocks before).length : Int), m⟩ } =
        .done r) :
    MoovBox.parseLoop (boxesOf m off (before ++ mv :: after)) b =
      .done { b with Mvhd := some r } := by
  have htag2 : (mv.drop 4).take 4 = tagMvhd := htag
  rw [boxesOf_append, MoovBox.parseLoop_skip m before off _ b hbefore]
  simp only [boxesOf, MoovBox.parseLoop, htag2]
  rw [if_pos trivial, hparse, Run.bind_done]
  have := MoovBox.parseLoop_skip m after
    (off + ((concatBlocks before).length : Int) + (mv.length : Int)) [] { b with Mvhd := some r }
    hafter
  rw [List.append_nil] at this
  rw [this]
  rfl

/-- The top-level walk over a source that is one `moov` box. -/
theorem readBoxes_moovSource (nested : List (List Byte)) (file : FileStat) (k : Nat)
    (hS : 8 + (concatBlocks nested).length ≤ 4294967295) :
    readBoxes (1 + k) (moovSource nested file) 0 ((8 + (concatBlocks nested).length : Nat) : Int) =
      .done [⟨tagMoov, ((8 + (concatBlocks nested).length : Nat) : Int), 0,
        moovSource nested file⟩] := by
  have hblk : IsBoxBlock (encodeHeader (8 + (concatBlocks nested).length) tagMoov ++
      concatBlocks nested) := by
    have hlen8 : (encodeHeader (8 + (concatBlocks nested).length) tagMoov ++
        concatBlocks nested).length = 8 + (concatBlocks nested).length := by
      rw [List.length_append, moovSource_header_length]
    refine ⟨by omega, ?_⟩
    rw [hlen8, encodeHeader, List.append_assoc, beUint32_putUint32 _ (by omega)]
  have hd : (moovSource nested file).data =
      [] ++ concatBlocks [encodeHeader (8 + (concatBlocks nested).length) tagMoov ++
        concatBlocks nested] ++ [] := by
    simp [moovSource, concatBlocks]
  have hlen : (moovSource nested file).data.length < 9223372036854775808 := by
    simp only [moovSource, List.length_append, moovSource_header_length]
    omega
  have h1 := readBoxes_tiling (moovSource nested file) [] [] _ hd
    (fun blk hmem => by rw [List.mem_singleton.1 hmem]; exact hblk) hlen
  have hl : (concatBlocks [encodeHeader (8 + (concatBlocks nested).length) tagMoov ++
      concatBlocks nested]).length = 8 + (concatBlocks nested).length := by
    simp [concatBlocks, moovSource_header_length]
  rw [hl] at h1
  have h2 : readBoxes (1 + k) (moovSource nested file) 0
      ((8 + (concatBlocks nested).length : Nat) : Int) =
      readBoxes 1 (moovSource nested file) 0 ((8 + (concatBlocks nested).length : Nat) : Int) :=
    readBoxes_fuel_mono 1 k _ _ _ (by
      have h1' := h1
      simp only [List.length_singleton, List.length_nil, Nat.cast_zero] at h1'
      rw [h1']
      exact fun hh => Run.noConfusion hh)
  rw [h2]
  simp only [List.length_singleton, List.length_nil, Nat.cast_zero] at h1
  rw [h1]
  have hlen8 : (encodeHeader (8 + (concatBlocks nested).length) tagMoov ++
      concatBlocks nested).length = 8 + (concatBlocks nested).length := by
    rw [List.length_append, moovSource_header_length]
  simp only [boxesOf, hlen8]
  rfl

/-- The nested walk over the payload of a source that is one `moov` box. -/
theorem readBoxes_moovSource_nested (nested : List (List Byte)) (file : FileStat)
    (hb : ∀ blk ∈ nested, IsBoxBlock blk)
    (hS : 8 + (concatBlocks nested).length ≤ 4294967295) :
    readBoxes nested.length (moovSource nested file) 8 ((concatBlocks nested).length : Int) =
      .done (boxesOf (moovSource nested file) 8 nested) := by
  have hd : (moovSource nested file).data =
      encodeHeader (8 + (concatBlocks nested).length) tagMoov ++ concatBlocks nested ++ [] := by
    simp [moovSource]
  have hlen : (moovSource nested file).data.length < 9223372036854775808 := by
    simp only [moovSource, List.length_append, moovSource_header_length]
    omega
  have := readBoxes_tiling (moovSource nested file) _ [] nested hd hb hlen
  rw [moovSource_header_length] at this
  exact this

/-- What `MoovBox.parse` does on the top-level box of a source that is one `moov`
box with exactly one nested `mvhd` box. -/
theorem MoovBox.parse_moovSource (before after : List (List Byte)) (mv : List Byte)
    (file : FileStat) (k : Nat)
    (hbefore : ∀ blk ∈ before, IsBoxBlock blk ∧ blockTag blk ≠ tagMvhd)
    (hafter : ∀ blk ∈ after, IsBoxBlock blk ∧ blockTag blk ≠ tagMvhd)
    (hmv : IsBoxBlock mv) (htag : blockTag mv = tagMvhd) (h34 : 34 ≤ mv.length)
    (hS : 8 + (concatBlocks (before ++ mv :: after)).length ≤ 4294967295) :
    MoovBox.parse ((before ++ mv :: after).length + k)
        { toBox := ⟨tagMoov, ((8 + (concatBlocks (before ++ mv :: after)).length : Nat) : Int), 0,
            moovSource (before ++ mv :: after) file⟩ } =
      .done { toBox := ⟨tagMoov, ((8 + (concatBlocks (before ++ mv :: after)).length : Nat) : Int),
                0, moovSource (before ++ mv :: after) file⟩,
              Mvhd := some
                { toBox := ⟨tagMvhd, (mv.length : Int), 8 + ((concatBlocks before).length : Int),
                    moovSource (before ++ mv :: after) file⟩,
                  Version := (mv.getD 8 0).val, Timescale := be32At mv 20,
                  Duration := be32At mv 24, Rate := be32At mv 28, Volume := be16At mv 32 } } := by
  have hnested : ∀ blk ∈ before ++ mv :: after, IsBoxBlock blk := by
    intro blk hmem
    rcases List.mem_append.1 hmem with h | h
    · exact (hbefore blk h).1
    · rcases List.mem_cons.1 h with h | h
      · rw [h]; exact hmv
      · exact (hafter blk h).1
  have hcat : concatBlocks (before ++ mv :: after) =
      concatBlocks before ++ mv ++ concatBlocks after := by
    clear hbefore hnested hS
    induction before with
    | nil => simp [concatBlocks]
    | cons x xs ih => simp [concatBlocks, ih, List.append_assoc]
  have hd : (moovSource (before ++ mv :: after) file).data =
      (encodeHeader (8 + (concatBlocks (before ++ mv :: after)).length) tagMoov ++
        concatBlocks before) ++ mv ++ concatBlocks after := by
    simp [moovSource, hcat, List.append_assoc]
  have hdl : (moovSource (before ++ mv :: after) file).data.length =
      8 + ((concatBlocks before).length + mv.length + (concatBlocks after).length) := by
    rw [hd]
    simp only [List.length_append, moovSource_header_length]
    omega
  have hcl : (concatBlocks (before ++ mv :: after)).length =
      (concatBlocks before).length + mv.length + (concatBlocks after).length := by
    rw [hcat]
    simp only [List.length_append]
  have hpre : ((encodeHeader (8 + (concatBlocks (before ++ mv :: after)).length) tagMoov ++
      concatBlocks before).length : Int) = 8 + ((concatBlocks before).length : Int) := by
    rw [List.length_append, moovSource_header_length]
    push_cast
    rfl
  have hpay := payloadOf_block (moovSource (before ++ mv :: after) file) _ mv _ tagMvhd hd
    (by omega)
  rw [hpre] at hpay
  have hparse := MvhdBox.parse_of_readable
    ⟨tagMvhd, (mv.length : Int), 8 + ((concatBlocks before).length : Int),
      moovSource (before ++ mv :: after) file⟩ (by simp only; omega) (by simp only; omega)
    (by simp only [hdl]; omega) (by simp only [hdl]; omega)
  rw [hpay] at hparse
  have hwalk := readBoxes_moovSource_nested (before ++ mv :: after) file hnested hS
  have hwalk2 := readBoxes_fuel_mono (before ++ mv :: after).length k _ _ _
    (by rw [hwalk]; exact fun hh => Run.noConfusion hh)
  rw [hwalk] at hwalk2
  have hw1 : wrapInt64 ((0 : Int) + BoxHeaderSize) = 8 := by
    unfold wrapInt64 BoxHeaderSize
    omega
  have hw2 : wrapInt64 (((8 + (concatBlocks (before ++ mv :: after)).length : Nat) : Int) -
      BoxHeaderSize) = ((concatBlocks (before ++ mv :: after)).length : Int) := by
    unfold wrapInt64 BoxHeaderSize
    omega
  unfold MoovBox.parse
  simp only [Run.bind_eq_bind, hw1, hw2, hwalk2, Run.bind_done]
  rw [MoovBox.parseLoop_one_mvhd _ before after mv 8 _ _ (fun blk h => (hbefore blk h).2)
    (fun blk h => (hafter blk h).2) htag hparse]
  simp only [getD_of_drop mv 8 0, be32At_drop, be16At_drop]

/-! ### C9 -/

/-- C9: on a source that is one top-level `moov` box (declared size below `2^32`)
whose payload is a sequence of whole nested boxes, exactly one of them tagged
`mvhd` and at least 34 bytes long, the nested walk covers exactly the payload
range `[8, Size)` and returns the nested boxes, all of which lie inside that
range, and `Parse` completes with `Moov.Mvhd` set to the decoded record of the
`mvhd` box: its `Start` is its absolute offset in the source and its fields are
decoded from its own payload (the bytes of that box from its byte 8 on). -/
theorem Parse_moov_mvhd (before after : List (List Byte)) (mv : List Byte) (file : FileStat)
    (hbefore : ∀ blk ∈ before, IsBoxBlock blk ∧ blockTag blk ≠ tagMvhd)
    (hafter : ∀ blk ∈ after, IsBoxBlock blk ∧ blockTag blk ≠ tagMvhd)
    (hmv : IsBoxBlock mv) (htag : blockTag mv = tagMvhd) (h34 : 34 ≤ mv.length)
    (hS : 8 + (concatBlocks (before ++ mv :: after)).length ≤ 4294967295) :
    readBoxes (before ++ mv :: after).length (moovSource (before ++ mv :: after) file) 8
        (((8 + (concatBlocks (before ++ mv :: after)).length : Nat) : Int) - 8) =
      .done (boxesOf (moovSource (before ++ mv :: after) file) 8 (before ++ mv :: after)) ∧
    (∀ b ∈ boxesOf (moovSource (before ++ mv :: after) file) 8 (before ++ mv :: after),
      8 ≤ b.Start ∧
      b.Start + b.Size ≤ ((8 + (concatBlocks (before ++ mv :: after)).length : Nat) : Int)) ∧
    Parse (before ++ mv :: after).length
        { Reader := moovSource (before ++ mv :: after) file,
          Size := ((8 + (concatBlocks (before ++ mv :: after)).length : Nat) : Int) } =
      .done ({ Reader := moovSource (before ++ mv :: after) file,
               Size := ((8 + (concatBlocks (before ++ mv :: after)).length : Nat) : Int),
               Ftyp := none,
               Moov := some
                 { toBox := ⟨tagMoov,
                     ((8 + (concatBlocks (before ++ mv :: after)).length : Nat) : Int), 0,
                     moovSource (before ++ mv :: after) file⟩,
                   Mvhd := some
                     { toBox := ⟨tagMvhd, (mv.length : Int),
                         8 + ((concatBlocks before).length : Int),
                         moovSource (before ++ mv :: after) file⟩,
                       Version := (mv.getD 8 0).val, Timescale := be32At mv 20,
                       Duration := be32At mv 24, Rate := be32At mv 28,
                       Volume := be16At mv 32 } } }, none) := by
  have hnested : ∀ blk ∈ before ++ mv :: after, IsBoxBlock blk := by
    intro blk hmem
    rcases List.mem_append.1 hmem with h | h
    · exact (hbefore blk h).1
    · rcases List.mem_cons.1 h with h | h
      · rw [h]; exact hmv
      · exact (hafter blk h).1
  refine ⟨?_, ?_, ?_⟩
  · have := readBoxes_moovSource_nested (before ++ mv :: after) file hnested hS
    rw [show (((8 + (concatBlocks (before ++ mv :: after)).length : Nat) : Int) - 8) =
      ((concatBlocks (before ++ mv :: after)).length : Int) by omega]
    exact this
  · intro b hb
    have := boxesOf_extent _ _ _ b hb
    omega
  · obtain ⟨k, hk⟩ : ∃ k, (before ++ mv :: after).length = 1 + k :=
      ⟨before.length + after.length, by simp only [List.length_append, List.length_cons]; omega⟩
    have htop : readBoxes (before ++ mv :: after).length (moovSource (before ++ mv :: after) file)
        0 ((8 + (concatBlocks (before ++ mv :: after)).length : Nat) : Int) =
        .done [⟨tagMoov, ((8 + (concatBlocks (before ++ mv :: after)).length : Nat) : Int), 0,
          moovSource (before ++ mv :: after) file⟩] := by
      rw [hk]
      exact readBoxes_moovSource (before ++ mv :: after) file k hS
    have hmoov := MoovBox.parse_moovSource before after mv file 0 hbefore hafter hmv htag h34 hS
    rw [Nat.add_zero] at hmoov
    have hne : ((8 + (concatBlocks (before ++ mv :: after)).length : Nat) : Int) ≠ 0 := by omega
    unfold Parse
    simp only
    rw [if_neg hne]
    unfold ParseBody
    simp only [Run.bind_eq_bind, Run.pure_eq_done, htop, Run.bind_done, ParseLoop]
    rw [if_pos trivial, hmoov]
    rfl

/-- C9 witness: a `moov` box holding an 8-byte `free` box and then the 34-byte
`mvhd` box of the scenario: the record has `Start` 16, time scale 1000 and
duration 100. -/
theorem Parse_moov_mvhd_witness :
    Parse 2 { Reader := moovSource [freeBlock, mvhdBlock] .notFile, Size := 50 } =
      .done ({ Reader := moovSource [freeBlock, mvhdBlock] .notFile, Size := 50, Ftyp := none,
               Moov := some
                 { toBox := ⟨tagMoov, 50, 0, moovSource [freeBlock, mvhdBlock] .notFile⟩,
                   Mvhd := some
                     { toBox := ⟨tagMvhd, 34, 16, moovSource [freeBlock, mvhdBlock] .notFile⟩,
                       Version := 0, Timescale := 1000, Duration := 100, Rate := 65536,
                       Volume := 256 } } }, none) :=
  (Parse_moov_mvhd [freeBlock] [] mvhdBlock .notFile (by decide) (by decide) (by decide)
    (by decide) (by decide) (by decide)).2.2

/-! ## C10: termination of the walk -/

theorem sizeAt_of_done (m : ReaderAt) (off : Int) (size : Nat) (name : GoString)
    (h : ReadBoxAt m off = .done (size, name)) : sizeAt m off = some size := by
  unfold sizeAt
  rw [h]

/-- The loop ends, by returning or by a panic, when no header that the walk comes
to inside its bound declares size 0. -/
theorem readBoxesLoop_terminates (m : ReaderAt) (limit : Int) :
    ∀ (d : Nat) (off : Int) (l : List Box), off < 9223372036854775808 →
      (limit - off).toNat ≤ d →
      (∀ x : Int, Reaches m limit off x → x < limit → sizeAt m x ≠ some 0) →
      ∃ fuel, readBoxesLoop m limit fuel off l ≠ .outOfFuel := by
  intro d
  induction d with
  | zero =>
    intro off l _ hd _
    refine ⟨0, ?_⟩
    rw [readBoxesLoop_exit m limit 0 off l (by omega)]
    exact fun hh => Run.noConfusion hh
  | succ d ih =>
    intro off l hu hd hpos
    by_cases hl : off < limit
    · rcases ReadBoxAt_cases m off with hp | ⟨size, name, hr, hsz, h0, h8⟩
      · refine ⟨1, ?_⟩
        rw [readBoxesLoop_panic m limit 0 off l hl hp]
        exact fun hh => Run.noConfusion hh
      · have hne : size ≠ 0 := by
          intro hz
          subst hz
          exact hpos off (Reaches.here off) hl (sizeAt_of_done m off 0 name hr)
        by_cases hw : off + (size : Int) < 9223372036854775808
        · have hwrap : wrapInt64 (off + (size : Int)) = off + (size : Int) :=
            wrapInt64_of_inRange _ (by omega) hw
          obtain ⟨fuel, hfuel⟩ := ih (off + (size : Int))
            (l ++ [{ Name := name, Size := (size : Int), Reader := m, Start := off }])
            hw (by omega)
            (fun x hx hxl =>
              hpos x (Reaches.step off size name x hl hr (by rw [hwrap]; exact hx)) hxl)
          refine ⟨fuel + 1, ?_⟩
          rw [readBoxesLoop_step m limit fuel off l hl size name hr, hwrap]
          exact hfuel
        · have hneg : wrapInt64 (off + (size : Int)) < 0 := by
            unfold wrapInt64
            omega
          by_cases hl2 : wrapInt64 (off + (size : Int)) < limit
          · refine ⟨2, ?_⟩
            rw [readBoxesLoop_step m limit 1 off l hl size name hr,
              readBoxesLoop_panic m limit 0 _ _ hl2
                (ReadBoxAt_unreadable m _ (fun hh => by omega))]
            exact fun hh => Run.noConfusion hh
          · refine ⟨1, ?_⟩
            rw [readBoxesLoop_step m limit 0 off l hl size name hr,
              readBoxesLoop_exit m limit 0 _ _ hl2]
            exact fun hh => Run.noConfusion hh
    · refine ⟨0, ?_⟩
      rw [readBoxesLoop_exit m limit 0 off l hl]
      exact fun hh => Run.noConfusion hh

/-- C10, as stated, fails: on the 8-byte source `00 00 00 00 "free"` the header at
offset 0 is decoded with declared size 0, and the walk over `[0, 8)` neither
returns nor fails, however many iterations it is given: it reads offset 0 again
and again. -/
theorem readBoxes_size_zero_never_ends :
    ReadBoxAt sizeZeroSource 0 = .done (0, [0x66, 0x72, 0x65, 0x65]) ∧
    (∀ fuel : Nat, readBoxes fuel sizeZeroSource 0 8 = .outOfFuel) ∧
    (∀ fuel : Nat, Parse fuel { Reader := sizeZeroSource, Size := 8 } = .outOfFuel) := by
  have hr : ReadBoxAt sizeZeroSource 0 = .done (0, [0x66, 0x72, 0x65, 0x65]) := by decide
  have hloop : ∀ fuel : Nat, readBoxes fuel sizeZeroSource 0 8 = .outOfFuel := by
    intro fuel
    exact readBoxesLoop_size_zero sizeZeroSource _ 0 _ (by decide) (by decide) hr fuel []
  refine ⟨hr, hloop, ?_⟩
  intro fuel
  have hp : Parse fuel { Reader := sizeZeroSource, Size := 8 } =
      (readBoxes fuel sizeZeroSource 0 8).bind fun boxes =>
        (ParseLoop fuel boxes { Reader := sizeZeroSource, Size := 8 }).bind fun m =>
          .done (m, none) := rfl
  rw [hp, hloop fuel]
  rfl

/-- C10, amended: for every source and every range `[start, start+n)` (with
`start` an `int64`, so below `2^63`) in which no header that the walk decodes
declares size 0, the walk `readBoxes` terminates: given enough iterations it
returns its list or panics on a header that cannot be read. -/
theorem readBoxes_terminates_of_positive_sizes (m : ReaderAt) (start n : Int)
    (hs : start < 9223372036854775808)
    (hpos : ∀ off : Int, Reaches m (wrapInt64 (start + n)) start off →
      off < wrapInt64 (start + n) → sizeAt m off ≠ some 0) :
    ∃ fuel, readBoxes fuel m start n ≠ .outOfFuel :=
  readBoxesLoop_terminates m (wrapInt64 (start + n)) _ start [] hs (le_refl _) hpos

/-- C10 witness: the walk over the 34-byte source that is the scenario `mvhd` box;
the walk decodes the header at offset 0 only (the payload bytes at offset 8 would
decode to size 0, but the walk does not come to them). -/
theorem readBoxes_terminates_of_positive_sizes_witness :
    ∃ fuel, readBoxes fuel scenarioMvhd 0 34 ≠ .outOfFuel :=
  readBoxes_terminates_of_positive_sizes scenarioMvhd 0 34 (by decide) (by
    intro off hreach hlt
    have h0 : ReadBoxAt scenarioMvhd 0 = .done (34, tagMvhd) := by decide
    cases hreach with
    | here => decide
    | step _ size name _ hl hr hrest =>
      rw [h0] at hr
      cases hr
      have hw : wrapInt64 ((0 : Int) + ((34 : Nat) : Int)) = 34 := by decide
      rw [hw] at hrest
      cases hrest with
      | here => exact absurd hlt (by decide)
      | step _ size2 name2 _ hl2 _ _ => exact absurd hl2 (by decide))

/-! ## C11, C12: payloads shorter than a decoder needs -/

/-- What `ReadBoxData` can return for a box of declared size at most `8 + k`: at
most `k` bytes. -/
theorem ReadBoxData_short (box : Box) (k : Nat) (h : box.Size ≤ 8 + (k : Int)) :
    box.ReadBoxData = .panic ∨ ∃ data, box.ReadBoxData = .done data ∧ data.length ≤ k := by
  unfold Box.ReadBoxData BoxHeaderSize
  by_cases h8 : box.Size ≤ 8
  · rw [if_pos h8]
    exact Or.inr ⟨[], rfl, Nat.zero_le _⟩
  · rw [if_neg h8]
    unfold ReadBytesAt
    by_cases hn : wrapInt64 (box.Size - 8) < 0
    · rw [if_pos hn]
      exact Or.inl rfl
    · rw [if_neg hn]
      have hw : (wrapInt64 (box.Size - 8)).toNat ≤ k := by
        unfold wrapInt64 at hn ⊢
        omega
      cases hread : box.Reader.ReadAt (wrapInt64 (box.Size - 8)).toNat
          (wrapInt64 (box.Start + 8)) with
      | none => exact Or.inr ⟨[], rfl, Nat.zero_le _⟩
      | some buf =>
        refine Or.inr ⟨buf, rfl, ?_⟩
        unfold ReaderAt.ReadAt at hread
        split at hread
        · cases hread
          rw [List.length_take]
          omega
        · cases hread

theorem sliceOf_ne_outOfFuel (s : List Byte) (lo hi : Nat) : sliceOf s lo hi ≠ .outOfFuel := by
  unfold sliceOf
  split <;> exact fun hh => Run.noConfusion hh

theorem beUint32_ne_outOfFuel (s : List Byte) : beUint32 s ≠ .outOfFuel := by
  unfold beUint32
  split <;> exact fun hh => Run.noConfusion hh

theorem indexOf_ne_outOfFuel (s : List Byte) (i : Nat) : indexOf s i ≠ .outOfFuel := by
  unfold indexOf
  split <;> exact fun hh => Run.noConfusion hh

/-- A step that cannot run out of fuel, followed by steps that all panic, panics. -/
theorem Run.bind_panic_of_forall {α β : Type} (x : Run α) (f : α → Run β)
    (hx : x ≠ .outOfFuel) (hf : ∀ a, f a = .panic) : x.bind f = .panic := by
  cases x with
  | done a => exact hf a
  | panic => rfl
  | outOfFuel => exact absurd rfl hx

theorem Run.bind_ne_outOfFuel {α β : Type} (x : Run α) (f : α → Run β)
    (hx : x ≠ .outOfFuel) (hf : ∀ a, f a ≠ .outOfFuel) : x.bind f ≠ .outOfFuel := by
  cases x with
  | done a => exact hf a
  | panic => exact fun hh => Run.noConfusion hh
  | outOfFuel => exact absurd rfl hx

/-- The decoder `FtypBox.parse` panics on every box of declared size at most 15,
whatever the source holds. -/
theorem FtypBox.ftyp_parse_short (b : FtypBox) (h : b.Size ≤ 15) : FtypBox.parse b = .panic := by
  unfold FtypBox.parse
  simp only [Run.bind_eq_bind]
  rcases ReadBoxData_short b.toBox 7 (by omega) with hp | ⟨data, hd, hlen⟩
  · rw [hp]
    rfl
  · rw [hd, Run.bind_done]
    refine Run.bind_panic_of_forall _ _ (sliceOf_ne_outOfFuel _ _ _) (fun major => ?_)
    rw [sliceOf_out_of_range data 4 8 (by omega)]
    rfl

/-- The decoder `MvhdBox.parse` panics on every box of declared size below 34,
whatever the source holds. -/
theorem MvhdBox.mvhd_parse_short (b : MvhdBox) (h : b.Size < 34) : MvhdBox.parse b = .panic := by
  unfold MvhdBox.parse
  simp only [Run.bind_eq_bind]
  rcases ReadBoxData_short b.toBox 25 (by omega) with hp | ⟨data, hd, hlen⟩
  · rw [hp]
    rfl
  · rw [hd, Run.bind_done]
    refine Run.bind_panic_of_forall _ _ (indexOf_ne_outOfFuel _ _) (fun version => ?_)
    refine Run.bind_panic_of_forall _ _
      (Run.bind_ne_outOfFuel _ _ (sliceOf_ne_outOfFuel _ _ _) beUint32_ne_outOfFuel)
      (fun timescale => ?_)
    refine Run.bind_panic_of_forall _ _
      (Run.bind_ne_outOfFuel _ _ (sliceOf_ne_outOfFuel _ _ _) beUint32_ne_outOfFuel)
      (fun duration => ?_)
    refine Run.bind_panic_of_forall _ _
      (Run.bind_ne_outOfFuel _ _ (sliceOf_ne_outOfFuel _ _ _) beUint32_ne_outOfFuel)
      (fun rate => ?_)
    rw [sliceOf_out_of_range data 24 26 (by omega)]
    rfl

/-- C11, as stated, fails: on the header-only `ftyp` box (declared size 8) the
decoder does not return an error to its caller; it panics on the slice
`data[0:4]` of the `nil` payload, and `Parse` over that source panics with it. -/
theorem FtypBox_parse_header_only_panics :
    FtypBox.parse { toBox := ⟨tagFtyp, 8, 0, ftypHeaderOnly⟩ } = .panic ∧
    Parse 1 { Reader := ftypHeaderOnly, Size := 8 } = .panic := by
  have hf := FtypBox.ftyp_parse_short { toBox := ⟨tagFtyp, 8, 0, ftypHeaderOnly⟩ } (by decide)
  refine ⟨hf, ?_⟩
  have hb : readBoxes 1 ftypHeaderOnly 0 8 = .done [⟨tagFtyp, 8, 0, ftypHeaderOnly⟩] := by
    decide
  have hp : Parse 1 { Reader := ftypHeaderOnly, Size := 8 } =
      (readBoxes 1 ftypHeaderOnly 0 8).bind fun boxes =>
        (ParseLoop 1 boxes { Reader := ftypHeaderOnly, Size := 8 }).bind fun m =>
          .done (m, none) := rfl
  rw [hp, hb, Run.bind_done, ParseLoop, if_pos rfl, hf]
  rfl

/-- C11, amended: for every `ftyp` box whose payload is shorter than 8 bytes
(declared size at most 15, the header-only box included), whatever its start and
whatever the source holds, `FtypBox.parse` returns neither a result nor an error:
the run ends in a panic on an out-of-range slice. -/
theorem FtypBox_parse_short_payload_panics (box : Box) (h : box.Size ≤ 15) :
    FtypBox.parse { toBox := box } = .panic :=
  FtypBox.ftyp_parse_short { toBox := box } h

/-- C11 witness: an `ftyp` box of declared size 12 at the start of the scenario
bytes. -/
theorem FtypBox_parse_short_payload_panics_witness :
    FtypBox.parse { toBox := ⟨tagFtyp, 12, 0, scenarioFtyp⟩ } = .panic :=
  FtypBox_parse_short_payload_panics ⟨tagFtyp, 12, 0, scenarioFtyp⟩ (by decide)

/-- C12, as stated, fails: on an `mvhd` box with a 25-byte payload (declared size
33) the decoder does not return an error to its caller; it panics on the slice
`data[24:26]`. -/
theorem MvhdBox_parse_25_bytes_panics :
    MvhdBox.parse { toBox := ⟨tagMvhd, 33, 0, mvhdShort⟩ } = .panic ∧
    readBoxes 1 mvhdShort 0 33 = .done [⟨tagMvhd, 33, 0, mvhdShort⟩] := by
  constructor <;> decide

/-- C12, amended: for every `mvhd` box whose payload is shorter than 26 bytes
(declared size below 34), whatever its start and whatever the source holds,
`MvhdBox.parse` returns neither a result nor an error: the run ends in a panic
on an out-of-range index or slice. -/
theorem MvhdBox_parse_short_payload_panics (box : Box) (h : box.Size < 34) :
    MvhdBox.parse { toBox := box } = .panic :=
  MvhdBox.mvhd_parse_short { toBox := box } h

/-- C12 witness: the header-only `mvhd` box at the start of the scenario bytes. -/
theorem MvhdBox_parse_short_payload_panics_witness :
    MvhdBox.parse { toBox := ⟨tagMvhd, 8, 0, scenarioMvhd⟩ } = .panic :=
  MvhdBox_parse_short_payload_panics ⟨tagMvhd, 8, 0, scenarioMvhd⟩ (by decide)

/-! ## C13, C14: containers with a short or empty payload -/

/-- C13, as stated, fails: on a `moov` box of declared size 12 (a 4-byte payload)
that is followed by further bytes, `MoovBox.parse` does not fail before the nested
walk: it reads a header at offset 8, which extends 4 bytes beyond the box, takes
the 34-byte `mvhd` box it finds there as a nested box, and returns with `Mvhd`
decoded from bytes outside the container. -/
theorem MoovBox_parse_reads_past_short_payload :
    ReadBoxAt moovTwelveSource 8 = .done (34, tagMvhd) ∧
    MoovBox.parse 1 { toBox := ⟨tagMoov, 12, 0, moovTwelveSource⟩ } =
      .done { toBox := ⟨tagMoov, 12, 0, moovTwelveSource⟩,
              Mvhd := some { toBox := ⟨tagMvhd, 34, 8, moovTwelveSource⟩,
                             Version := 0, Timescale := 1000, Duration := 100,
                             Rate := 65536, Volume := 256 } } := by
  constructor <;> decide

/-- The nested walk of `MoovBox.parse` on a box whose payload is non-empty:
the first thing it does is to read a header at `Start + 8`. -/
theorem MoovBox.parse_first_read (fuel : Nat) (b : MoovBox) (h9 : 9 ≤ b.Size)
    (h0 : 0 ≤ b.Start) (hend : b.Start + b.Size < 9223372036854775808) :
    MoovBox.parse (fuel + 1) b =
      ((ReadBoxAt b.Reader (b.Start + 8)).bind fun (size, name) =>
        readBoxesLoop b.Reader (b.Start + b.Size) fuel (wrapInt64 (b.Start + 8 + (size : Int)))
          [{ Name := name, Size := (size : Int), Reader := b.Reader, Start := b.Start + 8 }]).bind
        fun boxes => MoovBox.parseLoop boxes b := by
  have hw1 : wrapInt64 (b.Start + BoxHeaderSize) = b.Start + 8 := by
    unfold wrapInt64 BoxHeaderSize
    omega
  have hw2 : wrapInt64 (b.Size - BoxHeaderSize) = b.Size - 8 := by
    unfold wrapInt64 BoxHeaderSize
    omega
  have hw3 : wrapInt64 (b.Start + 8 + (b.Size - 8)) = b.Start + b.Size := by
    unfold wrapInt64
    omega
  unfold MoovBox.parse readBoxes
  simp only [Run.bind_eq_bind, hw1, hw2, hw3]
  rw [readBoxesLoop_succ _ _ _ _ _ (by omega)]
  rfl

/-- C13, amended: for every `moov` box whose payload is non-empty (declared size 9
or more, so in particular 9 to 15, a payload shorter than 8 bytes) and after whose
start fewer than 16 bytes of the source remain (in particular when the source ends
with a box of size 9 to 15), `MoovBox.parse` returns neither a result nor an
error: it reads a nested header at `Start + 8`, the read is short, and the run
ends in a panic. -/
theorem MoovBox_parse_short_payload_panics (fuel : Nat) (b : MoovBox) (h9 : 9 ≤ b.Size)
    (h0 : 0 ≤ b.Start) (hend : b.Start + b.Size < 9223372036854775808)
    (hshort : (b.Reader.data.length : Int) < b.Start + 16) :
    ReadBoxAt b.Reader (b.Start + 8) = .panic ∧ MoovBox.parse (fuel + 1) b = .panic := by
  have hr : ReadBoxAt b.Reader (b.Start + 8) = .panic :=
    ReadBoxAt_unreadable _ _ (fun hh => by omega)
  refine ⟨hr, ?_⟩
  rw [MoovBox.parse_first_read fuel b h9 h0 hend, hr]
  rfl

/-- C13 witness: a 12-byte source that is one `moov` box of declared size 12. -/
theorem MoovBox_parse_short_payload_panics_witness :
    ReadBoxAt moovTwelveAtEnd (0 + 8) = .panic ∧
    MoovBox.parse (0 + 1) { toBox := ⟨tagMoov, 12, 0, moovTwelveAtEnd⟩ } = .panic :=
  MoovBox_parse_short_payload_panics 0 { toBox := ⟨tagMoov, 12, 0, moovTwelveAtEnd⟩ }
    (by decide) (by decide) (by decide) (by decide)

/-- C14: for every header-only `moov` box (declared size 8), whatever its start
and whatever the source holds, the nested walk of `MoovBox.parse` is over an empty
range and returns the empty list without running its loop body even once (so
without any read of the source), and `MoovBox.parse` returns the receiver
unchanged, `Mvhd` staying absent. -/
theorem MoovBox_parse_header_only (fuel : Nat) (box : Box) (h8 : box.Size = 8) :
    readBoxes 0 box.Reader (wrapInt64 (box.Start + BoxHeaderSize))
        (wrapInt64 (box.Size - BoxHeaderSize)) = .done [] ∧
    readBoxes fuel box.Reader (wrapInt64 (box.Start + BoxHeaderSize))
        (wrapInt64 (box.Size - BoxHeaderSize)) = .done [] ∧
    MoovBox.parse fuel { toBox := box } = .done { toBox := box, Mvhd := none } := by
  have hexit : ∀ f, readBoxes f box.Reader (wrapInt64 (box.Start + BoxHeaderSize))
      (wrapInt64 (box.Size - BoxHeaderSize)) = .done [] := by
    intro f
    unfold readBoxes
    apply readBoxesLoop_exit
    rw [h8]
    unfold wrapInt64 BoxHeaderSize
    omega
  refine ⟨hexit 0, hexit fuel, ?_⟩
  unfold MoovBox.parse
  simp only [Run.bind_eq_bind]
  rw [hexit fuel]
  rfl

/-- C14 witness: the 8-byte source that is one header-only `moov` box. -/
theorem MoovBox_parse_header_only_witness :
    MoovBox.parse 0 { toBox := ⟨tagMoov, 8, 0, moovHeaderOnly⟩ } =
      .done { toBox := ⟨tagMoov, 8, 0, moovHeaderOnly⟩, Mvhd := none } :=
  (MoovBox_parse_header_only 0 ⟨tagMoov, 8, 0, moovHeaderOnly⟩ rfl).2.2

/-! ## C17: short reads -/

/-- A walk that comes to an offset inside its bound where the header cannot be
read never returns a list. -/
theorem readBoxesLoop_not_done_of_unreadable (m : ReaderAt) (limit : Int) (a b : Int)
    (hreach : Reaches m limit a b) (hb : b < limit) (hbad : ReadBoxAt m b = .panic) :
    ∀ (fuel : Nat) (l r : List Box), readBoxesLoop m limit fuel a l ≠ .done r := by
  induction hreach with
  | here off =>
    intro fuel l r
    cases fuel with
    | zero =>
      rw [readBoxesLoop_zero m limit off l hb]
      exact fun hh => Run.noConfusion hh
    | succ fuel =>
      rw [readBoxesLoop_panic m limit fuel off l hb hbad]
      exact fun hh => Run.noConfusion hh
  | step off size name off' hlt hr _ ih =>
    intro fuel l r
    cases fuel with
    | zero =>
      rw [readBoxesLoop_zero m limit off l hlt]
      exact fun hh => Run.noConfusion hh
    | succ fuel =>
      rw [readBoxesLoop_step m limit fuel off l hlt size name hr]
      exact ih hb hbad fuel _ r

/-- A walk that comes to an offset inside its bound where the header cannot be
read panics, once it is given enough iterations. -/
theorem readBoxesLoop_panic_of_unreadable (m : ReaderAt) (limit : Int) (a b : Int)
    (hreach : Reaches m limit a b) (hb : b < limit) (hbad : ReadBoxAt m b = .panic) :
    ∃ fuel : Nat, ∀ l : List Box, readBoxesLoop m limit fuel a l = .panic := by
  induction hreach with
  | here off => exact ⟨1, fun l => readBoxesLoop_panic m limit 0 off l hb hbad⟩
  | step off size name off' hlt hr _ ih =>
    obtain ⟨fuel, hfuel⟩ := ih hb hbad
    refine ⟨fuel + 1, fun l => ?_⟩
    rw [readBoxesLoop_step m limit fuel off l hlt size name hr]
    exact hfuel _

/-- When the walk of `Parse` does not return a list, `Parse` does not return. -/
theorem ParseBody_not_done_of_walk (fuel : Nat) (m : Mp4Reader)
    (hwalk : ∀ l, readBoxes fuel m.Reader 0 m.Size ≠ .done l) :
    ∀ r, ParseBody fuel m ≠ .done r := by
  intro r
  unfold ParseBody
  simp only [Run.bind_eq_bind]
  cases hw : readBoxes fuel m.Reader 0 m.Size with
  | done l => exact absurd hw (hwalk l)
  | panic => exact fun hh => Run.noConfusion hh
  | outOfFuel => exact fun hh => Run.noConfusion hh

/-- When the walk over the size that `Parse` settles on does not return a list,
`Parse` does not return. -/
theorem Parse_not_done_of_walk (fuel : Nat) (m : Mp4Reader) (S : Int)
    (hS : settledSize m = some S)
    (hwalk : ∀ l, readBoxes fuel m.Reader 0 S ≠ .done l) :
    ∀ r, Parse fuel m ≠ .done r := by
  intro r
  unfold settledSize at hS
  unfold Parse
  by_cases hz : m.Size = 0
  · rw [if_pos hz] at hS
    rw [if_pos hz]
    cases hf : m.Reader.file with
    | notFile =>
      rw [hf] at hS
      cases hS
      exact ParseBody_not_done_of_walk fuel m hwalk r
    | statError =>
      rw [hf] at hS
      cases hS
    | size k =>
      rw [hf] at hS
      have hk : k = S := Option.some.inj hS
      subst hk
      exact ParseBody_not_done_of_walk fuel { m with Size := k } hwalk r
  · rw [if_neg hz] at hS
    rw [if_neg hz]
    cases hS
    exact ParseBody_not_done_of_walk fuel m hwalk r

/-- C17, as stated, fails: a short read is not reported to the caller of
`ReadBytesAt`.  On a 12-byte source the call `ReadBytesAt(8, 8)` returns normally,
with the `nil` slice, and it is `ReadBoxAt` that then panics on `buf[0:4]`. -/
theorem ReadBytesAt_short_read_returns_nil :
    ReadBytesAt freeThenFour 8 8 = .done [] ∧ ReadBoxAt freeThenFour 8 = .panic ∧
    readBoxes 2 freeThenFour 0 12 = .panic := by
  refine ⟨?_, ?_, ?_⟩ <;> decide

/-- C17, amended: `ReadBytesAt(n, offset)` returns exactly the `n` bytes of the
source at `offset` whenever `0 ≤ offset` and `offset + n` is within the length of
the source; otherwise, for a header read (`n ≤ 8`) and for every `n` that is at
most the length of the source, it returns the `nil` slice without reporting the
read error to its caller; when the walk of `readBoxes` comes to an offset inside
its range where the header cannot be read in full, `readBoxes` returns no list
for any number of iterations and panics once given enough of them, and `Parse`,
over the size it settles on (`Size`, or what `Stat` reports when `Size` is 0),
does not return either. -/
theorem ReadBytesAt_and_short_header_reads :
    (∀ (m : ReaderAt) (n : Nat) (offset : Int), 0 ≤ offset →
      offset + (n : Int) ≤ (m.data.length : Int) →
      ∃ buf, ReadBytesAt m (n : Int) offset = .done buf ∧ buf.length = n ∧
        buf = (m.data.drop offset.toNat).take n) ∧
    (∀ (m : ReaderAt) (n : Nat) (offset : Int), n ≤ 8 ∨ n ≤ m.data.length →
      ¬ (0 ≤ offset ∧ offset + (n : Int) ≤ (m.data.length : Int)) →
      ReadBytesAt m (n : Int) offset = .done []) ∧
    (∀ (m : ReaderAt) (start n off : Int), Reaches m (wrapInt64 (start + n)) start off →
      off < wrapInt64 (start + n) → ¬ (0 ≤ off ∧ off + 8 ≤ (m.data.length : Int)) →
      (∀ fuel l, readBoxes fuel m start n ≠ .done l) ∧
      (∃ fuel, readBoxes fuel m start n = .panic)) ∧
    (∀ (m : Mp4Reader) (S off : Int), settledSize m = some S →
      Reaches m.Reader (wrapInt64 (0 + S)) 0 off → off < wrapInt64 (0 + S) →
      ¬ (0 ≤ off ∧ off + 8 ≤ (m.Reader.data.length : Int)) →
      ∀ fuel r, Parse fuel m ≠ .done r) := by
  refine ⟨?_, ?_, ?_, ?_⟩
  · intro m n offset h0 hin
    refine ⟨_, ReadBytesAt_of_inRange m n offset h0 hin, ?_, rfl⟩
    rw [List.length_take, List.length_drop]
    omega
  · intro m n offset _ hout
    unfold ReadBytesAt
    rw [if_neg (by omega), Int.toNat_natCast, ReadAt_of_not_inRange m n offset hout]
  · intro m start n off hreach hlt hbad
    have hp := ReadBoxAt_unreadable m off hbad
    refine ⟨fun fuel l => readBoxesLoop_not_done_of_unreadable m _ start off hreach hlt hp fuel [] l,
      ?_⟩
    obtain ⟨fuel, hfuel⟩ := readBoxesLoop_panic_of_unreadable m _ start off hreach hlt hp
    exact ⟨fuel, hfuel []⟩
  · intro m S off hS hreach hlt hbad fuel r
    have hp := ReadBoxAt_unreadable m.Reader off hbad
    exact Parse_not_done_of_walk fuel m S hS
      (fun l => readBoxesLoop_not_done_of_unreadable m.Reader _ 0 off hreach hlt hp fuel [] l) r

/-- C17 witness: reads on the 12-byte source `freeThenFour`, whose walk over
`[0, 12)` comes to offset 8, where only 4 bytes are left; `Parse` once with `Size`
12 and once with `Size` 0 on a file of 12 bytes. -/
theorem ReadBytesAt_and_short_header_reads_witness :
    (∃ buf, ReadBytesAt freeThenFour ((8 : Nat) : Int) 4 = .done buf ∧ buf.length = 8 ∧
        buf = (freeThenFour.data.drop (4 : Int).toNat).take 8) ∧
    ReadBytesAt freeThenFour ((8 : Nat) : Int) 8 = .done [] ∧
    ((∀ fuel l, readBoxes fuel freeThenFour 0 12 ≠ .done l) ∧
      (∃ fuel, readBoxes fuel freeThenFour 0 12 = .panic)) ∧
    (∀ fuel r, Parse fuel { Reader := freeThenFour, Size := 12 } ≠ .done r) ∧
    (∀ fuel r, Parse fuel { Reader := freeThenFourFile, Size := 0 } ≠ .done r) :=
  have hreach : Reaches freeThenFour (wrapInt64 (0 + 12)) 0 8 :=
    Reaches.step 0 8 [0x66, 0x72, 0x65, 0x65] 8 (by decide) (by decide) (Reaches.here _)
  have hreachFile : Reaches freeThenFourFile (wrapInt64 (0 + 12)) 0 8 :=
    Reaches.step 0 8 [0x66, 0x72, 0x65, 0x65] 8 (by decide) (by decide) (Reaches.here _)
  ⟨ReadBytesAt_and_short_header_reads.1 freeThenFour 8 4 (by decide) (by decide),
   ReadBytesAt_and_short_header_reads.2.1 freeThenFour 8 8 (Or.inl (le_refl _)) (by decide),
   ReadBytesAt_and_short_header_reads.2.2.1 freeThenFour 0 12 8 hreach (by decide) (by decide),
   ReadBytesAt_and_short_header_reads.2.2.2 { Reader := freeThenFour, Size := 12 } 12 8 rfl
     hreach (by decide) (by decide),
   ReadBytesAt_and_short_header_reads.2.2.2 { Reader := freeThenFourFile, Size := 0 } 12 8 rfl
     hreachFile (by decide) (by decide)⟩

/-! ## C18: how many boxes a walk returns -/

/-- When every header the walk decodes declares at least `k ≥ 1` bytes, the loop
returns, and `k` times the number of boxes is at most the distance to the bound
plus `k - 1`. -/
theorem readBoxesLoop_count (m : ReaderAt) (limit : Int) (k : Nat) (hk : 1 ≤ k) :
    ∀ (d : Nat) (off : Int), off < 9223372036854775808 → (limit - off).toNat ≤ d →
      WalkDecodes m limit off k →
      ∃ fuel r, readBoxesLoop m limit fuel off [] = .done r ∧
        k * r.length ≤ (limit - off).toNat + (k - 1) := by
  intro d
  induction d with
  | zero =>
    intro off _ hd _
    exact ⟨0, [], readBoxesLoop_exit m limit 0 off [] (by omega), by simp⟩
  | succ d ih =>
    intro off hu hd hdec
    by_cases hl : off < limit
    · obtain ⟨size, name, hr, hsize⟩ := hdec off (Reaches.here off) hl
      have hin := ReadBoxAt_done_inRange m off _ hr
      simp only at hin
      by_cases hl2 : wrapInt64 (off + (size : Int)) < limit
      · obtain ⟨size2, name2, hr2, -⟩ := hdec _
          (Reaches.step off size name _ hl hr (Reaches.here _)) hl2
        have hin2 := ReadBoxAt_done_inRange m _ _ hr2
        have hw : wrapInt64 (off + (size : Int)) = off + (size : Int) := by
          have h1 := hin2.1
          unfold wrapInt64 at h1 ⊢
          omega
        rw [hw] at hl2
        have hup := wrapInt64_upper (off + (size : Int))
        rw [hw] at hup
        have hdec' : WalkDecodes m limit (off + (size : Int)) k := by
          intro x hx hxl
          exact hdec x (Reaches.step off size name x hl hr (by rw [hw]; exact hx)) hxl
        obtain ⟨fuel, r, hrun, hbound⟩ := ih (off + (size : Int)) (by omega) (by omega) hdec'
        refine ⟨fuel + 1, { Name := name, Size := (size : Int), Reader := m, Start := off } :: r,
          ?_, ?_⟩
        · rw [readBoxesLoop_step m limit fuel off [] hl size name hr, hw, readBoxesLoop_append,
            hrun]
          rfl
        · rw [List.length_cons, Nat.mul_succ]
          omega
      · refine ⟨1, [{ Name := name, Size := (size : Int), Reader := m, Start := off }], ?_, ?_⟩
        · rw [readBoxesLoop_step m limit 0 off [] hl size name hr,
            readBoxesLoop_exit m limit 0 _ _ hl2]
          rfl
        · rw [List.length_singleton, Nat.mul_one]
          omega
    · exact ⟨0, [], readBoxesLoop_exit m limit 0 off [] hl, by simp⟩

/-- C18: for every source and range `[start, start+n)` with `start` and `n`
`int64` values and `n ≥ 0`: when every header the walk decodes is readable in full
and declares a size of at least 1, `readBoxes` returns, with at most `n` boxes;
when every such header declares at least 8, it returns at most `ceil(n/8)` boxes;
and for `n = 0` it returns the empty list without running its loop body, so
without reading the source. -/
theorem readBoxes_count_bound (m : ReaderAt) (start n : Int)
    (hs0 : -9223372036854775808 ≤ start) (hs1 : start < 9223372036854775808)
    (hn0 : 0 ≤ n) (hn1 : n < 9223372036854775808) :
    (WalkDecodes m (wrapInt64 (start + n)) start 1 →
      ∃ fuel l, readBoxes fuel m start n = .done l ∧ (l.length : Int) ≤ n) ∧
    (WalkDecodes m (wrapInt64 (start + n)) start 8 →
      ∃ fuel l, readBoxes fuel m start n = .done l ∧ (l.length : Int) ≤ (n + 7) / 8) ∧
    (n = 0 → readBoxes 0 m start n = .done []) := by
  have hlim : (wrapInt64 (start + n) - start).toNat ≤ n.toNat := by
    unfold wrapInt64
    omega
  refine ⟨?_, ?_, ?_⟩
  · intro hdec
    obtain ⟨fuel, r, hrun, hbound⟩ :=
      readBoxesLoop_count m _ 1 (le_refl 1) _ start hs1 (le_refl _) hdec
    refine ⟨fuel, r, hrun, ?_⟩
    omega
  · intro hdec
    obtain ⟨fuel, r, hrun, hbound⟩ :=
      readBoxesLoop_count m _ 8 (by decide) _ start hs1 (le_refl _) hdec
    refine ⟨fuel, r, hrun, ?_⟩
    omega
  · intro hz
    subst hz
    unfold readBoxes
    apply readBoxesLoop_exit
    unfold wrapInt64
    omega

/-- The walk over the 8-byte source that is one `free` box decodes one header, of
size 8. -/
theorem walkDecodes_freeBlock : WalkDecodes ⟨freeBlock, .notFile⟩ (wrapInt64 (0 + 8)) 0 8 := by
  intro x hx hlt
  have h0 : ReadBoxAt ⟨freeBlock, .notFile⟩ 0 = .done (8, [0x66, 0x72, 0x65, 0x65]) := by decide
  cases hx with
  | here => exact ⟨8, _, h0, le_refl _⟩
  | step _ size name _ hl hr hrest =>
    rw [h0] at hr
    cases hr
    have hw : wrapInt64 ((0 : Int) + ((8 : Nat) : Int)) = 8 := by decide
    rw [hw] at hrest
    cases hrest with
    | here => exact absurd hlt (by decide)
    | step _ size2 name2 _ hl2 _ _ => exact absurd hl2 (by decide)

/-- C18 witness: the walk over the 8-byte source that is one `free` box. -/
theorem readBoxes_count_bound_witness :
    (∃ fuel l, readBoxes fuel ⟨freeBlock, .notFile⟩ 0 8 = .done l ∧ (l.length : Int) ≤ 8) ∧
    (∃ fuel l, readBoxes fuel ⟨freeBlock, .notFile⟩ 0 8 = .done l ∧
      (l.length : Int) ≤ (8 + 7) / 8) :=
  have h := readBoxes_count_bound ⟨freeBlock, .notFile⟩ 0 8 (by decide) (by decide) (by decide)
    (by decide)
  ⟨h.1 (fun x hx hlt => by
      obtain ⟨size, name, hr, hsz⟩ := walkDecodes_freeBlock x hx hlt
      exact ⟨size, name, hr, by omega⟩),
   h.2.1 walkDecodes_freeBlock⟩

/-! ## C19: the extent of the returned boxes -/

/-- Every run of the loop that returns has collected boxes that start before the
bound, and whose sizes carry the walk to the bound or beyond. -/
theorem readBoxesLoop_bounds (m : ReaderAt) (limit : Int) (fuel : Nat) :
    ∀ (off : Int) (r : List Box), readBoxesLoop m limit fuel off [] = .done r →
      (∀ b ∈ r, b.Start < limit) ∧ limit ≤ off + (r.map Box.Size).sum := by
  induction fuel with
  | zero =>
    intro off r h
    by_cases hl : off < limit
    · rw [readBoxesLoop_zero m limit off [] hl] at h
      exact Run.noConfusion h
    · rw [readBoxesLoop_exit m limit 0 off [] hl] at h
      cases h
      exact ⟨fun b hb => (by cases hb), (by simp; omega)⟩
  | succ fuel ih =>
    intro off r h
    by_cases hl : off < limit
    · rcases ReadBoxAt_cases m off with hp | ⟨size, name, hr, hs, h0, h8⟩
      · rw [readBoxesLoop_panic m limit fuel off [] hl hp] at h
        exact Run.noConfusion h
      · rw [readBoxesLoop_step m limit fuel off [] hl size name hr, readBoxesLoop_append] at h
        cases hrec : readBoxesLoop m limit fuel (wrapInt64 (off + (size : Int))) [] with
        | panic => rw [hrec] at h; exact Run.noConfusion h
        | outOfFuel => rw [hrec] at h; exact Run.noConfusion h
        | done r' =>
          rw [hrec] at h
          simp only [Run.bind_done, List.nil_append, List.singleton_append, Run.done.injEq] at h
          subst h
          obtain ⟨hstart, hsum⟩ := ih _ r' hrec
          have hwle : wrapInt64 (off + (size : Int)) ≤ off + (size : Int) := by
            unfold wrapInt64
            omega
          refine ⟨?_, ?_⟩
          · intro b hb
            rcases List.mem_cons.1 hb with rfl | hmem
            · exact hl
            · exact hstart b hmem
          · simp only [List.map_cons, List.sum_cons]
            omega
    · rw [readBoxesLoop_exit m limit _ off [] hl] at h
      cases h
      exact ⟨fun b hb => (by cases hb), (by simp; omega)⟩

/-- The last of a non-empty run of contiguous boxes ends at the start offset plus
the sum of the sizes. -/
theorem Contiguous.last_end {m : ReaderAt} :
    ∀ (l : List Box) (off : Int), Contiguous m off l → l ≠ [] →
      ∃ b, l.getLast? = some b ∧ b.Start + b.Size = off + (l.map Box.Size).sum
  | [], _, _, hne => absurd rfl hne
  | [a], off, h, _ => ⟨a, rfl, by simp [h.1]⟩
  | a :: c :: rest, off, h, _ => by
    obtain ⟨b, hb, hend⟩ := Contiguous.last_end (c :: rest) _ h.2.2.2.2 (List.cons_ne_nil _ _)
    refine ⟨b, by rw [List.getLast?_cons_cons]; exact hb, ?_⟩
    rw [hend]
    simp only [List.map_cons, List.sum_cons]
    omega

/-- C19, as stated, fails when `start + n` overflows an `int64`: for
`start = 2^63 - 4` and `n = 10` the loop bound `start + n` wraps to a negative
value, the loop body never runs, and `readBoxes` returns the empty list, whose
`Size` fields sum to 0, less than `n`. -/
theorem readBoxes_range_end_overflow :
    wrapInt64 (9223372036854775804 + 10) = -9223372036854775802 ∧
    (∀ fuel : Nat, readBoxes fuel overrunSource 9223372036854775804 10 = .done []) ∧
    (([] : List Box).map Box.Size).sum < 10 := by
  refine ⟨by decide, fun fuel => ?_, by decide⟩
  unfold readBoxes
  exact readBoxesLoop_exit _ _ _ _ _ (by decide)

/-- C19, amended: for every source and range `[start, start+n)` with `n > 0` whose
bounds are `int64` values (`start + n` does not overflow), whenever
`readBoxes(m, start, n)` returns, the list is not
empty, every returned box has its `Start` in `[start, start+n)` and carries the
size and tag decoded from its header, unclipped, the `Size` fields sum to at
least `n`, and they sum to exactly `n` exactly when the last box ends at
`start+n`.  No size is checked against the range: on the 8-byte source
`00 00 00 64 "free"` the walk over `[0, 8)` returns the box with `Size` 100, and
the nested walk over the 4 payload bytes of a `moov` box of size 12 returns a
box of `Size` 34. -/
theorem readBoxes_extent_and_overrun :
    (∀ (fuel : Nat) (m : ReaderAt) (start n : Int) (l : List Box), 0 < n →
      -9223372036854775808 ≤ start → start + n < 9223372036854775808 →
      readBoxes fuel m start n = .done l →
      l ≠ [] ∧ (∀ b ∈ l, start ≤ b.Start ∧ b.Start < start + n) ∧
      n ≤ (l.map Box.Size).sum ∧
      ((l.map Box.Size).sum = n ↔
        ∃ b, l.getLast? = some b ∧ b.Start + b.Size = start + n) ∧
      (∀ b ∈ l, ReadBoxAt m b.Start = .done (b.Size.toNat, b.Name))) ∧
    readBoxes 1 overrunSource 0 8 = .done [⟨[0x66, 0x72, 0x65, 0x65], 100, 0, overrunSource⟩] ∧
    readBoxes 1 moovTwelveSource 8 4 = .done [⟨tagMvhd, 34, 8, moovTwelveSource⟩] := by
  refine ⟨?_, by decide, by decide⟩
  intro fuel m start n l hn hs hsn h
  have hw : wrapInt64 (start + n) = start + n := wrapInt64_of_inRange _ (by omega) hsn
  unfold readBoxes at h
  rw [hw] at h
  have hc := readBoxesLoop_contiguous m _ fuel start l (by omega) h
  obtain ⟨hstart, hsum⟩ := readBoxesLoop_bounds m _ fuel start l h
  have hne : l ≠ [] := by
    intro he
    subst he
    simp at hsum
    omega
  obtain ⟨b, hb, hend⟩ := Contiguous.last_end l start hc hne
  refine ⟨hne, fun b hb => ⟨Contiguous.start_ge l start hc b hb, hstart b hb⟩, by omega, ?_,
    fun b hb => (Contiguous.decoded l start hc b hb).2⟩
  constructor
  · intro hs
    exact ⟨b, hb, by omega⟩
  · rintro ⟨b', hb', hend'⟩
    rw [hb] at hb'
    cases hb'
    omega

/-- C19 witness: the walk over `[0, 12)` of the two-box source returns both
boxes; the second one, at offset 8, ends at 17. -/
theorem readBoxes_extent_and_overrun_witness :
    ([⟨blockTag freeBlock, 8, 0, twoBoxSource⟩, ⟨blockTag skipBlock, 9, 8, twoBoxSource⟩] :
        List Box) ≠ [] ∧
    (∀ b ∈ ([⟨blockTag freeBlock, 8, 0, twoBoxSource⟩,
             ⟨blockTag skipBlock, 9, 8, twoBoxSource⟩] : List Box),
      (0 : Int) ≤ b.Start ∧ b.Start < 0 + 12) ∧
    (12 : Int) ≤ (([⟨blockTag freeBlock, 8, 0, twoBoxSource⟩,
      ⟨blockTag skipBlock, 9, 8, twoBoxSource⟩] : List Box).map Box.Size).sum :=
  have h := readBoxes_extent_and_overrun.1 2 twoBoxSource 0 12
    [⟨blockTag freeBlock, 8, 0, twoBoxSource⟩, ⟨blockTag skipBlock, 9, 8, twoBoxSource⟩]
    (by decide) (by decide) (by decide) (by decide)
  ⟨h.1, h.2.1, h.2.2.1⟩

/-! ## C15: unrecognised tags are skipped -/

/-- The dispatch loop of `Parse` passes over boxes that are tagged neither `ftyp`
nor `moov`, whatever their extents: nothing is decoded and nothing can fail. -/
theorem ParseLoop_skip (fuel : Nat) :
    ∀ (boxes : List Box) (m : Mp4Reader),
      (∀ b ∈ boxes, b.Name ≠ tagFtyp ∧ b.Name ≠ tagMoov) → ParseLoop fuel boxes m = .done m
  | [], _, _ => rfl
  | box :: rest, m, h => by
    have hb := h box (List.mem_cons_self _ _)
    rw [ParseLoop, if_neg hb.1, if_neg hb.2]
    exact ParseLoop_skip fuel rest m (fun b hmem => h b (List.mem_cons_of_mem _ hmem))

/-- The dispatch loop of `MoovBox.parse` passes over boxes that are not tagged
`mvhd`, whatever their extents. -/
theorem MoovBox.parseLoop_skip_boxes :
    ∀ (boxes : List Box) (b : MoovBox),
      (∀ x ∈ boxes, x.Name ≠ tagMvhd) → MoovBox.parseLoop boxes b = .done b
  | [], _, _ => rfl
  | box :: rest, b, h => by
    rw [MoovBox.parseLoop, if_neg (h box (List.mem_cons_self _ _))]
    exact MoovBox.parseLoop_skip_boxes rest b (fun x hmem => h x (List.mem_cons_of_mem _ hmem))

theorem boxesOf_name (m : ReaderAt) :
    ∀ (blks : List (List Byte)) (off : Int), ∀ b ∈ boxesOf m off blks,
      ∃ blk ∈ blks, b.Name = blockTag blk ∧ b.Size = (blk.length : Int)
  | [], _, b, hb => by cases hb
  | blk :: rest, off, b, hb => by
    simp only [boxesOf, List.mem_cons] at hb
    rcases hb with rfl | hmem
    · exact ⟨blk, List.mem_cons_self _ _, rfl, rfl⟩
    · obtain ⟨x, hx, hn⟩ := boxesOf_name m rest _ b hmem
      exact ⟨x, List.mem_cons_of_mem _ hx, hn⟩

/-- C15: on every source (of length below `2^63`) that is a sequence of whole
boxes none of which is tagged `ftyp` or `moov`, `Parse` (with `Size` the length
of the source, the reader being no file or a file whose `Stat` reports that
length) returns no error and leaves `Ftyp` and `Moov` absent; on every `moov` box
whose payload is a sequence of whole boxes none of which is tagged `mvhd`,
`MoovBox.parse` returns and leaves `Mvhd` as it was, absent; and the two dispatch
loops pass over boxes with other tags whatever their extents and whatever the
source holds there, so that no payload is involved. -/
theorem Parse_skips_unrecognised :
    (∀ (blks : List (List Byte)) (file : FileStat),
      (∀ blk ∈ blks, IsBoxBlock blk ∧ blockTag blk ≠ tagFtyp ∧ blockTag blk ≠ tagMoov) →
      (concatBlocks blks).length < 9223372036854775808 →
      (file = .notFile ∨ file = .size ((concatBlocks blks).length : Int)) →
      Parse blks.length { Reader := ⟨concatBlocks blks, file⟩,
                          Size := ((concatBlocks blks).length : Int) } =
        .done ({ Reader := ⟨concatBlocks blks, file⟩, Ftyp := none, Moov := none,
                 Size := ((concatBlocks blks).length : Int) }, none)) ∧
    (∀ (pre hdr post : List Byte) (nested : List (List Byte)) (file : FileStat)
      (name : GoString),
      hdr.length = 8 → (∀ blk ∈ nested, IsBoxBlock blk ∧ blockTag blk ≠ tagMvhd) →
      (pre ++ hdr ++ concatBlocks nested ++ post).length < 9223372036854775808 →
      MoovBox.parse nested.length
          { toBox := ⟨name, ((8 + (concatBlocks nested).length : Nat) : Int), (pre.length : Int),
              ⟨pre ++ hdr ++ concatBlocks nested ++ post, file⟩⟩ } =
        .done { toBox := ⟨name, ((8 + (concatBlocks nested).length : Nat) : Int),
                  (pre.length : Int), ⟨pre ++ hdr ++ concatBlocks nested ++ post, file⟩⟩,
                Mvhd := none }) ∧
    (∀ (fuel : Nat) (boxes : List Box) (m : Mp4Reader),
      (∀ b ∈ boxes, b.Name ≠ tagFtyp ∧ b.Name ≠ tagMoov) → ParseLoop fuel boxes m = .done m) ∧
    (∀ (boxes : List Box) (b : MoovBox),
      (∀ x ∈ boxes, x.Name ≠ tagMvhd) → MoovBox.parseLoop boxes b = .done b) := by
  refine ⟨?_, ?_, ParseLoop_skip, MoovBox.parseLoop_skip_boxes⟩
  · intro blks file hb hlen hfile
    have hwalk := readBoxes_tiling ⟨concatBlocks blks, file⟩ [] [] blks (by simp)
      (fun blk h => (hb blk h).1) hlen
    simp only [List.length_nil, Nat.cast_zero] at hwalk
    have hloop : ∀ m : Mp4Reader, ParseLoop blks.length
        (boxesOf ⟨concatBlocks blks, file⟩ 0 blks) m = .done m := by
      intro m
      apply ParseLoop_skip
      intro b hmem
      obtain ⟨blk, hblk, hname, -⟩ := boxesOf_name _ blks 0 b hmem
      rw [hname]
      exact (hb blk hblk).2
    have hbody : ParseBody blks.length
        { Reader := ⟨concatBlocks blks, file⟩, Size := ((concatBlocks blks).length : Int) } =
        .done ({ Reader := ⟨concatBlocks blks, file⟩, Ftyp := none, Moov := none,
                 Size := ((concatBlocks blks).length : Int) }, none) := by
      unfold ParseBody
      simp only [Run.bind_eq_bind, Run.pure_eq_done, hwalk, Run.bind_done, hloop]
    unfold Parse
    by_cases hz : ((concatBlocks blks).length : Int) = 0
    · simp only
      rw [if_pos hz]
      rcases hfile with hf | hf
      · simp only [hf]
        rw [hf] at hbody
        exact hbody
      · simp only [hf]
        rw [hf] at hbody
        exact hbody
    · simp only
      rw [if_neg hz]
      exact hbody
  · intro pre hdr post nested file name hh hb hlen
    have hd : (⟨pre ++ hdr ++ concatBlocks nested ++ post, file⟩ : ReaderAt).data =
        (pre ++ hdr) ++ concatBlocks nested ++ post := rfl
    have hwalk := readBoxes_tiling ⟨pre ++ hdr ++ concatBlocks nested ++ post, file⟩ (pre ++ hdr)
      post nested hd (fun blk h => (hb blk h).1) hlen
    have hl : (pre ++ hdr ++ concatBlocks nested ++ post).length =
        pre.length + 8 + (concatBlocks nested).length + post.length := by
      simp only [List.length_append, hh]
    have hpre : ((pre ++ hdr).length : Int) = (pre.length : Int) + 8 := by
      rw [List.length_append, hh]
      push_cast
      rfl
    rw [hpre] at hwalk
    have hw1 : wrapInt64 ((pre.length : Int) + BoxHeaderSize) = (pre.length : Int) + 8 := by
      unfold wrapInt64 BoxHeaderSize
      omega
    have hw2 : wrapInt64 (((8 + (concatBlocks nested).length : Nat) : Int) - BoxHeaderSize) =
        ((concatBlocks nested).length : Int) := by
      unfold wrapInt64 BoxHeaderSize
      omega
    unfold MoovBox.parse
    simp only [Run.bind_eq_bind, hw1, hw2, hwalk, Run.bind_done]
    apply MoovBox.parseLoop_skip_boxes
    intro x hmem
    obtain ⟨blk, hblk, hname, -⟩ := boxesOf_name _ nested _ x hmem
    rw [hname]
    exact (hb blk hblk).2

/-- C15 witness: a source made of a `free` box and a `skip` box, and a `moov` box
whose payload is those two boxes. -/
theorem Parse_skips_unrecognised_witness :
    Parse 2 { Reader := ⟨concatBlocks [freeBlock, skipBlock], .notFile⟩, Size := 17 } =
      .done ({ Reader := ⟨concatBlocks [freeBlock, skipBlock], .notFile⟩, Ftyp := none,
               Moov := none, Size := 17 }, none) ∧
    MoovBox.parse 2
        { toBox := ⟨tagMoov, 25, 0,
            ⟨[] ++ [0, 0, 0, 0x19, 0x6D, 0x6F, 0x6F, 0x76] ++
              concatBlocks [freeBlock, skipBlock] ++ [], .notFile⟩⟩ } =
      .done { toBox := ⟨tagMoov, 25, 0,
                ⟨[] ++ [0, 0, 0, 0x19, 0x6D, 0x6F, 0x6F, 0x76] ++
                  concatBlocks [freeBlock, skipBlock] ++ [], .notFile⟩⟩,
              Mvhd := none } :=
  ⟨Parse_skips_unrecognised.1 [freeBlock, skipBlock] .notFile (by decide) (by decide)
      (Or.inl rfl),
   Parse_skips_unrecognised.2.1 [] [0, 0, 0, 0x19, 0x6D, 0x6F, 0x6F, 0x76] []
      [freeBlock, skipBlock] .notFile tagMoov (by decide) (by decide) (by decide)⟩

/-! ## C20: the two versions of the reader -/

theorem example1_ReadBytesAt_eq : Example1.ReadBytesAt = Mp4.ReadBytesAt := rfl

theorem example1_ReadBoxAt_eq : Example1.ReadBoxAt = Mp4.ReadBoxAt := rfl

theorem example1_ReadBoxData_eq : Example1.ReadBoxData = Mp4.Box.ReadBoxData := rfl

theorem example1_readBoxesLoop_eq (m : ReaderAt) (limit : Int) (fuel : Nat) :
    ∀ (off : Int) (l : List Box),
      Example1.readBoxesLoop m limit fuel off l = Mp4.readBoxesLoop m limit fuel off l := by
  induction fuel with
  | zero =>
    intro off l
    simp [Example1.readBoxesLoop, Mp4.readBoxesLoop]
  | succ fuel ih =>
    intro off l
    simp only [Example1.readBoxesLoop, Mp4.readBoxesLoop, example1_ReadBoxAt_eq, ih]

theorem example1_readBoxes_eq : Example1.readBoxes = Mp4.readBoxes := by
  funext fuel m start n
  exact example1_readBoxesLoop_eq m _ fuel start []

theorem example1_ftypParseLoop_eq (data : List Byte) :
    ∀ (n i : Nat) (brands : List GoString), data.length - i = n →
      Example1.ftypParseLoop data i brands = Mp4.FtypBox.parseLoop data i brands := by
  intro n
  induction n using Nat.strong_induction_on with
  | _ n ih =>
    intro i brands hn
    rw [Example1.ftypParseLoop, Mp4.FtypBox.parseLoop]
    by_cases hi : i < data.length
    · rw [if_pos hi, if_pos hi]
      congr 1
      funext s
      exact ih (data.length - (i + 4)) (by omega) (i + 4) _ rfl
    · rw [if_neg hi, if_neg hi]

theorem example1_ftypParse_eq : Example1.ftypParse = Mp4.FtypBox.parse := by
  funext b
  unfold Example1.ftypParse Mp4.FtypBox.parse
  rw [example1_ReadBoxData_eq]
  simp only [example1_ftypParseLoop_eq _ _ _ _ rfl]

/-- The dispatch loop of `src/example_1.go` follows that of
`src/mp4_example_02.go` wherever the latter returns. -/
theorem example1_ParseLoop_of_ParseLoop (fuel : Nat) :
    ∀ (boxes : List Box) (m r : Mp4Reader), Mp4.ParseLoop fuel boxes m = .done r →
      Example1.ParseLoop boxes (toExample1 m) = .done (toExample1 r)
  | [], m, r, h => by
    rw [Mp4.ParseLoop] at h
    cases h
    rfl
  | box :: rest, m, r, h => by
    rw [Mp4.ParseLoop] at h
    rw [Example1.ParseLoop, example1_ftypParse_eq]
    by_cases hf : box.Name = tagFtyp
    · rw [if_pos hf] at h
      rw [if_pos hf]
      cases hp : Mp4.FtypBox.parse { toBox := box } with
      | panic => rw [hp] at h; exact Run.noConfusion h
      | outOfFuel => rw [hp] at h; exact Run.noConfusion h
      | done ftyp =>
        rw [hp, Run.bind_done] at h
        rw [Run.bind_done]
        exact example1_ParseLoop_of_ParseLoop fuel rest _ r h
    · rw [if_neg hf] at h
      rw [if_neg hf]
      by_cases hm : box.Name = tagMoov
      · rw [if_pos hm] at h
        cases hp : Mp4.MoovBox.parse fuel { toBox := box } with
        | panic => rw [hp] at h; exact Run.noConfusion h
        | outOfFuel => rw [hp] at h; exact Run.noConfusion h
        | done moov =>
          rw [hp, Run.bind_done] at h
          exact example1_ParseLoop_of_ParseLoop fuel rest { m with Moov := some moov } r h
      · rw [if_neg hm] at h
        exact example1_ParseLoop_of_ParseLoop fuel rest m r h

theorem example1_ParseBody_of_ParseBody (fuel : Nat) (m r : Mp4Reader) (e : Option GoError)
    (h : Mp4.ParseBody fuel m = .done (r, e)) :
    Example1.ParseBody fuel (toExample1 m) = .done (toExample1 r, e) := by
  unfold Mp4.ParseBody at h
  unfold Example1.ParseBody
  rw [example1_readBoxes_eq]
  simp only [Run.bind_eq_bind, Run.pure_eq_done] at h ⊢
  have hread : (toExample1 m).Reader = m.Reader := rfl
  have hsize : (toExample1 m).Size = m.Size := rfl
  rw [hread, hsize]
  cases hw : Mp4.readBoxes fuel m.Reader 0 m.Size with
  | panic => rw [hw] at h; exact Run.noConfusion h
  | outOfFuel => rw [hw] at h; exact Run.noConfusion h
  | done boxes =>
    rw [hw, Run.bind_done] at h
    rw [Run.bind_done]
    cases hl : Mp4.ParseLoop fuel boxes m with
    | panic => rw [hl] at h; exact Run.noConfusion h
    | outOfFuel => rw [hl] at h; exact Run.noConfusion h
    | done r' =>
      rw [hl, Run.bind_done] at h
      cases h
      rw [example1_ParseLoop_of_ParseLoop fuel boxes m r hl]
      rfl

theorem example1_Parse_of_Parse (fuel : Nat) (m r : Mp4Reader) (e : Option GoError)
    (h : Mp4.Parse fuel m = .done (r, e)) :
    Example1.Parse fuel (toExample1 m) = .done (toExample1 r, e) := by
  unfold Mp4.Parse at h
  unfold Example1.Parse
  have hread : (toExample1 m).Reader = m.Reader := rfl
  have hsize : (toExample1 m).Size = m.Size := rfl
  rw [hread, hsize]
  by_cases hz : m.Size = 0
  · rw [if_pos hz] at h
    rw [if_pos hz]
    cases hf : m.Reader.file with
    | notFile =>
      rw [hf] at h
      exact example1_ParseBody_of_ParseBody fuel m r e h
    | statError =>
      rw [hf] at h
      cases h
      rfl
    | size n =>
      rw [hf] at h
      exact example1_ParseBody_of_ParseBody fuel { m with Size := n } r e h
  · rw [if_neg hz] at h
    rw [if_neg hz]
    exact example1_ParseBody_of_ParseBody fuel m r e h

/-- C20: whenever `Parse` of `src/mp4_example_02.go` returns on a reader, `Parse`
of `src/example_1.go` returns on the reader with the same source, `Size` and
`Ftyp`, with the same `error` and the same `Ftyp` outcome (absent, or the same
box and the same decoded fields); and the functions `readBoxes`, `ReadBoxAt`,
`ReadBytesAt`, `ReadBoxData` and `FtypBox.parse` of the two files are equal as
functions. -/
theorem example1_agrees_on_ftyp :
    (∀ (fuel : Nat) (m r : Mp4Reader) (e : Option GoError), Parse fuel m = .done (r, e) →
      ∃ r1 : Example1.Mp4Reader,
        Example1.Parse fuel (toExample1 m) = .done (r1, e) ∧ r1.Ftyp = r.Ftyp) ∧
    Example1.readBoxes = readBoxes ∧ Example1.ReadBoxAt = ReadBoxAt ∧
    Example1.ReadBytesAt = ReadBytesAt ∧ Example1.ReadBoxData = Box.ReadBoxData ∧
    Example1.ftypParse = FtypBox.parse :=
  ⟨fun fuel m r e h => ⟨toExample1 r, example1_Parse_of_Parse fuel m r e h, rfl⟩,
   example1_readBoxes_eq, example1_ReadBoxAt_eq, example1_ReadBytesAt_eq,
   example1_ReadBoxData_eq, example1_ftypParse_eq⟩

/-- C20 witness: both versions on the 24-byte `ftyp` source: the version of
`src/example_1.go` returns the same identification record. -/
theorem example1_agrees_on_ftyp_witness :
    ∃ r1 : Example1.Mp4Reader,
      Example1.Parse 1 (toExample1 { Reader := scenarioFtyp24, Size := 24 }) = .done (r1, none) ∧
      r1.Ftyp = some { toBox := ⟨tagFtyp, 24, 0, scenarioFtyp24⟩,
                       MajorBrand := [0x69, 0x73, 0x6F, 0x6D], MinorVersion := 512,
                       CompatibleBrands :=
                         [[0x69, 0x73, 0x6F, 0x32], [0x6D, 0x70, 0x34, 0x31]] } :=
  example1_agrees_on_ftyp.1 1 { Reader := scenarioFtyp24, Size := 24 } _ none
    Parse_scenarioFtyp24

/-! ## C16: the order of the top-level boxes -/

theorem chunks4_eq_chunksOf (k : Nat) :
    ∀ t : List Byte, t.length = 4 * k → chunks4 t = .done (chunksOf t) := by
  induction k with
  | zero =>
    intro t ht
    have : t = [] := List.length_eq_zero.1 (by omega)
    subst this
    rfl
  | succ k ih =>
    intro t ht
    obtain ⟨a, b, c, d, rest, hd⟩ := drop_four t 0 (by omega)
    rw [List.drop_zero] at hd
    subst hd
    have := ih rest (by simp at ht; omega)
    simp [chunks4, chunksOf, this]

/-- The walk over a range made of whole box blocks, with any fuel that is at least
the number of blocks. -/
theorem readBoxes_tiling_ge (m : ReaderAt) (pre post : List Byte) (blks : List (List Byte))
    (fuel : Nat) (hfuel : blks.length ≤ fuel)
    (hd : m.data = pre ++ concatBlocks blks ++ post) (hb : ∀ blk ∈ blks, IsBoxBlock blk)
    (hlen : m.data.length < 9223372036854775808) :
    readBoxes fuel m (pre.length : Int) ((concatBlocks blks).length : Int) =
      .done (boxesOf m (pre.length : Int) blks) := by
  have h := readBoxes_tiling m pre post blks hd hb hlen
  have hm := readBoxes_fuel_mono blks.length (fuel - blks.length) m _ _
    (by rw [h]; exact fun hh => Run.noConfusion hh)
  rw [show blks.length + (fuel - blks.length) = fuel by omega, h] at hm
  exact hm

/-- The decoder `FtypBox.parse` on a decodable `ftyp` block, wherever the block
sits in the source. -/
theorem FtypBox.parse_block (m : ReaderAt) (pre blk rest : List Byte) (name : GoString)
    (hd : m.data = pre ++ blk ++ rest) (hdec : FtypDecodable blk)
    (hlen : m.data.length < 9223372036854775808) :
    FtypBox.parse { toBox := ⟨name, (blk.length : Int), (pre.length : Int), m⟩ } =
      .done { toBox := ⟨name, (blk.length : Int), (pre.length : Int), m⟩,
              MajorBrand := (blk.drop 8).take 4, MinorVersion := be32At blk 12,
              CompatibleBrands := chunksOf (blk.drop 16) } := by
  have hl : m.data.length = pre.length + blk.length + rest.length := by
    rw [hd]
    simp only [List.length_append]
  have hpay := payloadOf_block m pre blk rest name hd (by have := hdec.1; omega)
  have hread := ReadBoxData_of_readable ⟨name, (blk.length : Int), (pre.length : Int), m⟩
    (Int.natCast_nonneg _) (by have := hdec.1; simp only; omega) (by simp only; omega) hlen
  rw [hpay] at hread
  have hcs := chunks4_eq_chunksOf ((blk.length - 16) / 4) ((blk.drop 8).drop 8) (by
    have h1 := hdec.1
    have h2 := hdec.2
    simp only [List.length_drop]
    omega)
  have := FtypBox.parse_eval ⟨name, (blk.length : Int), (pre.length : Int), m⟩ (blk.drop 8) _
    hread (by have := hdec.1; simp only [List.length_drop]; omega) hcs
  rw [this, be32At_drop, List.drop_drop]

theorem concatBlocks_length_ge (blks : List (List Byte)) (hb : ∀ blk ∈ blks, IsBoxBlock blk) :
    blks.length ≤ (concatBlocks blks).length := by
  induction blks with
  | nil => exact Nat.le_refl _
  | cons blk rest ih =>
    have h1 := (hb blk (List.mem_cons_self _ _)).1
    have h2 := ih (fun b hmem => hb b (List.mem_cons_of_mem _ hmem))
    simp only [concatBlocks, List.length_cons, List.length_append]
    omega

/-- The dispatch loop of `MoovBox.parse` over decodable nested blocks: it returns,
and the values of `Mvhd` are those of the last nested block tagged `mvhd`. -/
theorem MoovBox.parseLoop_values (m : ReaderAt) (post : List Byte)
    (hlen : m.data.length < 9223372036854775808) :
    ∀ (nested : List (List Byte)) (pre : List Byte) (b : MoovBox),
      m.data = pre ++ concatBlocks nested ++ post → (∀ n ∈ nested, NestedDecodable n) →
      ∃ b', MoovBox.parseLoop (boxesOf m (pre.length : Int) nested) b = .done b' ∧
        b'.toBox = b.toBox ∧
        b'.Mvhd.map mvhdValues = lastMvhdValues nested (b.Mvhd.map mvhdValues) := by
  intro nested
  induction nested with
  | nil =>
    intro pre b _ _
    exact ⟨b, rfl, rfl, rfl⟩
  | cons n rest ih =>
    intro pre b hd hdec
    have hn := hdec n (List.mem_cons_self _ _)
    have hd1 : m.data = pre ++ n ++ (concatBlocks rest ++ post) := by
      rw [hd]
      simp [concatBlocks, List.append_assoc]
    have hd2 : m.data = (pre ++ n) ++ concatBlocks rest ++ post := by
      rw [hd1]
      simp [List.append_assoc]
    have hl : m.data.length = pre.length + n.length + (concatBlocks rest ++ post).length := by
      rw [hd1]
      simp only [List.length_append]
    have hcast : ((pre ++ n).length : Int) = (pre.length : Int) + (n.length : Int) := by
      simp
    have hrest := fun b' => ih (pre ++ n) b' hd2
      (fun x hx => hdec x (List.mem_cons_of_mem _ hx))
    simp only [boxesOf, MoovBox.parseLoop]
    by_cases htag : (n.drop 4).take 4 = tagMvhd
    · have htag' : blockTag n = tagMvhd := htag
      have h34 := hn.2 htag'
      have hparse := MvhdBox.parse_of_readable
        ⟨(n.drop 4).take 4, (n.length : Int), (pre.length : Int), m⟩
        (by simp only; omega) (Int.natCast_nonneg _) (by simp only; omega) hlen
      rw [payloadOf_block m pre n _ _ hd1 (by omega)] at hparse
      rw [if_pos htag, hparse, Run.bind_done]
      obtain ⟨b', hrun, hbox, hval⟩ := hrest
        { b with Mvhd := some { toBox := ⟨(n.drop 4).take 4, (n.length : Int), (pre.length : Int), m⟩,
                                Version := ((n.drop 8).getD 0 0).val,
                                Timescale := be32At (n.drop 8) 12,
                                Duration := be32At (n.drop 8) 16,
                                Rate := be32At (n.drop 8) 20,
                                Volume := be16At (n.drop 8) 24 } }
      rw [hcast] at hrun
      refine ⟨b', hrun, hbox, ?_⟩
      rw [hval]
      simp only [lastMvhdValues, if_pos htag', Option.map_some', mvhdValues, mvhdValuesOfBlock,
        getD_of_drop n 8 0, be32At_drop, be16At_drop]
    · have htag' : ¬ blockTag n = tagMvhd := htag
      rw [if_neg htag]
      obtain ⟨b', hrun, hbox, hval⟩ := hrest b
      rw [hcast] at hrun
      refine ⟨b', hrun, hbox, ?_⟩
      rw [hval]
      simp only [lastMvhdValues, if_neg htag']

theorem Sibling.bytes_moov_length (nested : List (List Byte)) :
    (Sibling.moov nested).bytes.length = 8 + (concatBlocks nested).length := by
  simp only [Sibling.bytes, List.length_append, moovSource_header_length]

theorem Sibling.bytes_moov_tag (nested : List (List Byte)) :
    blockTag (Sibling.moov nested).bytes = tagMoov := rfl

/-- The bytes of a well-formed top-level box are a whole box block. -/
theorem Sibling.bytes_isBoxBlock (s : Sibling) (h : s.WellFormed) : IsBoxBlock s.bytes := by
  cases s with
  | plain blk => exact h.1
  | moov nested =>
    have hS := h.2
    refine ⟨by rw [Sibling.bytes_moov_length]; omega, ?_⟩
    rw [Sibling.bytes_moov_length]
    simp only [Sibling.bytes]
    rw [encodeHeader, List.append_assoc, beUint32_putUint32 _ (by omega)]

/-- The method `MoovBox.parse` on a well-formed `moov` box, wherever the box sits
in the source: it returns, and the values of `Mvhd` are those of the last nested
block tagged `mvhd`. -/
theorem MoovBox.parse_sibling (m : ReaderAt) (pre rest : List Byte) (nested : List (List Byte))
    (name : GoString) (fuel : Nat) (hfuel : nested.length ≤ fuel)
    (hd : m.data = pre ++ (Sibling.moov nested).bytes ++ rest)
    (hwf : (Sibling.moov nested).WellFormed) (hlen : m.data.length < 9223372036854775808) :
    ∃ mv, MoovBox.parse fuel
        { toBox := ⟨name, ((Sibling.moov nested).bytes.length : Int), (pre.length : Int), m⟩ } =
          .done mv ∧
      mv.Mvhd.map mvhdValues = lastMvhdValues nested none := by
  have hd1 : m.data = (pre ++ encodeHeader (8 + (concatBlocks nested).length) tagMoov) ++
      concatBlocks nested ++ rest := by
    rw [hd]
    simp [Sibling.bytes, List.append_assoc]
  have hl : m.data.length = pre.length + 8 + (concatBlocks nested).length + rest.length := by
    rw [hd1]
    simp only [List.length_append, moovSource_header_length]
  have hpre : ((pre ++ encodeHeader (8 + (concatBlocks nested).length) tagMoov).length : Int) =
      (pre.length : Int) + 8 := by
    rw [List.length_append, moovSource_header_length]
    push_cast
    rfl
  have hwalk := readBoxes_tiling_ge m _ rest nested fuel hfuel hd1 (fun n hn => (hwf.1 n hn).1)
    hlen
  rw [hpre] at hwalk
  have hw1 : wrapInt64 ((pre.length : Int) + BoxHeaderSize) = (pre.length : Int) + 8 := by
    unfold wrapInt64 BoxHeaderSize
    omega
  have hw2 : wrapInt64 ((((Sibling.moov nested).bytes.length : Nat) : Int) - BoxHeaderSize) =
      ((concatBlocks nested).length : Int) := by
    rw [Sibling.bytes_moov_length]
    unfold wrapInt64 BoxHeaderSize
    omega
  obtain ⟨b', hrun, -, hval⟩ := MoovBox.parseLoop_values m rest hlen nested _
    { toBox := ⟨name, ((Sibling.moov nested).bytes.length : Int), (pre.length : Int), m⟩ }
    hd1 hwf.1
  rw [hpre] at hrun
  refine ⟨b', ?_, hval⟩
  unfold MoovBox.parse
  simp only [Run.bind_eq_bind, hw1, hw2, hwalk, Run.bind_done]
  exact hrun

/-- The dispatch loop of `Parse` over well-formed top-level boxes: it returns, and
the decoded values are those of the boxes, taken in their order. -/
theorem ParseLoop_values (m : ReaderAt) (post : List Byte)
    (hlen : m.data.length < 9223372036854775808) (fuel : Nat) (hfuel : m.data.length ≤ fuel) :
    ∀ (sibs : List Sibling) (pre : List Byte) (st : Mp4Reader),
      m.data = pre ++ concatBlocks (sibs.map Sibling.bytes) ++ post →
      (∀ s ∈ sibs, s.WellFormed) →
      ∃ st', ParseLoop fuel (boxesOf m (pre.length : Int) (sibs.map Sibling.bytes)) st =
          .done st' ∧
        st'.Reader = st.Reader ∧ st'.Size = st.Size ∧
        decodedValues st' = sibs.foldl (fun v s => s.stepValues v) (decodedValues st) := by
  intro sibs
  induction sibs with
  | nil =>
    intro pre st _ _
    exact ⟨st, rfl, rfl, rfl, rfl⟩
  | cons s rest ih =>
    intro pre st hd hwf
    have hs := hwf s (List.mem_cons_self _ _)
    have hd1 : m.data = pre ++ s.bytes ++ (concatBlocks (rest.map Sibling.bytes) ++ post) := by
      rw [hd]
      simp [concatBlocks, List.append_assoc]
    have hd2 : m.data = (pre ++ s.bytes) ++ concatBlocks (rest.map Sibling.bytes) ++ post := by
      rw [hd1]
      simp [List.append_assoc]
    have hl : m.data.length =
        pre.length + s.bytes.length + (concatBlocks (rest.map Sibling.bytes) ++ post).length := by
      rw [hd1]
      simp only [List.length_append]
    have hcast : ((pre ++ s.bytes).length : Int) = (pre.length : Int) + (s.bytes.length : Int) := by
      simp
    have hrest := fun st' => ih (pre ++ s.bytes) st' hd2
      (fun x hx => hwf x (List.mem_cons_of_mem _ hx))
    simp only [List.map_cons, boxesOf, ParseLoop, List.foldl_cons]
    cases s with
    | plain blk =>
      have hb : (Sibling.plain blk).bytes = blk := rfl
      rw [hb] at hd1 hl hcast hrest ⊢
      by_cases htag : (blk.drop 4).take 4 = tagFtyp
      · have htag' : blockTag blk = tagFtyp := htag
        rw [if_pos htag, FtypBox.parse_block m pre blk _ _ hd1 (hs.2.2 htag') hlen, Run.bind_done]
        obtain ⟨st', hrun, hrd, hsz, hval⟩ := hrest
          { st with Ftyp := some (FtypBox.mk
              ⟨(blk.drop 4).take 4, (blk.length : Int), (pre.length : Int), m⟩
              ((blk.drop 8).take 4) (be32At blk 12) (chunksOf (blk.drop 16))) }
        rw [hcast] at hrun
        refine ⟨st', hrun, hrd, hsz, ?_⟩
        rw [hval]
        simp only [Sibling.stepValues, if_pos htag']
        rfl
      · have htag' : ¬ blockTag blk = tagFtyp := htag
        have hm : ¬ (blk.drop 4).take 4 = tagMoov := hs.2.1
        rw [if_neg htag, if_neg hm]
        obtain ⟨st', hrun, hrd, hsz, hval⟩ := hrest st
        rw [hcast] at hrun
        refine ⟨st', hrun, hrd, hsz, ?_⟩
        rw [hval]
        simp only [Sibling.stepValues, if_neg htag']
    | moov nested =>
      have htag : ((Sibling.moov nested).bytes.drop 4).take 4 = tagMoov := rfl
      have hnf : ¬ tagMoov = tagFtyp := by decide
      have hcount : nested.length ≤ fuel := by
        have h1 := concatBlocks_length_ge nested (fun n hn => (hs.1 n hn).1)
        have h2 := Sibling.bytes_moov_length nested
        omega
      obtain ⟨mv, hparse, hmv⟩ := MoovBox.parse_sibling m pre _ nested tagMoov fuel hcount hd1 hs
        hlen
      rw [htag, if_neg hnf, if_pos rfl, hparse, Run.bind_done]
      obtain ⟨st', hrun, hrd, hsz, hval⟩ := hrest { st with Moov := some mv }
      rw [hcast] at hrun
      refine ⟨st', hrun, hrd, hsz, ?_⟩
      rw [hval]
      simp only [Sibling.stepValues, decodedValues, Option.map_some', hmv]

/-- The method `Parse` over a source made of well-formed top-level boxes: it
returns no error, and the decoded values are those of the boxes, taken in their
order. -/
theorem Parse_values (sibs : List Sibling) (file : FileStat) (fuel : Nat)
    (hwf : ∀ s ∈ sibs, s.WellFormed)
    (hlen : (concatBlocks (sibs.map Sibling.bytes)).length < 9223372036854775808)
    (hfile : file = .notFile ∨
      file = .size ((concatBlocks (sibs.map Sibling.bytes)).length : Int))
    (hfuel : (concatBlocks (sibs.map Sibling.bytes)).length ≤ fuel) :
    ∃ r, Parse fuel { Reader := siblingsSource sibs file,
                      Size := ((concatBlocks (sibs.map Sibling.bytes)).length : Int) } =
        .done (r, none) ∧
      decodedValues r = sibs.foldl (fun v s => s.stepValues v) (none, none) := by
  have hblk : ∀ blk ∈ sibs.map Sibling.bytes, IsBoxBlock blk := by
    intro blk hmem
    obtain ⟨s, hs, rfl⟩ := List.mem_map.1 hmem
    exact Sibling.bytes_isBoxBlock s (hwf s hs)
  have hcount := concatBlocks_length_ge _ hblk
  have hwalk := readBoxes_tiling_ge (siblingsSource sibs file) [] [] (sibs.map Sibling.bytes) fuel
    (by omega) (by simp [siblingsSource]) hblk hlen
  simp only [List.length_nil, Nat.cast_zero] at hwalk
  obtain ⟨st', hrun, -, -, hval⟩ := ParseLoop_values (siblingsSource sibs file) [] hlen fuel hfuel
    sibs [] { Reader := siblingsSource sibs file,
              Size := ((concatBlocks (sibs.map Sibling.bytes)).length : Int) }
    (by simp [siblingsSource]) hwf
  simp only [List.length_nil, Nat.cast_zero] at hrun
  have hbody : ParseBody fuel
      { Reader := siblingsSource sibs file,
        Size := ((concatBlocks (sibs.map Sibling.bytes)).length : Int) } = .done (st', none) := by
    unfold ParseBody
    simp only [Run.bind_eq_bind, Run.pure_eq_done, hwalk, Run.bind_done, hrun]
  refine ⟨st', ?_, hval⟩
  unfold Parse
  by_cases hz : ((concatBlocks (sibs.map Sibling.bytes)).length : Int) = 0
  · simp only
    rw [if_pos hz]
    have hfile' : (siblingsSource sibs file).file = file := rfl
    rcases hfile with hf | hf
    · rw [hfile']
      simp only [hf]
      rw [hf] at hbody
      exact hbody
    · rw [hfile']
      simp only [hf]
      rw [hf] at hbody
      exact hbody
  · simp only
    rw [if_neg hz]
    exact hbody

theorem foldl_stepValues_fst :
    ∀ (sibs : List Sibling)
      (v : Option (GoString × Nat × List GoString) ×
        Option (Option (Nat × Nat × Nat × Nat × Nat))),
      (sibs.foldl (fun v s => s.stepValues v) v).1 =
        ((sibs.filter Sibling.isFtyp).map fun s => ftypValuesOfBlock s.bytes).foldl
          (fun _ x => some x) v.1
  | [], _ => rfl
  | .moov nested :: rest, v => by
    rw [List.foldl_cons, foldl_stepValues_fst rest]
    rfl
  | .plain blk :: rest, v => by
    rw [List.foldl_cons, foldl_stepValues_fst rest]
    by_cases htag : blockTag blk = tagFtyp
    · have hf : Sibling.isFtyp (.plain blk) = true := by simp [Sibling.isFtyp, htag]
      rw [List.filter_cons_of_pos hf]
      simp only [Sibling.stepValues, if_pos htag, List.map_cons, List.foldl_cons]
      rfl
    · have hf : ¬ Sibling.isFtyp (.plain blk) = true := by simp [Sibling.isFtyp, htag]
      rw [List.filter_cons_of_neg hf]
      simp only [Sibling.stepValues, if_neg htag]

theorem foldl_stepValues_snd :
    ∀ (sibs : List Sibling)
      (v : Option (GoString × Nat × List GoString) ×
        Option (Option (Nat × Nat × Nat × Nat × Nat))),
      (sibs.foldl (fun v s => s.stepValues v) v).2 =
        ((sibs.filter Sibling.isMoov).map Sibling.moovValue).foldl (fun _ x => some x) v.2
  | [], _ => rfl
  | .moov nested :: rest, v => by
    rw [List.foldl_cons, foldl_stepValues_snd rest]
    rfl
  | .plain blk :: rest, v => by
    rw [List.foldl_cons, foldl_stepValues_snd rest]
    have hf : ¬ Sibling.isMoov (.plain blk) = true := by simp [Sibling.isMoov]
    rw [List.filter_cons_of_neg hf]
    by_cases htag : blockTag blk = tagFtyp
    · simp only [Sibling.stepValues, if_pos htag]
    · simp only [Sibling.stepValues, if_neg htag]

theorem filter_isFtyp_recognised (sibs : List Sibling) :
    (sibs.filter Sibling.recognised).filter Sibling.isFtyp = sibs.filter Sibling.isFtyp := by
  rw [List.filter_filter]
  congr 1
  funext s
  cases h : s.isFtyp <;> simp [Sibling.recognised, h]

theorem filter_isMoov_recognised (sibs : List Sibling) :
    (sibs.filter Sibling.recognised).filter Sibling.isMoov = sibs.filter Sibling.isMoov := by
  rw [List.filter_filter]
  congr 1
  funext s
  cases h : s.isMoov <;> simp [Sibling.recognised, h]

theorem perm_eq_of_length_le_one {α : Type} (l l' : List α) (hp : l.Perm l')
    (h : l.length ≤ 1) : l = l' := by
  match l, h with
  | [], _ => exact hp.nil_eq
  | [a], _ => exact List.singleton_perm.1 hp

/-- The decoded values depend on the recognised boxes only, and, when at most one
box is tagged `ftyp` and at most one `moov`, not on their order. -/
theorem foldl_stepValues_of_recognised_perm (sibs sibs' : List Sibling)
    (hftyp : (sibs.filter Sibling.isFtyp).length ≤ 1)
    (hmoov : (sibs.filter Sibling.isMoov).length ≤ 1)
    (hrel : (sibs.filter Sibling.recognised).Perm (sibs'.filter Sibling.recognised))
    (v : Option (GoString × Nat × List GoString) ×
      Option (Option (Nat × Nat × Nat × Nat × Nat))) :
    sibs.foldl (fun v s => s.stepValues v) v = sibs'.foldl (fun v s => s.stepValues v) v := by
  have hf : sibs.filter Sibling.isFtyp = sibs'.filter Sibling.isFtyp := by
    apply perm_eq_of_length_le_one _ _ _ hftyp
    rw [← filter_isFtyp_recognised sibs, ← filter_isFtyp_recognised sibs']
    exact hrel.filter _
  have hm : sibs.filter Sibling.isMoov = sibs'.filter Sibling.isMoov := by
    apply perm_eq_of_length_le_one _ _ _ hmoov
    rw [← filter_isMoov_recognised sibs, ← filter_isMoov_recognised sibs']
    exact hrel.filter _
  apply Prod.ext
  · rw [foldl_stepValues_fst, foldl_stepValues_fst, hf]
  · rw [foldl_stepValues_snd, foldl_stepValues_snd, hm]

/-- The same recognised boxes in the same order give the same decoded values. -/
theorem foldl_stepValues_of_recognised_eq (sibs sibs' : List Sibling)
    (hrel : sibs.filter Sibling.recognised = sibs'.filter Sibling.recognised)
    (v : Option (GoString × Nat × List GoString) ×
      Option (Option (Nat × Nat × Nat × Nat × Nat))) :
    sibs.foldl (fun v s => s.stepValues v) v = sibs'.foldl (fun v s => s.stepValues v) v := by
  apply Prod.ext
  · rw [foldl_stepValues_fst, foldl_stepValues_fst, ← filter_isFtyp_recognised sibs,
      ← filter_isFtyp_recognised sibs', hrel]
  · rw [foldl_stepValues_snd, foldl_stepValues_snd, ← filter_isMoov_recognised sibs,
      ← filter_isMoov_recognised sibs', hrel]

theorem concatBlocks_length_perm (l l' : List (List Byte)) (hp : l.Perm l') :
    (concatBlocks l).length = (concatBlocks l').length := by
  induction hp with
  | nil => rfl
  | cons x _ ih => simp only [concatBlocks, List.length_append, ih]
  | swap x y l =>
    simp only [concatBlocks, List.length_append]
    omega
  | trans _ _ ih1 ih2 => exact ih1.trans ih2

/-- C16: for every list of well-formed, decodable top-level boxes with at most
one box tagged `ftyp` and at most one tagged `moov`, and every permutation of it,
`Parse` over the concatenation of the boxes and `Parse` over the concatenation of
the permuted boxes both return no error and leave the same decoded values
(`MajorBrand`, `MinorVersion`, `CompatibleBrands`, and the `Version`,
`Timescale`, `Duration`, `Rate`, `Volume` of the `Mvhd` of `Moov`); and two lists
of well-formed boxes that differ only in boxes with unrecognised tags (one arises
from the other by inserting or removing such boxes) leave the same decoded values
too. -/
theorem Parse_order_independent :
    (∀ (sibs sibs' : List Sibling) (file file' : FileStat), sibs.Perm sibs' →
      (∀ s ∈ sibs, s.WellFormed) →
      (sibs.filter Sibling.isFtyp).length ≤ 1 → (sibs.filter Sibling.isMoov).length ≤ 1 →
      (concatBlocks (sibs.map Sibling.bytes)).length < 9223372036854775808 →
      (file = .notFile ∨ file = .size ((concatBlocks (sibs.map Sibling.bytes)).length : Int)) →
      (file' = .notFile ∨
        file' = .size ((concatBlocks (sibs'.map Sibling.bytes)).length : Int)) →
      ∃ fuel r r',
        Parse fuel { Reader := siblingsSource sibs file,
                     Size := ((concatBlocks (sibs.map Sibling.bytes)).length : Int) } =
          .done (r, none) ∧
        Parse fuel { Reader := siblingsSource sibs' file',
                     Size := ((concatBlocks (sibs'.map Sibling.bytes)).length : Int) } =
          .done (r', none) ∧
        decodedValues r = decodedValues r') ∧
    (∀ (sibs sibs' : List Sibling) (file file' : FileStat),
      sibs.filter Sibling.recognised = sibs'.filter Sibling.recognised →
      (∀ s ∈ sibs, s.WellFormed) → (∀ s ∈ sibs', s.WellFormed) →
      (concatBlocks (sibs.map Sibling.bytes)).length < 9223372036854775808 →
      (concatBlocks (sibs'.map Sibling.bytes)).length < 9223372036854775808 →
      (file = .notFile ∨ file = .size ((concatBlocks (sibs.map Sibling.bytes)).length : Int)) →
      (file' = .notFile ∨
        file' = .size ((concatBlocks (sibs'.map Sibling.bytes)).length : Int)) →
      ∃ fuel r r',
        Parse fuel { Reader := siblingsSource sibs file,
                     Size := ((concatBlocks (sibs.map Sibling.bytes)).length : Int) } =
          .done (r, none) ∧
        Parse fuel { Reader := siblingsSource sibs' file',
                     Size := ((concatBlocks (sibs'.map Sibling.bytes)).length : Int) } =
          .done (r', none) ∧
        decodedValues r = decodedValues r') := by
  constructor
  · intro sibs sibs' file file' hperm hwf hftyp hmoov hlen hfile hfile'
    have hwf' : ∀ s ∈ sibs', s.WellFormed := fun s hs => hwf s (hperm.mem_iff.2 hs)
    have hleq := concatBlocks_length_perm _ _ (hperm.map Sibling.bytes)
    obtain ⟨r, hr, hv⟩ := Parse_values sibs file (concatBlocks (sibs.map Sibling.bytes)).length
      hwf hlen hfile (le_refl _)
    obtain ⟨r', hr', hv'⟩ := Parse_values sibs' file'
      (concatBlocks (sibs.map Sibling.bytes)).length hwf' (by omega) hfile' (by omega)
    refine ⟨_, r, r', hr, hr', ?_⟩
    rw [hv, hv']
    exact foldl_stepValues_of_recognised_perm sibs sibs' hftyp hmoov (hperm.filter _) _
  · intro sibs sibs' file file' hrel hwf hwf' hlen hlen' hfile hfile'
    obtain ⟨r, hr, hv⟩ := Parse_values sibs file
      (max (concatBlocks (sibs.map Sibling.bytes)).length
        (concatBlocks (sibs'.map Sibling.bytes)).length)
      hwf hlen hfile (le_max_left _ _)
    obtain ⟨r', hr', hv'⟩ := Parse_values sibs' file'
      (max (concatBlocks (sibs.map Sibling.bytes)).length
        (concatBlocks (sibs'.map Sibling.bytes)).length)
      hwf' hlen' hfile' (le_max_right _ _)
    refine ⟨_, r, r', hr, hr', ?_⟩
    rw [hv, hv']
    exact foldl_stepValues_of_recognised_eq sibs sibs' hrel _

/-- C16 witness: the boxes `ftyp`, `free`, `moov` (holding `free` and `mvhd`) and
the order `moov`, `ftyp`, `free`; and the same `ftyp` and `moov` with the `free`
box removed. -/
theorem Parse_order_independent_witness :
    (∃ fuel r r',
        Parse fuel { Reader := siblingsSource
                       [.plain ftypBlock, .plain freeBlock, .moov [freeBlock, mvhdBlock]] .notFile,
                     Size := ((concatBlocks (List.map Sibling.bytes
                       [.plain ftypBlock, .plain freeBlock,
                        .moov [freeBlock, mvhdBlock]])).length : Int) } = .done (r, none) ∧
        Parse fuel { Reader := siblingsSource
                       [.moov [freeBlock, mvhdBlock], .plain ftypBlock, .plain freeBlock] .notFile,
                     Size := ((concatBlocks (List.map Sibling.bytes
                       [.moov [freeBlock, mvhdBlock], .plain ftypBlock,
                        .plain freeBlock])).length : Int) } = .done (r', none) ∧
        decodedValues r = decodedValues r') ∧
    (∃ fuel r r',
        Parse fuel { Reader := siblingsSource
                       [.plain ftypBlock, .plain freeBlock, .moov [freeBlock, mvhdBlock]] .notFile,
                     Size := ((concatBlocks (List.map Sibling.bytes
                       [.plain ftypBlock, .plain freeBlock,
                        .moov [freeBlock, mvhdBlock]])).length : Int) } = .done (r, none) ∧
        Parse fuel { Reader := siblingsSource
                       [.plain ftypBlock, .moov [freeBlock, mvhdBlock]] .notFile,
                     Size := ((concatBlocks (List.map Sibling.bytes
                       [.plain ftypBlock, .moov [freeBlock, mvhdBlock]])).length : Int) } =
          .done (r', none) ∧
        decodedValues r = decodedValues r') :=
  ⟨Parse_order_independent.1
      [.plain ftypBlock, .plain freeBlock, .moov [freeBlock, mvhdBlock]]
      [.moov [freeBlock, mvhdBlock], .plain ftypBlock, .plain freeBlock] .notFile .notFile
      (by decide) (by decide) (by decide) (by decide) (by decide) (Or.inl rfl) (Or.inl rfl),
   Parse_order_independent.2
      [.plain ftypBlock, .plain freeBlock, .moov [freeBlock, mvhdBlock]]
      [.plain ftypBlock, .moov [freeBlock, mvhdBlock]] .notFile .notFile
      (by decide) (by decide) (by decide) (by decide) (by decide) (Or.inl rfl) (Or.inl rfl)⟩

end Mp4
